import Mathlib

/-!
A shallow embedding of the `kvs` log-structured key-value store
(`src/lib.rs`).  The file system is modelled in memory: a directory is a
finite association list from file name to file content, and a file's
content is the list of its newline-terminated lines (every line the
engine writes is `serde_json::to_string` output followed by a newline, and
the JSON encoder escapes every raw newline, so a file is exactly a list of
newline-free lines).  Byte offsets and file lengths are computed from the
UTF-8 byte size of each line plus one for its terminating newline, which
agrees with the byte counts `stream_len`/`stream_position`/`metadata().len`
return in the source.

Machine integers (`u32` file ids, `u64` offsets) are modelled as `Nat`;
none of the modelled operations can overflow them except the `u32`
increment of `current_file_id`, which would require 2^32 rotations of a
1 MiB log and is not reached by any statement below.
-/

/-- Mirrors `enum KvError` from the source: `IoError` and `SerdeError`
carry lower-layer error values that the model does not inspect, and the
operational variant carries its message. -/
inductive KvError where
  | IoError : KvError
  | SerdeError : KvError
  | KvError : String → KvError
deriving DecidableEq, Repr

/-- Mirrors `enum KvCommand`: the record written to a log segment. -/
inductive KvCommand where
  | Set : String → String → KvCommand
  | Get : String → KvCommand
  | Rm : String → KvCommand
deriving DecidableEq, Repr

/-- Mirrors `struct KvLocation`: where the latest `Set` for a key lives. -/
structure KvLocation where
  file_id : Nat
  offset : Nat
deriving DecidableEq, Repr

/-- Mirrors `struct KvStore` minus its `path` field: the model passes the
single root directory (a `Disk`) alongside the store explicitly, so the
path adds nothing.  `file_ids` is the `HashSet<u32>` as a duplicate-free
list, `cache` is the `HashMap<String, KvLocation>` as an association
list. -/
structure KvStore where
  current_file_id : Nat
  file_ids : List Nat
  cache : List (String × KvLocation)
deriving DecidableEq, Repr

/-- `const LOG_FILE_SIZE: u64 = 1 * 1024 * 1024`. -/
def LOG_FILE_SIZE : Nat := 1 * 1024 * 1024

/-- `const LOG_COMPACTION_COUNT: u32 = 10`. -/
def LOG_COMPACTION_COUNT : Nat := 10

/-! ## Record codec

The source serializes a `KvCommand` with `serde_json::to_string` and
deserializes with `serde_json::from_str`.  serde_json is an external
crate, so its behaviour on this enum is modelled here: a tuple variant
serializes as `\x7b"Set":["k","v"]\x7d`, newtype variants as
`\x7b"Get":"k"\x7d` / `\x7b"Rm":"k"\x7d`, and JSON strings escape the
quote, the backslash and every control character (with the usual short
escapes for backspace, form feed, newline, carriage return and tab, and
`\u00XX` otherwise); all other characters pass through unescaped.  The
decoder parses exactly that grammar back. -/

/-- Lowercase hex digit, as serde_json emits inside `\u00XX` escapes. -/
def hexDigitChar (n : Nat) : Char :=
  match n with
  | 0 => '0' | 1 => '1' | 2 => '2' | 3 => '3' | 4 => '4'
  | 5 => '5' | 6 => '6' | 7 => '7' | 8 => '8' | 9 => '9'
  | 10 => 'a' | 11 => 'b' | 12 => 'c' | 13 => 'd' | 14 => 'e' | _ => 'f'

/-- JSON string escaping of one character, following serde_json's escape
table. -/
def escapeChar (c : Char) : List Char :=
  if c = '"' then ['\\', '"']
  else if c = '\\' then ['\\', '\\']
  else if c = '\x08' then ['\\', 'b']
  else if c = '\x0c' then ['\\', 'f']
  else if c = '\n' then ['\\', 'n']
  else if c = '\r' then ['\\', 'r']
  else if c = '\t' then ['\\', 't']
  else if c.toNat < 32 then
    ['\\', 'u', '0', '0', hexDigitChar (c.toNat / 16), hexDigitChar (c.toNat % 16)]
  else [c]

/-- JSON string escaping of a character list. -/
def escapeList (l : List Char) : List Char :=
  l.foldr (fun c acc => escapeChar c ++ acc) []

/-- `serde_json::to_string` on a `KvCommand` (without the trailing newline
that `writeln!` adds). -/
def encode : KvCommand → String
  | .Set k v =>
    ⟨'{' :: '"' :: 'S' :: 'e' :: 't' :: '"' :: ':' :: '[' :: '"' ::
      (escapeList k.data ++ '"' :: ',' :: '"' ::
        (escapeList v.data ++ ['"', ']', '}']))⟩
  | .Get k =>
    ⟨'{' :: '"' :: 'G' :: 'e' :: 't' :: '"' :: ':' :: '"' ::
      (escapeList k.data ++ ['"', '}'])⟩
  | .Rm k =>
    ⟨'{' :: '"' :: 'R' :: 'm' :: '"' :: ':' :: '"' ::
      (escapeList k.data ++ ['"', '}'])⟩

/-- Value of a hex digit character, either case accepted. -/
def parseHexDigit (c : Char) : Option Nat :=
  if '0' ≤ c ∧ c ≤ '9' then some (c.toNat - 48)
  else if 'a' ≤ c ∧ c ≤ 'f' then some (c.toNat - 87)
  else if 'A' ≤ c ∧ c ≤ 'F' then some (c.toNat - 55)
  else none

/-- The four-hex-digit payload of a `\uXXXX` escape: returns the denoted
character (which must be a valid unicode scalar value) and the remaining
input. -/
def parseHex4 : List Char → Option (Char × List Char)
  | h1 :: h2 :: h3 :: h4 :: rest =>
    match parseHexDigit h1, parseHexDigit h2, parseHexDigit h3, parseHexDigit h4 with
    | some d1, some d2, some d3, some d4 =>
      let code := ((d1 * 16 + d2) * 16 + d3) * 16 + d4
      if code.isValidChar then some (Char.ofNat code, rest) else none
    | _, _, _, _ => none
  | _ => none

/-- Decodes one JSON escape sequence (the input starts right after the
backslash): returns the denoted character and the remaining input. -/
def parseEscapeSeq : List Char → Option (Char × List Char)
  | [] => none
  | e :: rest =>
    if e = 'u' then parseHex4 rest
    else
      (if e = '"' then some '"'
       else if e = '\\' then some '\\'
       else if e = '/' then some '/'
       else if e = 'b' then some '\x08'
       else if e = 'f' then some '\x0c'
       else if e = 'n' then some '\n'
       else if e = 'r' then some '\r'
       else if e = 't' then some '\t'
       else none).map (fun ch => (ch, rest))

theorem parseHex4_shrinks :
    ∀ l ch rest, parseHex4 l = some (ch, rest) → rest.length < l.length := by
  intro l ch rest h
  match l with
  | [] => exact absurd h (by simp [parseHex4])
  | [a] => exact absurd h (by simp [parseHex4])
  | [a, b] => exact absurd h (by simp [parseHex4])
  | [a, b, c] => exact absurd h (by simp [parseHex4])
  | a :: b :: c :: d :: tl =>
    rw [parseHex4] at h
    split at h
    · dsimp only at h
      split at h
      · injection h with h
        injection h with _ h
        subst h
        simp
        omega
      · exact absurd h (by simp)
    · exact absurd h (by simp)

theorem parseEscapeSeq_shrinks :
    ∀ l ch rest, parseEscapeSeq l = some (ch, rest) → rest.length < l.length := by
  intro l ch rest h
  match l with
  | [] => exact absurd h (by simp [parseEscapeSeq])
  | e :: tl =>
    rw [parseEscapeSeq] at h
    split at h
    · exact Nat.lt_succ_of_lt (parseHex4_shrinks _ _ _ h)
    · rcases Option.map_eq_some'.mp h with ⟨ch₂, _, hpair⟩
      injection hpair with _ h
      subst h
      simp

/-- Parses the body of a JSON string after its opening quote: returns the
decoded characters and the input remaining after the closing quote.
Raw control characters are rejected and escape sequences are decoded. -/
def parseStringBody : List Char → Option (List Char × List Char)
  | [] => none
  | c :: rest =>
    if c = '"' then some ([], rest)
    else if c = '\\' then
      match h : parseEscapeSeq rest with
      | none => none
      | some (ch, rest₂) => (parseStringBody rest₂).map (fun p => (ch :: p.1, p.2))
    else if c.toNat < 32 then none
    else (parseStringBody rest).map (fun p => (c :: p.1, p.2))
termination_by l => l.length
decreasing_by
  · exact Nat.lt_succ_of_lt (parseEscapeSeq_shrinks _ _ _ h)
  · simp

/-- `serde_json::from_str::<KvCommand>` on an already-trimmed line,
accepting the canonical grammar that `encode` emits. -/
def decode (s : String) : Except Unit KvCommand :=
  match s.data with
  | '{' :: '"' :: rest =>
    match parseStringBody rest with
    | none => .error ()
    | some (tag, rest₂) =>
      if tag = ['S', 'e', 't'] then
        match rest₂ with
        | ':' :: '[' :: '"' :: rest₃ =>
          match parseStringBody rest₃ with
          | some (k, ',' :: '"' :: rest₄) =>
            match parseStringBody rest₄ with
            | some (v, [']', '}']) => .ok (.Set ⟨k⟩ ⟨v⟩)
            | _ => .error ()
          | _ => .error ()
        | _ => .error ()
      else if tag = ['G', 'e', 't'] then
        match rest₂ with
        | ':' :: '"' :: rest₃ =>
          match parseStringBody rest₃ with
          | some (k, ['}']) => .ok (.Get ⟨k⟩)
          | _ => .error ()
        | _ => .error ()
      else if tag = ['R', 'm'] then
        match rest₂ with
        | ':' :: '"' :: rest₃ =>
          match parseStringBody rest₃ with
          | some (k, ['}']) => .ok (.Rm ⟨k⟩)
          | _ => .error ()
        | _ => .error ()
      else .error ()
  | _ => .error ()

/-! ## Rust `str::trim` -/

/-- Rust's `char::is_whitespace`: the characters with the Unicode
White_Space property. -/
def isRustWhitespace (c : Char) : Bool :=
  let n := c.toNat
  (9 ≤ n && n ≤ 13) || n = 32 || n = 133 || n = 160 || n = 5760 ||
  (8192 ≤ n && n ≤ 8202) || n = 8232 || n = 8233 || n = 8239 ||
  n = 8287 || n = 12288

/-- Whitespace trimming on a character list, both ends. -/
def trimChars (l : List Char) : List Char :=
  ((l.dropWhile isRustWhitespace).reverse.dropWhile isRustWhitespace).reverse

/-- Rust's `str::trim`, as applied to each line before decoding. -/
def rustTrim (s : String) : String := ⟨trimChars s.data⟩

/-! ## Byte sizes and reading a file at a byte offset -/

/-- UTF-8 byte length of a character list (the byte length Rust's file
positions count). -/
def utf8Len (l : List Char) : Nat := l.foldr (fun c acc => c.utf8Size + acc) 0

/-- On-disk byte size of a file stored as its list of newline-terminated
lines: each line contributes its UTF-8 length plus one newline byte.
This is what `stream_len` and `metadata().len()` return. -/
def fileSize (lines : List String) : Nat :=
  lines.foldr (fun l acc => utf8Len l.data + 1 + acc) 0

/-- Drops `n` leading UTF-8 bytes from a character list; `none` when `n`
falls strictly inside a multi-byte character (a read starting there would
not be valid UTF-8, which makes `read_line` fail). -/
def dropBytes : List Char → Nat → Option (List Char)
  | l, 0 => some l
  | [], _ + 1 => none
  | c :: cs, n + 1 =>
    if c.utf8Size ≤ n + 1 then dropBytes cs (n + 1 - c.utf8Size) else none

/-- Models `seek(SeekFrom::Start(off))` followed by one `read_line` on a
file stored as lines: seeking past end-of-file reads the empty string,
seeking inside a line reads the rest of that line (its trailing newline
is dropped here; `trim` would drop it anyway), and a seek landing inside
a multi-byte character makes the read fail. -/
def readLineAt : List String → Nat → Except Unit String
  | [], _ => .ok ""
  | l :: ls, off =>
    if off < utf8Len l.data + 1 then
      match dropBytes l.data off with
      | some suffix => .ok ⟨suffix⟩
      | none => .error ()
    else readLineAt ls (off - (utf8Len l.data + 1))

/-! ## The in-memory maps and the in-memory directory -/

/-- The `HashMap<String, KvLocation>` index, as an association list whose
first binding for a key is its value. -/
abbrev Cache := List (String × KvLocation)

/-- `HashMap::get`. -/
def cacheLookup (k : String) : Cache → Option KvLocation
  | [] => none
  | p :: rest => if p.1 = k then some p.2 else cacheLookup k rest

/-- `HashMap::insert`: replaces the binding in place or appends it. -/
def cacheInsert (k : String) (loc : KvLocation) : Cache → Cache
  | [] => [(k, loc)]
  | p :: rest => if p.1 = k then (k, loc) :: rest else p :: cacheInsert k loc rest

/-- `HashMap::remove` (the bindings it leaves behind): drops every
binding of `k`. -/
def cacheRemove (k : String) : Cache → Cache
  | [] => []
  | p :: rest => if p.1 = k then cacheRemove k rest else p :: cacheRemove k rest

/-- `HashSet<u32>::insert` on a duplicate-free list. -/
def idsInsert (i : Nat) (l : List Nat) : List Nat :=
  if i ∈ l then l else l ++ [i]

/-- `HashSet<u32>::remove`. -/
def idsErase (i : Nat) : List Nat → List Nat
  | [] => []
  | j :: rest => if j = i then idsErase i rest else j :: idsErase i rest

/-- The root directory: file name to file content (content = list of
newline-terminated lines, stored without their newlines). -/
abbrev Disk := List (String × List String)

/-- Opening an existing file: `File::open` / `OpenOptions::open` without
`create`. -/
def diskLookup (d : Disk) (name : String) : Option (List String) :=
  match d with
  | [] => none
  | p :: rest => if p.1 = name then some p.2 else diskLookup rest name

/-- Writing a file's new content (append via `OpenOptions` rewrites the
entry with the longer content; a fresh name is created). -/
def diskInsert (d : Disk) (name : String) (lines : List String) : Disk :=
  match d with
  | [] => [(name, lines)]
  | p :: rest =>
    if p.1 = name then (name, lines) :: rest else p :: diskInsert rest name lines

/-- Removes a file entry by name. -/
def diskErase (d : Disk) (name : String) : Disk :=
  match d with
  | [] => []
  | p :: rest => if p.1 = name then diskErase rest name else p :: diskErase rest name

/-- `std::fs::remove_file`: fails when the file does not exist. -/
def removeFile (d : Disk) (name : String) : Option Disk :=
  match diskLookup d name with
  | none => none
  | some _ => some (diskErase d name)

/-- The directory listing `read_dir` yields (in unspecified order; the
source sorts it before use). -/
def diskNames (d : Disk) : List String := d.map (fun p => p.1)

/-! ## Segment file naming and directory listing -/

/-- Worker for `natDigits` with an explicit recursion bound, so that the
definition stays structurally recursive (and kernel-reducible). -/
def natDigitsAux : Nat → Nat → List Char
  | 0, _ => []
  | fuel + 1, n =>
    if n < 10 then [hexDigitChar n]
    else natDigitsAux fuel (n / 10) ++ [hexDigitChar (n % 10)]

/-- Decimal digit characters of a natural number, most significant
first (what Rust's decimal `Display` produces). -/
def natDigits (n : Nat) : List Char := natDigitsAux (n + 1) n

theorem natDigitsAux_fuel :
    ∀ n f₁ f₂, n < f₁ → n < f₂ → natDigitsAux f₁ n = natDigitsAux f₂ n := by
  intro n
  induction n using Nat.strong_induction_on with
  | _ n ih =>
    intro f₁ f₂ h₁ h₂
    match f₁, f₂ with
    | fa + 1, fb + 1 =>
      rw [natDigitsAux, natDigitsAux]
      by_cases hn : n < 10
      · simp [hn]
      · have hd : n / 10 < n := Nat.div_lt_self (by omega) (by omega)
        have hda : n / 10 < fa := by omega
        have hdb : n / 10 < fb := by omega
        simp [hn, ih (n / 10) hd fa fb hda hdb]

/-- The intended recursion of `natDigits`. -/
theorem natDigits_eq (n : Nat) :
    natDigits n = if n < 10 then [hexDigitChar n]
      else natDigits (n / 10) ++ [hexDigitChar (n % 10)] := by
  unfold natDigits
  rw [natDigitsAux]
  by_cases hn : n < 10
  · simp [hn]
  · have hd : n / 10 < n := Nat.div_lt_self (by omega) (by omega)
    simp [hn, natDigitsAux_fuel (n / 10) n (n / 10 + 1) hd (by omega)]

/-- Rust's `format!("\x7b:09\x7d", id)`: the decimal digits of `id`,
left-padded with zeros to at least nine characters. -/
def pad9 (n : Nat) : List Char :=
  List.replicate (9 - (natDigits n).length) '0' ++ natDigits n

/-- `fn file_path`: the segment file name for a file id (the root
directory prefix is implicit; the model's disk holds bare names). -/
def file_path (file_id : Nat) : String :=
  ⟨pad9 file_id ++ ['.', 'l', 'o', 'g']⟩

/-- Splits a reversed character list at its first dot: returns
(characters before the dot in the reversed list, the remainder). -/
def revSplitDot : List Char → Option (List Char × List Char)
  | [] => none
  | c :: rest =>
    if c = '.' then some ([], rest)
    else (revSplitDot rest).map (fun p => (c :: p.1, p.2))

/-- Rust's `Path::file_stem` and `Path::extension` on a bare file name:
no dot, or only a leading dot, means no extension; otherwise the stem is
everything before the last dot and the extension everything after it. -/
def extStem (name : String) : String × Option String :=
  match revSplitDot name.data.reverse with
  | none => (name, none)
  | some (extRev, stemRev) =>
    if stemRev = [] then (name, none)
    else (⟨stemRev.reverse⟩, some ⟨extRev.reverse⟩)

/-- Value of a decimal digit character. -/
def digitVal (c : Char) : Option Nat :=
  if '0' ≤ c ∧ c ≤ '9' then some (c.toNat - 48) else none

/-- Digit-folding loop of `u32::from_str`, failing on a non-digit and on
overflow past `u32::MAX`. -/
def parseU32Go : List Char → Nat → Option Nat
  | [], acc => some acc
  | c :: rest, acc =>
    match digitVal c with
    | none => none
    | some dv =>
      if acc * 10 + dv < 4294967296 then parseU32Go rest (acc * 10 + dv) else none

/-- Rust's `str::parse::<u32>`: an optional leading plus sign, then at
least one decimal digit, no overflow. -/
def parseU32 (s : String) : Option Nat :=
  match s.data with
  | [] => none
  | '+' :: rest => if rest = [] then none else parseU32Go rest 0
  | l => parseU32Go l 0

/-- Strict lexicographic order on character lists.  Rust's `Ord` on
paths compares the underlying bytes; comparing unicode scalar values
characterwise agrees with that, because UTF-8 preserves scalar order. -/
def charListLt : List Char → List Char → Bool
  | _, [] => false
  | [], _ :: _ => true
  | a :: as, b :: bs => if a < b then true else if b < a then false else charListLt as bs

/-- The (non-strict) path order used to sort the directory listing. -/
def strLe (a b : String) : Prop := charListLt b.data a.data = false

instance : DecidableRel strLe := fun a b => by unfold strLe; infer_instance

/-- The `for` loop of `fn load_file_ids` over the sorted paths, with its
`res` accumulator: keep the files with extension `log` and parse each
stem as a `u32`, propagating the parse error. -/
def loadIdsGo : List String → List Nat → Except KvError (List Nat)
  | [], acc => .ok acc
  | name :: rest, acc =>
    match (extStem name).2 with
    | some ext =>
      if ext = "log" then
        match parseU32 (extStem name).1 with
        | some logId => loadIdsGo rest (acc ++ [logId])
        | none => .error (.KvError "Error parsing Int")
      else loadIdsGo rest acc
    | none => loadIdsGo rest acc

/-- `fn load_file_ids`: sort the directory entries, keep those with
extension `log`, parse each stem as a `u32` (propagating the parse
error), and return the ids in path-sorted order. -/
def load_file_ids (names : List String) : Except KvError (List Nat) :=
  loadIdsGo (List.insertionSort strLe names) []

/-! ## The store operations -/

/-- One replay step of `update_cache`'s loop body: apply a decoded record
to the index under construction. -/
def applyCmd (log_id off : Nat) (cache : Cache) : KvCommand → Cache
  | .Set k _ => cacheInsert k ⟨log_id, off⟩ cache
  | .Rm k => cacheRemove k cache
  | .Get _ => cache

/-- The `while let Ok(read) = read_line` loop of `fn update_cache`, at
the granularity of individual `read_line` results: an `Except.error`
entry is a read that failed with an I/O error.  Exactly as in the
source, a failed read makes the `while let` pattern mismatch, so the
loop stops and the partially built cache is returned with `Ok`; only a
decode failure of a successfully read line aborts with an error.
`off` tracks `stream_position` (the running byte offset). -/
def replayReads (log_id : Nat) : Cache → Nat → List (Except Unit String) → Except KvError Cache
  | cache, _, [] => .ok cache
  | cache, _, .error _ :: _ => .ok cache
  | cache, off, .ok line :: rest =>
    match decode (rustTrim line) with
    | .error _ => .error .SerdeError
    | .ok cmd =>
      replayReads log_id (applyCmd log_id off cache cmd) (off + utf8Len line.data + 1) rest

/-- `fn update_cache`: open the segment file and replay it into the
cache.  Reads from the in-memory disk always succeed, so the reads list
is the file's lines, all wrapped in `Except.ok`. -/
def update_cache (cache : Cache) (log_id : Nat) (d : Disk) : Except KvError Cache :=
  match diskLookup d (file_path log_id) with
  | none => .error .IoError
  | some lines => replayReads log_id cache 0 (lines.map .ok)

/-- `KvStore::open`: list the segment ids, take the last listed id (or 0)
as the current id, replay every listed segment in listed order into a
fresh cache. -/
def KvStore.open (d : Disk) : Except KvError KvStore :=
  match load_file_ids (diskNames d) with
  | .error e => .error e
  | .ok ids =>
    match ids.foldlM (fun c i => update_cache c i d) ([] : Cache) with
    | .error e => .error e
    | .ok cache => .ok ⟨(ids.getLast?).getD 0, ids, cache⟩

/-- The deletion loop of `KvStore::compact` over the already-collected
list of inactive ids: each iteration removes the file (failing with an
I/O error if it is missing, keeping the mutations made so far) and drops
the id from `file_ids`. -/
def compactGo : List Nat → KvStore → Disk → Except KvError Unit × KvStore × Disk
  | [], s, d => (.ok (), s, d)
  | i :: rest, s, d =>
    match removeFile d (file_path i) with
    | none => (.error .IoError, s, d)
    | some d₂ => compactGo rest { s with file_ids := idsErase i s.file_ids } d₂

/-- `KvStore::compact`: collect the file ids referenced by the cache,
then delete every known file id outside that set. -/
def KvStore.compact (s : KvStore) (d : Disk) : Except KvError Unit × KvStore × Disk :=
  let active := s.cache.map (fun p => p.2.file_id)
  compactGo (s.file_ids.filter (fun i => decide (i ∉ active))) s d

/-- `KvStore::set`: append the encoded `Set` record to the active
segment (creating it if needed), record the pre-write length as the
key's offset in the cache, then—if the file has grown past
`LOG_FILE_SIZE`—record the current id as known, run compaction when the
current id is a multiple of `LOG_COMPACTION_COUNT` (its error aborts
`set` before the increment), and finally increment the current id. -/
def KvStore.set (s : KvStore) (d : Disk) (key value : String) :
    Except KvError Unit × KvStore × Disk :=
  let name := file_path s.current_file_id
  let lines := (diskLookup d name).getD []
  let offset := fileSize lines
  let lines₂ := lines ++ [encode (.Set key value)]
  let d₂ := diskInsert d name lines₂
  let cache₂ := cacheInsert key ⟨s.current_file_id, offset⟩ s.cache
  if fileSize lines₂ > LOG_FILE_SIZE then
    let s₂ : KvStore := ⟨s.current_file_id, idsInsert s.current_file_id s.file_ids, cache₂⟩
    if s.current_file_id % LOG_COMPACTION_COUNT = 0 then
      match KvStore.compact s₂ d₂ with
      | (.ok _, s₃, d₃) => (.ok (), { s₃ with current_file_id := s₃.current_file_id + 1 }, d₃)
      | (.error e, s₃, d₃) => (.error e, s₃, d₃)
    else (.ok (), { s₂ with current_file_id := s.current_file_id + 1 }, d₂)
  else (.ok (), ⟨s.current_file_id, s.file_ids, cache₂⟩, d₂)

/-- `KvStore::get`: a cache miss is `Ok(None)`; a hit opens the recorded
segment, seeks to the recorded offset, reads and trims one line, decodes
it, and returns the `Set` value—any other decoded record is the
"Inconsistent backing storage" error. -/
def KvStore.get (s : KvStore) (d : Disk) (key : String) : Except KvError (Option String) :=
  match cacheLookup key s.cache with
  | none => .ok none
  | some pos =>
    match diskLookup d (file_path pos.file_id) with
    | none => .error .IoError
    | some lines =>
      match readLineAt lines pos.offset with
      | .error _ => .error .IoError
      | .ok line =>
        match decode (rustTrim line) with
        | .error _ => .error .SerdeError
        | .ok (.Set _ v) => .ok (some v)
        | .ok _ => .error (.KvError "Inconsistent backing storage")

/-- `KvStore::remove`: a key absent from the cache is the
"Key not found" error; otherwise the cache entry is removed first, and
only then is the active segment opened *without* `create`—so a missing
active segment file fails with an I/O error after the index entry is
already gone—and the `Rm` record appended. -/
def KvStore.remove (s : KvStore) (d : Disk) (key : String) :
    Except KvError Unit × KvStore × Disk :=
  match cacheLookup key s.cache with
  | none => (.error (.KvError "Key not found"), s, d)
  | some _ =>
    let s₂ : KvStore := { s with cache := cacheRemove key s.cache }
    let name := file_path s.current_file_id
    match diskLookup d name with
    | none => (.error .IoError, s₂, d)
    | some lines => (.ok (), s₂, diskInsert d name (lines ++ [encode (.Rm key)]))

deriving instance DecidableEq for Except

/-! ## Codec round-trip -/

theorem escapeList_nil : escapeList [] = [] := rfl

theorem escapeList_cons (c : Char) (l : List Char) :
    escapeList (c :: l) = escapeChar c ++ escapeList l := rfl

theorem escapeList_append (l₁ l₂ : List Char) :
    escapeList (l₁ ++ l₂) = escapeList l₁ ++ escapeList l₂ := by
  induction l₁ with
  | nil => rfl
  | cons c l ih => simp [escapeList_cons, ih, List.append_assoc]

theorem parseHexDigit_hexDigitChar : ∀ n, n < 16 → parseHexDigit (hexDigitChar n) = some n := by
  decide

theorem isValidChar_of_lt_32 {n : Nat} (h : n < 32) : n.isValidChar :=
  Or.inl (by omega)

/-- `parseEscapeSeq` inverts the escaping of a control character. -/
theorem parseEscapeSeq_control (c : Char) (tail : List Char) (h8 : c.toNat < 32) :
    parseEscapeSeq
      ('u' :: '0' :: '0' :: hexDigitChar (c.toNat / 16) :: hexDigitChar (c.toNat % 16) :: tail) =
      some (c, tail) := by
  have hdiv : c.toNat / 16 < 16 := by omega
  have hmod : c.toNat % 16 < 16 := Nat.mod_lt _ (by omega)
  have h0 : parseHexDigit '0' = some 0 := by decide
  rw [parseEscapeSeq, if_pos rfl, parseHex4]
  simp only [h0, parseHexDigit_hexDigitChar _ hdiv, parseHexDigit_hexDigitChar _ hmod]
  have hcode : ((0 * 16 + 0) * 16 + c.toNat / 16) * 16 + c.toNat % 16 = c.toNat := by omega
  simp only [hcode, isValidChar_of_lt_32 h8, reduceIte, Char.ofNat_toNat]

/-- Unfolds `parseStringBody` across one escape sequence. -/
theorem parseStringBody_backslash (rest tail : List Char) (ch : Char)
    (h : parseEscapeSeq rest = some (ch, tail)) :
    parseStringBody ('\\' :: rest) =
      (parseStringBody tail).map (fun p => (ch :: p.1, p.2)) := by
  rw [parseStringBody.eq_def]
  simp only [Char.reduceEq, reduceIte]
  split
  · rename_i heq
    rw [heq] at h
    exact absurd h (by simp)
  · rename_i ch₂ rest₂ heq
    rw [heq] at h
    injection h with h
    injection h with hch hrest
    subst hch
    subst hrest
    rfl

/-- One escaped character parses back to itself, whatever follows. -/
theorem parseStringBody_escapeChar (c : Char) (tail : List Char) :
    parseStringBody (escapeChar c ++ tail) =
      (parseStringBody tail).map (fun p => (c :: p.1, p.2)) := by
  by_cases h1 : c = '"'
  · subst h1
    exact parseStringBody_backslash _ _ _ rfl
  by_cases h2 : c = '\\'
  · subst h2
    exact parseStringBody_backslash _ _ _ rfl
  by_cases h3 : c = '\x08'
  · subst h3
    exact parseStringBody_backslash _ _ _ rfl
  by_cases h4 : c = '\x0c'
  · subst h4
    exact parseStringBody_backslash _ _ _ rfl
  by_cases h5 : c = '\n'
  · subst h5
    exact parseStringBody_backslash _ _ _ rfl
  by_cases h6 : c = '\r'
  · subst h6
    exact parseStringBody_backslash _ _ _ rfl
  by_cases h7 : c = '\t'
  · subst h7
    exact parseStringBody_backslash _ _ _ rfl
  by_cases h8 : c.toNat < 32
  · simp only [escapeChar, if_neg h1, if_neg h2, if_neg h3, if_neg h4, if_neg h5,
      if_neg h6, if_neg h7, if_pos h8, List.cons_append, List.nil_append]
    exact parseStringBody_backslash _ _ _ (parseEscapeSeq_control c tail h8)
  · simp only [escapeChar, if_neg h1, if_neg h2, if_neg h3, if_neg h4, if_neg h5,
      if_neg h6, if_neg h7, if_neg h8, List.cons_append, List.nil_append]
    rw [parseStringBody.eq_def]
    simp only [if_neg h1, if_neg h2, if_neg h8]

/-- An escaped string followed by its closing quote parses back to the
original string, also returning the input remaining after the quote. -/
theorem parseStringBody_escapeList (l rest : List Char) :
    parseStringBody (escapeList l ++ '"' :: rest) = some (l, rest) := by
  induction l with
  | nil => simp [escapeList_nil, parseStringBody]
  | cons c ltl ih =>
    rw [escapeList_cons, List.append_assoc, parseStringBody_escapeChar, ih]
    rfl

/-- Round trip of the codec without the newline framing:
`serde_json::from_str (serde_json::to_string r) = Ok r`. -/
theorem decode_encode (cmd : KvCommand) : decode (encode cmd) = .ok cmd := by
  cases cmd with
  | Set k v =>
    show decode ⟨_⟩ = _
    simp only [decode]
    have htag : parseStringBody
        ('S' :: 'e' :: 't' :: '"' :: ':' :: '[' :: '"' ::
          (escapeList k.data ++ '"' :: ',' :: '"' ::
            (escapeList v.data ++ ['"', ']', '}']))) =
        some (['S', 'e', 't'],
          ':' :: '[' :: '"' ::
            (escapeList k.data ++ '"' :: ',' :: '"' ::
              (escapeList v.data ++ ['"', ']', '}']))) := by
      have := parseStringBody_escapeList ['S', 'e', 't']
        (':' :: '[' :: '"' ::
          (escapeList k.data ++ '"' :: ',' :: '"' :: (escapeList v.data ++ ['"', ']', '}'])))
      simpa [escapeList] using this
    rw [htag]
    simp [parseStringBody_escapeList]
  | Get k =>
    show decode ⟨_⟩ = _
    simp only [decode]
    have htag : parseStringBody
        ('G' :: 'e' :: 't' :: '"' :: ':' :: '"' :: (escapeList k.data ++ ['"', '}'])) =
        some (['G', 'e', 't'], ':' :: '"' :: (escapeList k.data ++ ['"', '}'])) := by
      have := parseStringBody_escapeList ['G', 'e', 't']
        (':' :: '"' :: (escapeList k.data ++ ['"', '}']))
      simpa [escapeList] using this
    rw [htag]
    simp [parseStringBody_escapeList]
  | Rm k =>
    show decode ⟨_⟩ = _
    simp only [decode]
    have htag : parseStringBody
        ('R' :: 'm' :: '"' :: ':' :: '"' :: (escapeList k.data ++ ['"', '}'])) =
        some (['R', 'm'], ':' :: '"' :: (escapeList k.data ++ ['"', '}'])) := by
      have := parseStringBody_escapeList ['R', 'm']
        (':' :: '"' :: (escapeList k.data ++ ['"', '}']))
      simpa [escapeList] using this
    rw [htag]
    simp [parseStringBody_escapeList]

/-! ## Trimming an encoded record -/

theorem encode_shape (cmd : KvCommand) :
    ∃ mid, (encode cmd).data = '{' :: (mid ++ ['}']) := by
  cases cmd with
  | Set k v =>
    refine ⟨'"' :: 'S' :: 'e' :: 't' :: '"' :: ':' :: '[' :: '"' ::
      (escapeList k.data ++ '"' :: ',' :: '"' :: (escapeList v.data ++ ['"', ']'])), ?_⟩
    simp [encode, List.append_assoc]
  | Get k =>
    refine ⟨'"' :: 'G' :: 'e' :: 't' :: '"' :: ':' :: '"' ::
      (escapeList k.data ++ ['"']), ?_⟩
    simp [encode, List.append_assoc]
  | Rm k =>
    refine ⟨'"' :: 'R' :: 'm' :: '"' :: ':' :: '"' ::
      (escapeList k.data ++ ['"']), ?_⟩
    simp [encode, List.append_assoc]

theorem trimChars_brace (mid : List Char) :
    trimChars ('{' :: (mid ++ ['}'])) = '{' :: (mid ++ ['}']) := by
  have h1 : isRustWhitespace '{' = false := by decide
  have h2 : isRustWhitespace '}' = false := by decide
  simp [trimChars, List.dropWhile_cons, h1, h2, List.reverse_append]

theorem trimChars_brace_newline (mid : List Char) :
    trimChars ('{' :: (mid ++ ['}']) ++ ['\n']) = '{' :: (mid ++ ['}']) := by
  have h1 : isRustWhitespace '{' = false := by decide
  have h2 : isRustWhitespace '}' = false := by decide
  have h3 : isRustWhitespace '\n' = true := by decide
  simp [trimChars, List.dropWhile_cons, h1, h2, h3, List.reverse_append]

/-- Trimming an encoded record (as `get` and `update_cache` do after
`read_line`) is the identity. -/
theorem rustTrim_encode (cmd : KvCommand) : rustTrim (encode cmd) = encode cmd := by
  obtain ⟨mid, hmid⟩ := encode_shape cmd
  unfold rustTrim
  rw [hmid, trimChars_brace, ← hmid]

/-- Decoding the trimmed encoded record succeeds, as replay and `get`
rely on. -/
theorem decode_rustTrim_encode (cmd : KvCommand) :
    decode (rustTrim (encode cmd)) = .ok cmd := by
  rw [rustTrim_encode, decode_encode]

/-- C7.  Codec round trip: for every record `r` (`Set`, `Get` or `Rm`,
with arbitrary string key and value), decoding—i.e. JSON-deserializing
the trimmed line—the encoded representation (the JSON serialization of
the command followed by a newline) returns exactly `r`. -/
theorem C7_codec_round_trip (r : KvCommand) :
    decode (rustTrim (encode r ++ "\n")) = .ok r := by
  obtain ⟨mid, hmid⟩ := encode_shape r
  have htrim : rustTrim (encode r ++ "\n") = encode r := by
    unfold rustTrim
    rw [String.data_append, hmid]
    rw [show ("\n".data) = ['\n'] from rfl, trimChars_brace_newline, ← hmid]
  rw [htrim, decode_encode]

/-! ## Reading back what was appended -/

theorem fileSize_nil : fileSize [] = 0 := rfl

theorem fileSize_cons (l : String) (ls : List String) :
    fileSize (l :: ls) = utf8Len l.data + 1 + fileSize ls := rfl

theorem fileSize_append (l₁ l₂ : List String) :
    fileSize (l₁ ++ l₂) = fileSize l₁ + fileSize l₂ := by
  induction l₁ with
  | nil => simp [fileSize_nil]
  | cons l ls ih => simp [fileSize_cons, ih]; omega

/-- Seeking to the byte offset where a line starts and reading one line
yields that line. -/
theorem readLineAt_start (pre : List String) (l : String) (post : List String) :
    readLineAt (pre ++ l :: post) (fileSize pre) = .ok l := by
  induction pre with
  | nil =>
    show readLineAt (l :: post) 0 = .ok l
    rw [readLineAt]
    simp [dropBytes]
  | cons p ps ih =>
    show readLineAt (p :: (ps ++ l :: post)) (fileSize (p :: ps)) = .ok l
    rw [readLineAt, fileSize_cons]
    have hge : ¬ (utf8Len p.data + 1 + fileSize ps < utf8Len p.data + 1) := by omega
    rw [if_neg hge]
    simpa using ih

/-! ## Properties of the map operations -/

theorem cacheLookup_cacheInsert_self (k : String) (loc : KvLocation) (c : Cache) :
    cacheLookup k (cacheInsert k loc c) = some loc := by
  induction c with
  | nil => simp [cacheInsert, cacheLookup]
  | cons p rest ih =>
    by_cases hp : p.1 = k
    · simp [cacheInsert, hp, cacheLookup]
    · simp [cacheInsert, hp, cacheLookup, ih]

theorem cacheLookup_cacheInsert_ne (k k' : String) (loc : KvLocation) (c : Cache)
    (h : k ≠ k') : cacheLookup k' (cacheInsert k loc c) = cacheLookup k' c := by
  induction c with
  | nil => simp [cacheInsert, cacheLookup, h]
  | cons p rest ih =>
    by_cases hp : p.1 = k
    · have hp' : ¬ p.1 = k' := by rw [hp]; exact h
      simp only [cacheInsert, if_pos hp, cacheLookup, if_neg h, if_neg hp']
    · simp [cacheInsert, hp, cacheLookup, ih]

theorem cacheLookup_cacheRemove_self (k : String) (c : Cache) :
    cacheLookup k (cacheRemove k c) = none := by
  induction c with
  | nil => simp [cacheRemove, cacheLookup]
  | cons p rest ih =>
    by_cases hp : p.1 = k
    · simp [cacheRemove, hp, ih]
    · simp [cacheRemove, hp, cacheLookup, ih]

theorem cacheLookup_cacheRemove_ne (k k' : String) (c : Cache) (h : k ≠ k') :
    cacheLookup k' (cacheRemove k c) = cacheLookup k' c := by
  induction c with
  | nil => simp [cacheRemove, cacheLookup]
  | cons p rest ih =>
    by_cases hp : p.1 = k
    · have hp' : ¬ p.1 = k' := by rw [hp]; exact h
      simp only [cacheRemove, if_pos hp, ih, cacheLookup, if_neg hp']
    · simp [cacheRemove, hp, cacheLookup, ih]

theorem diskLookup_diskInsert_self (d : Disk) (n : String) (ls : List String) :
    diskLookup (diskInsert d n ls) n = some ls := by
  induction d with
  | nil => simp [diskInsert, diskLookup]
  | cons p rest ih =>
    by_cases hp : p.1 = n
    · simp [diskInsert, hp, diskLookup]
    · simp [diskInsert, hp, diskLookup, ih]

theorem diskLookup_diskInsert_ne (d : Disk) (n n' : String) (ls : List String)
    (h : n ≠ n') : diskLookup (diskInsert d n ls) n' = diskLookup d n' := by
  induction d with
  | nil => simp [diskInsert, diskLookup, h]
  | cons p rest ih =>
    by_cases hp : p.1 = n
    · have hp' : ¬ p.1 = n' := by rw [hp]; exact h
      simp only [diskInsert, if_pos hp, diskLookup, if_neg h, if_neg hp']
    · simp [diskInsert, hp, diskLookup, ih]

/-! ## Inversion of `remove` -/

/-- A successful `remove` removed the cache binding and appended the
`Rm` record to the active segment. -/
theorem remove_ok_inversion (s : KvStore) (d : Disk) (k : String) (u : Unit)
    (s₂ : KvStore) (d₂ : Disk) (h : KvStore.remove s d k = (.ok u, s₂, d₂)) :
    s₂ = { s with cache := cacheRemove k s.cache } ∧
    ∃ lines, diskLookup d (file_path s.current_file_id) = some lines ∧
      d₂ = diskInsert d (file_path s.current_file_id) (lines ++ [encode (.Rm k)]) := by
  unfold KvStore.remove at h
  rcases hc : cacheLookup k s.cache with _ | loc <;> rw [hc] at h
  · exact absurd h (by simp)
  · dsimp only at h
    rcases hd : diskLookup d (file_path s.current_file_id) with _ | lines <;> rw [hd] at h
    · exact absurd h (by simp)
    · simp only [Prod.mk.injEq] at h
      exact ⟨h.2.1.symm, lines, rfl, h.2.2.symm⟩

/-- C9.  `remove` is not atomic on error: when the key is present but
the active segment file does not exist, the cache binding is removed
first, so `remove` returns the I/O error from the failed
`OpenOptions::open` while the index no longer contains the key and the
disk holds no `Rm` record for it. -/
theorem C9_remove_not_atomic_on_error (s : KvStore) (d : Disk) (k : String)
    (loc : KvLocation) (hk : cacheLookup k s.cache = some loc)
    (hd : diskLookup d (file_path s.current_file_id) = none) :
    KvStore.remove s d k =
      (.error .IoError, { s with cache := cacheRemove k s.cache }, d) ∧
    cacheLookup k (cacheRemove k s.cache) = none := by
  constructor
  · unfold KvStore.remove
    rw [hk]
    dsimp only
    rw [hd]
  · exact cacheLookup_cacheRemove_self k s.cache

/-- Witness for C9 at a concrete store: key "a" is indexed, the active
segment file `000000001.log` does not exist, `remove` fails with an I/O
error and the index entry is gone. -/
theorem C9_remove_not_atomic_on_error_witness :
    KvStore.remove ⟨1, [], [("a", ⟨0, 0⟩)]⟩ [] "a" =
      (.error .IoError, ⟨1, [], []⟩, ([] : Disk)) ∧
    cacheLookup "a" (cacheRemove "a" [("a", ⟨0, 0⟩)]) = none :=
  C9_remove_not_atomic_on_error ⟨1, [], [("a", ⟨0, 0⟩)]⟩ [] "a" ⟨0, 0⟩ rfl rfl

/-- C8.  Absent-key behavior: `get` of a key absent from the index is
`Ok(None)` while `remove` of it fails with the "Key not found" error and
changes nothing; and after any successful `remove` of a key, a further
`remove` of it fails with that error while `get` returns `Ok(None)`. -/
theorem C8_absent_key_behavior :
    (∀ (s : KvStore) (d : Disk) (k : String), cacheLookup k s.cache = none →
      KvStore.get s d k = .ok none ∧
      KvStore.remove s d k = (.error (.KvError "Key not found"), s, d)) ∧
    (∀ (s : KvStore) (d : Disk) (k : String) (u : Unit) (s₂ : KvStore) (d₂ : Disk),
      KvStore.remove s d k = (.ok u, s₂, d₂) →
      KvStore.get s₂ d₂ k = .ok none ∧
      KvStore.remove s₂ d₂ k = (.error (.KvError "Key not found"), s₂, d₂)) := by
  have habsent : ∀ (s : KvStore) (d : Disk) (k : String), cacheLookup k s.cache = none →
      KvStore.get s d k = .ok none ∧
      KvStore.remove s d k = (.error (.KvError "Key not found"), s, d) := by
    intro s d k h
    constructor
    · unfold KvStore.get
      rw [h]
    · unfold KvStore.remove
      rw [h]
  refine ⟨habsent, ?_⟩
  intro s d k u s₂ d₂ h
  obtain ⟨hs₂, -⟩ := remove_ok_inversion s d k u s₂ d₂ h
  exact habsent s₂ d₂ k (by rw [hs₂]; exact cacheLookup_cacheRemove_self k s.cache)

/-- Witness for C8: on an empty store `get "a"` is `Ok(None)` and
`remove "a"` is the "Key not found" error; and after the successful
`remove "a"` on a store holding "a", both hold again. -/
theorem C8_absent_key_behavior_witness :
    (KvStore.get ⟨0, [], []⟩ [] "a" = .ok none ∧
      KvStore.remove ⟨0, [], []⟩ [] "a" =
        (.error (.KvError "Key not found"), ⟨0, [], []⟩, ([] : Disk))) ∧
    (KvStore.get ⟨0, [], []⟩
        [(file_path 0, [encode (.Set "a" "1"), encode (.Rm "a")])] "a" = .ok none ∧
      KvStore.remove ⟨0, [], []⟩
        [(file_path 0, [encode (.Set "a" "1"), encode (.Rm "a")])] "a" =
        (.error (.KvError "Key not found"), ⟨0, [], []⟩,
          [(file_path 0, [encode (.Set "a" "1"), encode (.Rm "a")])])) :=
  ⟨C8_absent_key_behavior.1 ⟨0, [], []⟩ [] "a" rfl,
   C8_absent_key_behavior.2 ⟨0, [], [("a", ⟨0, 0⟩)]⟩
     [(file_path 0, [encode (.Set "a" "1")])] "a" () ⟨0, [], []⟩
     [(file_path 0, [encode (.Set "a" "1"), encode (.Rm "a")])] rfl⟩

/-! ## Parsing back the segment file name -/

theorem hexDigitChar_digit : ∀ m, m < 10 → '0' ≤ hexDigitChar m ∧ hexDigitChar m ≤ '9' := by
  decide

theorem digitVal_hexDigitChar : ∀ m, m < 10 → digitVal (hexDigitChar m) = some m := by
  decide

theorem natDigits_digit_chars :
    ∀ n c, c ∈ natDigits n → '0' ≤ c ∧ c ≤ '9' := by
  intro n
  induction n using Nat.strong_induction_on with
  | _ n ih =>
    intro c hc
    rw [natDigits_eq] at hc
    by_cases hn : n < 10
    · rw [if_pos hn] at hc
      simp only [List.mem_singleton] at hc
      subst hc
      exact hexDigitChar_digit n hn
    · rw [if_neg hn] at hc
      rcases List.mem_append.mp hc with h | h
      · exact ih (n / 10) (Nat.div_lt_self (by omega) (by omega)) c h
      · simp only [List.mem_singleton] at h
        subst h
        exact hexDigitChar_digit (n % 10) (Nat.mod_lt _ (by omega))

theorem pad9_digit_chars (n : Nat) (c : Char) (hc : c ∈ pad9 n) :
    '0' ≤ c ∧ c ≤ '9' := by
  rcases List.mem_append.mp hc with h | h
  · rw [List.eq_of_mem_replicate h]
    decide
  · exact natDigits_digit_chars n c h

theorem natDigits_ne_nil (n : Nat) : natDigits n ≠ [] := by
  rw [natDigits_eq]
  by_cases hn : n < 10 <;> simp [hn]

theorem parseU32Go_append (l₁ l₂ : List Char) (acc : Nat) :
    parseU32Go (l₁ ++ l₂) acc =
      match parseU32Go l₁ acc with
      | none => none
      | some acc₂ => parseU32Go l₂ acc₂ := by
  induction l₁ generalizing acc with
  | nil => simp [parseU32Go]
  | cons c rest ih =>
    rw [List.cons_append, parseU32Go, parseU32Go]
    rcases digitVal c with _ | dv
    · rfl
    · dsimp only
      by_cases hov : acc * 10 + dv < 4294967296
      · rw [if_pos hov, if_pos hov, ih]
      · rw [if_neg hov, if_neg hov]

theorem parseU32Go_natDigits (n : Nat) (h : n < 4294967296) :
    parseU32Go (natDigits n) 0 = some n := by
  induction n using Nat.strong_induction_on with
  | _ n ih =>
    rw [natDigits_eq]
    by_cases hn : n < 10
    · rw [if_pos hn, parseU32Go.eq_def]
      dsimp only
      rw [digitVal_hexDigitChar n hn]
      dsimp only
      rw [if_pos (by omega), parseU32Go.eq_def]
      simp
    · rw [if_neg hn, parseU32Go_append]
      have hdiv : n / 10 < 4294967296 := by
        have := Nat.div_le_self n 10
        omega
      rw [ih (n / 10) (Nat.div_lt_self (by omega) (by omega)) hdiv]
      dsimp only
      rw [parseU32Go.eq_def]
      dsimp only
      rw [digitVal_hexDigitChar (n % 10) (Nat.mod_lt _ (by omega))]
      dsimp only
      have hval : n / 10 * 10 + n % 10 = n := by omega
      rw [hval, if_pos h, parseU32Go.eq_def]

theorem parseU32Go_zeros (k : Nat) (l : List Char) :
    parseU32Go (List.replicate k '0' ++ l) 0 = parseU32Go l 0 := by
  induction k with
  | zero => simp
  | succ k ih =>
    rw [List.replicate_succ, List.cons_append, parseU32Go]
    have h0 : digitVal '0' = some 0 := by decide
    rw [h0]
    dsimp only
    rw [if_pos (by omega)]
    simpa using ih

/-- `str::parse` on a list that is not empty and has no sign reduces to
the digit loop. -/
theorem parseU32_mk (l : List Char) (hne : l ≠ []) (hh : ∀ rest, l ≠ '+' :: rest) :
    parseU32 ⟨l⟩ = parseU32Go l 0 := by
  unfold parseU32
  dsimp only
  split
  · contradiction
  · exact absurd rfl (hh _)
  · rfl

theorem pad9_ne_nil (n : Nat) : pad9 n ≠ [] := by
  unfold pad9
  simp [natDigits_ne_nil n]

theorem pad9_no_sign (n : Nat) : ∀ rest, pad9 n ≠ '+' :: rest := by
  intro rest h
  have : '+' ∈ pad9 n := by rw [h]; exact List.mem_cons_self _ _
  exact absurd (pad9_digit_chars n '+' this) (by decide)

/-- The id parses back from the padded digits, as recovery relies on. -/
theorem parseU32_pad9 (n : Nat) (h : n < 4294967296) :
    parseU32 ⟨pad9 n⟩ = some n := by
  rw [parseU32_mk _ (pad9_ne_nil n) (pad9_no_sign n)]
  unfold pad9
  rw [parseU32Go_zeros, parseU32Go_natDigits n h]

/-- Distinct ids give distinct segment file names. -/
theorem file_path_injective (a b : Nat) (ha : a < 4294967296) (hb : b < 4294967296)
    (h : file_path a = file_path b) : a = b := by
  unfold file_path at h
  have hdata : pad9 a ++ ['.', 'l', 'o', 'g'] = pad9 b ++ ['.', 'l', 'o', 'g'] :=
    congrArg String.data h
  have hpad : pad9 a = pad9 b := List.append_cancel_right hdata
  have := parseU32_pad9 a ha
  rw [hpad, parseU32_pad9 b hb] at this
  exact (Option.some.injEq _ _ ▸ this).symm

/-! ## Unconditional injectivity of the segment file name -/

theorem hexDigitChar_toNat : ∀ m, m < 10 → (hexDigitChar m).toNat - 48 = m := by
  decide

theorem natDigits_foldl_val :
    ∀ n acc, (natDigits n).foldl (fun a c => a * 10 + (c.toNat - 48)) acc =
      acc * 10 ^ (natDigits n).length + n := by
  intro n
  induction n using Nat.strong_induction_on with
  | _ n ih =>
    intro acc
    rw [natDigits_eq]
    by_cases hn : n < 10
    · rw [if_pos hn]
      simp [hexDigitChar_toNat n hn]
    · rw [if_neg hn, List.foldl_append]
      rw [ih (n / 10) (Nat.div_lt_self (by omega) (by omega)) acc]
      have hmod := hexDigitChar_toNat (n % 10) (Nat.mod_lt _ (by omega))
      simp [hmod, List.length_append, pow_succ]
      ring_nf
      omega

theorem pad9_val (n : Nat) :
    (pad9 n).foldl (fun a c => a * 10 + (c.toNat - 48)) 0 = n := by
  unfold pad9
  rw [List.foldl_append]
  have hz : ∀ k, (List.replicate k '0').foldl (fun a c => a * 10 + (c.toNat - 48)) 0 = 0 := by
    intro k
    induction k with
    | zero => rfl
    | succ k ihk => simpa [List.replicate_succ] using ihk
  rw [hz, natDigits_foldl_val]
  simp

theorem pad9_injective (a b : Nat) (h : pad9 a = pad9 b) : a = b := by
  have := pad9_val a
  rw [h, pad9_val b] at this
  exact this.symm

theorem file_path_inj (a b : Nat) (h : file_path a = file_path b) : a = b := by
  unfold file_path at h
  have hdata : pad9 a ++ ['.', 'l', 'o', 'g'] = pad9 b ++ ['.', 'l', 'o', 'g'] :=
    congrArg String.data h
  exact pad9_injective a b (List.append_cancel_right hdata)

/-! ## Compaction only touches dead segments -/

theorem diskLookup_diskErase_ne (d : Disk) (name n : String) (h : name ≠ n) :
    diskLookup (diskErase d name) n = diskLookup d n := by
  induction d with
  | nil => simp [diskErase]
  | cons p rest ih =>
    by_cases hp : p.1 = name
    · have hp' : ¬ p.1 = n := by rw [hp]; exact h
      simp only [diskErase, if_pos hp, diskLookup, if_neg hp', ih]
    · simp only [diskErase, if_pos hp, if_neg hp, diskLookup]
      by_cases hn : p.1 = n
      · simp [hn]
      · simp [hn, ih]

/-- The state threaded through the compaction loop never changes the
cache or the current id. -/
theorem compactGo_state :
    ∀ ids (s : KvStore) (d : Disk),
      (compactGo ids s d).2.1.cache = s.cache ∧
      (compactGo ids s d).2.1.current_file_id = s.current_file_id := by
  intro ids
  induction ids with
  | nil => intro s d; exact ⟨rfl, rfl⟩
  | cons i rest ih =>
    intro s d
    rw [compactGo]
    rcases hr : removeFile d (file_path i) with _ | d₂
    · exact ⟨rfl, rfl⟩
    · exact ih _ _

/-- The compaction loop leaves alone every file whose id is not in its
work list. -/
theorem compactGo_lookup_ne :
    ∀ ids (s : KvStore) (d : Disk) (n : String),
      (∀ i ∈ ids, file_path i ≠ n) →
      diskLookup (compactGo ids s d).2.2 n = diskLookup d n := by
  intro ids
  induction ids with
  | nil => intro s d n _; rfl
  | cons i rest ih =>
    intro s d n h
    rw [compactGo]
    rcases hr : removeFile d (file_path i) with _ | d₂
    · rfl
    · have hd₂ : d₂ = diskErase d (file_path i) := by
        unfold removeFile at hr
        rcases hl : diskLookup d (file_path i) with _ | _ <;> rw [hl] at hr
        · exact absurd hr (by simp)
        · simpa using hr.symm
      rw [ih _ _ n (fun j hj => h j (List.mem_cons_of_mem _ hj)), hd₂,
        diskLookup_diskErase_ne _ _ _ (h i (List.mem_cons_self _ _))]

theorem cacheInsert_mem_self (k : String) (loc : KvLocation) (c : Cache) :
    (k, loc) ∈ cacheInsert k loc c := by
  induction c with
  | nil => simp [cacheInsert]
  | cons p rest ih =>
    by_cases hp : p.1 = k
    · simp [cacheInsert, hp]
    · simp [cacheInsert, hp, ih]

/-! ## What one `set` does -/

/-- `set` when the file stays at or below the rotation threshold. -/
theorem set_run_small (s : KvStore) (d : Disk) (key value : String)
    (h : fileSize ((diskLookup d (file_path s.current_file_id)).getD [] ++
        [encode (.Set key value)]) ≤ LOG_FILE_SIZE) :
    KvStore.set s d key value =
      (.ok (), ⟨s.current_file_id, s.file_ids,
        cacheInsert key
          ⟨s.current_file_id, fileSize ((diskLookup d (file_path s.current_file_id)).getD [])⟩
          s.cache⟩,
       diskInsert d (file_path s.current_file_id)
         ((diskLookup d (file_path s.current_file_id)).getD [] ++
           [encode (.Set key value)])) := by
  unfold KvStore.set
  dsimp only
  rw [if_neg (Nat.not_lt.mpr h)]

/-- `set` when the write crosses the threshold off a compaction
boundary: the id is recorded, no compaction runs, the id increments. -/
theorem set_run_rotate (s : KvStore) (d : Disk) (key value : String)
    (h : fileSize ((diskLookup d (file_path s.current_file_id)).getD [] ++
        [encode (.Set key value)]) > LOG_FILE_SIZE)
    (h10 : s.current_file_id % LOG_COMPACTION_COUNT ≠ 0) :
    KvStore.set s d key value =
      (.ok (), ⟨s.current_file_id + 1, idsInsert s.current_file_id s.file_ids,
        cacheInsert key
          ⟨s.current_file_id, fileSize ((diskLookup d (file_path s.current_file_id)).getD [])⟩
          s.cache⟩,
       diskInsert d (file_path s.current_file_id)
         ((diskLookup d (file_path s.current_file_id)).getD [] ++
           [encode (.Set key value)])) := by
  unfold KvStore.set
  dsimp only
  rw [if_pos h, if_neg h10]

/-- `set` when the write crosses the threshold on a compaction boundary:
the id is recorded, compaction runs on the updated state, and on its
success the id increments. -/
theorem set_run_rotate_compact (s : KvStore) (d : Disk) (key value : String)
    (h : fileSize ((diskLookup d (file_path s.current_file_id)).getD [] ++
        [encode (.Set key value)]) > LOG_FILE_SIZE)
    (h10 : s.current_file_id % LOG_COMPACTION_COUNT = 0) :
    KvStore.set s d key value =
      (match KvStore.compact
          ⟨s.current_file_id, idsInsert s.current_file_id s.file_ids,
            cacheInsert key
              ⟨s.current_file_id,
                fileSize ((diskLookup d (file_path s.current_file_id)).getD [])⟩
              s.cache⟩
          (diskInsert d (file_path s.current_file_id)
            ((diskLookup d (file_path s.current_file_id)).getD [] ++
              [encode (.Set key value)])) with
       | (.ok _, s₃, d₃) =>
         (.ok (), ⟨s₃.current_file_id + 1, s₃.file_ids, s₃.cache⟩, d₃)
       | (.error e, s₃, d₃) => (.error e, s₃, d₃)) := by
  unfold KvStore.set
  dsimp only
  rw [if_pos h, if_pos h10]

/-- The compaction loop can only fail with an I/O error (a missing
file in `remove_file`). -/
theorem compactGo_error :
    ∀ ids (s : KvStore) (d : Disk) e (s' : KvStore) (d' : Disk),
      compactGo ids s d = (.error e, s', d') → e = .IoError := by
  intro ids
  induction ids with
  | nil =>
    intro s d e s' d' h
    exact absurd h (by simp [compactGo])
  | cons i rest ih =>
    intro s d e s' d' h
    rw [compactGo] at h
    rcases hr : removeFile d (file_path i) with _ | d₂ <;> rw [hr] at h
    · injection h with h₁ _
      injection h₁ with h₁
      exact h₁.symm
    · exact ih _ _ _ _ _ h

/-- `set` can only fail with an I/O error (from compaction); in
particular it never fails because the key already exists. -/
theorem set_error_io (s : KvStore) (d : Disk) (key value : String) (e : KvError)
    (s' : KvStore) (d' : Disk)
    (h : KvStore.set s d key value = (.error e, s', d')) : e = .IoError := by
  by_cases hth : fileSize ((diskLookup d (file_path s.current_file_id)).getD [] ++
      [encode (.Set key value)]) > LOG_FILE_SIZE
  · by_cases h10 : s.current_file_id % LOG_COMPACTION_COUNT = 0
    · rw [set_run_rotate_compact s d key value hth h10] at h
      split at h
      · exact absurd h (by simp)
      · rename_i e₂ s₃ d₃ heq
        injection h with h₁ _
        injection h₁ with h₁
        subst h₁
        exact compactGo_error _ _ _ _ _ _ heq
    · rw [set_run_rotate s d key value hth h10] at h
      exact absurd h (by simp)
  · rw [set_run_small s d key value (Nat.not_lt.mp hth)] at h
    exact absurd h (by simp)

/-- A successful `set` leaves the key bound to the pre-write length of
the active segment, whose content on disk is the old lines plus the
encoded record—also across the compaction a rotation may have run,
because the active segment is referenced by the new binding and is
therefore never deleted. -/
theorem set_ok_inversion (s : KvStore) (d : Disk) (key value : String) (u : Unit)
    (s₂ : KvStore) (d₂ : Disk)
    (h : KvStore.set s d key value = (.ok u, s₂, d₂)) :
    cacheLookup key s₂.cache =
      some ⟨s.current_file_id,
        fileSize ((diskLookup d (file_path s.current_file_id)).getD [])⟩ ∧
    diskLookup d₂ (file_path s.current_file_id) =
      some ((diskLookup d (file_path s.current_file_id)).getD [] ++
        [encode (.Set key value)]) := by
  by_cases hth : fileSize ((diskLookup d (file_path s.current_file_id)).getD [] ++
      [encode (.Set key value)]) > LOG_FILE_SIZE
  · by_cases h10 : s.current_file_id % LOG_COMPACTION_COUNT = 0
    · rw [set_run_rotate_compact s d key value hth h10] at h
      split at h
      · rename_i x s₃ d₃ heq
        injection h with h₁ h₂
        injection h₂ with h₂ h₃
        subst h₂
        subst h₃
        unfold KvStore.compact at heq
        dsimp only at heq
        have hstate := compactGo_state
          ((idsInsert s.current_file_id s.file_ids).filter (fun i =>
            decide (i ∉ (cacheInsert key
              ⟨s.current_file_id,
                fileSize ((diskLookup d (file_path s.current_file_id)).getD [])⟩
              s.cache).map (fun p => p.2.file_id))))
          ⟨s.current_file_id, idsInsert s.current_file_id s.file_ids,
            cacheInsert key
              ⟨s.current_file_id,
                fileSize ((diskLookup d (file_path s.current_file_id)).getD [])⟩
              s.cache⟩
          (diskInsert d (file_path s.current_file_id)
            ((diskLookup d (file_path s.current_file_id)).getD [] ++
              [encode (.Set key value)]))
        have hlook := compactGo_lookup_ne
          ((idsInsert s.current_file_id s.file_ids).filter (fun i =>
            decide (i ∉ (cacheInsert key
              ⟨s.current_file_id,
                fileSize ((diskLookup d (file_path s.current_file_id)).getD [])⟩
              s.cache).map (fun p => p.2.file_id))))
          ⟨s.current_file_id, idsInsert s.current_file_id s.file_ids,
            cacheInsert key
              ⟨s.current_file_id,
                fileSize ((diskLookup d (file_path s.current_file_id)).getD [])⟩
              s.cache⟩
          (diskInsert d (file_path s.current_file_id)
            ((diskLookup d (file_path s.current_file_id)).getD [] ++
              [encode (.Set key value)]))
          (file_path s.current_file_id)
          (by
            intro i hi hcontra
            have hid : i = s.current_file_id := file_path_inj i s.current_file_id hcontra
            have hmem := (List.mem_filter.mp hi).2
            simp only [decide_eq_true_eq] at hmem
            apply hmem
            rw [hid]
            refine List.mem_map.mpr ⟨(key, ⟨s.current_file_id,
              fileSize ((diskLookup d (file_path s.current_file_id)).getD [])⟩), ?_, rfl⟩
            exact cacheInsert_mem_self _ _ _)
        rw [heq] at hstate
        rw [heq] at hlook
        dsimp only at hstate hlook
        constructor
        · rw [hstate.1, cacheLookup_cacheInsert_self]
        · rw [hlook, diskLookup_diskInsert_self]
      · exact absurd h (by simp)
    · rw [set_run_rotate s d key value hth h10] at h
      injection h with _ h₂
      injection h₂ with h₂ h₃
      subst h₂
      subst h₃
      exact ⟨cacheLookup_cacheInsert_self _ _ _, diskLookup_diskInsert_self _ _ _⟩
  · rw [set_run_small s d key value (Nat.not_lt.mp hth)] at h
    injection h with _ h₂
    injection h₂ with h₂ h₃
    subst h₂
    subst h₃
    exact ⟨cacheLookup_cacheInsert_self _ _ _, diskLookup_diskInsert_self _ _ _⟩

/-- `get` on a binding that points at the start of an encoded `Set`
record returns the record's value. -/
theorem get_found (s : KvStore) (d : Disk) (k k₂ v : String) (fid : Nat)
    (pre post : List String)
    (hc : cacheLookup k s.cache = some ⟨fid, fileSize pre⟩)
    (hd : diskLookup d (file_path fid) = some (pre ++ encode (.Set k₂ v) :: post)) :
    KvStore.get s d k = .ok (some v) := by
  unfold KvStore.get
  rw [hc]
  dsimp only
  rw [hd]
  dsimp only
  rw [readLineAt_start]
  dsimp only
  rw [decode_rustTrim_encode]

/-- C3.  Last-write-wins: after a successful `set(k, v1)` followed by a
successful `set(k, v2)`, `get k` returns `Ok(Some(v2))`; moreover `set`
can only ever fail with an I/O error, never because the key already
exists. -/
theorem C3_last_write_wins (s : KvStore) (d : Disk) (k v1 v2 : String) (u1 u2 : Unit)
    (s1 : KvStore) (d1 : Disk) (s2 : KvStore) (d2 : Disk)
    (h1 : KvStore.set s d k v1 = (.ok u1, s1, d1))
    (h2 : KvStore.set s1 d1 k v2 = (.ok u2, s2, d2)) :
    KvStore.get s2 d2 k = .ok (some v2) ∧
    (∀ (s' : KvStore) (d' : Disk) (k' v' : String) (e : KvError)
       (s'' : KvStore) (d'' : Disk),
       KvStore.set s' d' k' v' = (.error e, s'', d'') → e = .IoError) := by
  constructor
  · obtain ⟨hc, hd⟩ := set_ok_inversion s1 d1 k v2 u2 s2 d2 h2
    exact get_found s2 d2 k k v2 s1.current_file_id
      ((diskLookup d1 (file_path s1.current_file_id)).getD []) [] hc hd
  · intro s' d' k' v' e s'' d'' h'
    exact set_error_io s' d' k' v' e s'' d'' h'

/-- Witness for C3: two sets of key "a" on a fresh store, then `get`. -/
theorem C3_last_write_wins_witness :
    KvStore.get ⟨0, [], [("a", ⟨0, 18⟩)]⟩
      [(file_path 0, [encode (.Set "a" "1"), encode (.Set "a" "2")])] "a" =
      .ok (some "2") :=
  (C3_last_write_wins ⟨0, [], []⟩ [] "a" "1" "2" () ()
    ⟨0, [], [("a", ⟨0, 0⟩)]⟩ [(file_path 0, [encode (.Set "a" "1")])]
    ⟨0, [], [("a", ⟨0, 18⟩)]⟩
    [(file_path 0, [encode (.Set "a" "1"), encode (.Set "a" "2")])]
    rfl rfl).1

/-! ## Rotation and the compaction trigger -/

/-- The content of the active segment file (empty if not yet created),
to which `set` appends. -/
abbrev activeLines (s : KvStore) (d : Disk) : List String :=
  (diskLookup d (file_path s.current_file_id)).getD []

theorem mem_idsInsert_self (i : Nat) (l : List Nat) : i ∈ idsInsert i l := by
  unfold idsInsert
  by_cases h : i ∈ l <;> simp [h]

theorem mem_idsErase_of_ne (i j : Nat) (l : List Nat) (h : i ≠ j) (hi : i ∈ l) :
    i ∈ idsErase j l := by
  induction l with
  | nil => simp at hi
  | cons x rest ih =>
    rcases List.mem_cons.mp hi with hx | hx
    · subst hx
      unfold idsErase
      rw [if_neg h]
      exact List.mem_cons_self _ _
    · unfold idsErase
      by_cases hxj : x = j
      · rw [if_pos hxj]
        exact ih hx
      · rw [if_neg hxj]
        exact List.mem_cons_of_mem _ (ih hx)

theorem compactGo_mem_file_ids :
    ∀ ids (s : KvStore) (d : Disk) (i : Nat),
      i ∈ s.file_ids → i ∉ ids → i ∈ (compactGo ids s d).2.1.file_ids := by
  intro ids
  induction ids with
  | nil => intro s d i hi _; exact hi
  | cons j rest ih =>
    intro s d i hi hni
    rw [compactGo]
    rcases hr : removeFile d (file_path j) with _ | d₂
    · exact hi
    · have hij : i ≠ j := fun hc => hni (hc ▸ List.mem_cons_self _ _)
      exact ih _ _ i (mem_idsErase_of_ne i j s.file_ids hij hi)
        (fun hc => hni (List.mem_cons_of_mem _ hc))

/-- C4.  Rotation and compaction trigger: a successful `set` whose write
leaves the active segment strictly larger than `LOG_FILE_SIZE` (1 MiB)
records the current id among the known ids and increments it by exactly
one; it runs the compactor, before the increment, exactly when that
current id is a multiple of `LOG_COMPACTION_COUNT` (every 10th
rotation): below the threshold and on a non-multiple rotation the
resulting state is literally the appended-to state, with no file
deleted; and `remove` (like `get` and `open`, which by construction
return no modified disk at all) at most appends to the active segment,
never deleting a file. -/
theorem C4_rotation_and_compaction_trigger :
    (∀ (s : KvStore) (d : Disk) (key value : String) (u : Unit)
       (s₂ : KvStore) (d₂ : Disk),
      KvStore.set s d key value = (.ok u, s₂, d₂) →
      (fileSize (activeLines s d ++ [encode (.Set key value)]) > LOG_FILE_SIZE →
        s.current_file_id ∈ s₂.file_ids ∧
        s₂.current_file_id = s.current_file_id + 1) ∧
      (fileSize (activeLines s d ++ [encode (.Set key value)]) ≤ LOG_FILE_SIZE →
        s₂ = ⟨s.current_file_id, s.file_ids,
          cacheInsert key ⟨s.current_file_id, fileSize (activeLines s d)⟩ s.cache⟩ ∧
        d₂ = diskInsert d (file_path s.current_file_id)
          (activeLines s d ++ [encode (.Set key value)])) ∧
      (fileSize (activeLines s d ++ [encode (.Set key value)]) > LOG_FILE_SIZE ∧
          s.current_file_id % LOG_COMPACTION_COUNT ≠ 0 →
        s₂ = ⟨s.current_file_id + 1, idsInsert s.current_file_id s.file_ids,
          cacheInsert key ⟨s.current_file_id, fileSize (activeLines s d)⟩ s.cache⟩ ∧
        d₂ = diskInsert d (file_path s.current_file_id)
          (activeLines s d ++ [encode (.Set key value)])) ∧
      (fileSize (activeLines s d ++ [encode (.Set key value)]) > LOG_FILE_SIZE ∧
          s.current_file_id % LOG_COMPACTION_COUNT = 0 →
        ∃ (x : Unit) (s₃ : KvStore) (d₃ : Disk),
          KvStore.compact
            ⟨s.current_file_id, idsInsert s.current_file_id s.file_ids,
              cacheInsert key ⟨s.current_file_id, fileSize (activeLines s d)⟩ s.cache⟩
            (diskInsert d (file_path s.current_file_id)
              (activeLines s d ++ [encode (.Set key value)])) = (.ok x, s₃, d₃) ∧
          s₂ = ⟨s₃.current_file_id + 1, s₃.file_ids, s₃.cache⟩ ∧ d₂ = d₃)) ∧
    (∀ (s : KvStore) (d : Disk) (key : String) (r : Except KvError Unit)
       (s₂ : KvStore) (d₂ : Disk),
      KvStore.remove s d key = (r, s₂, d₂) →
      d₂ = d ∨ ∃ lines, diskLookup d (file_path s.current_file_id) = some lines ∧
        d₂ = diskInsert d (file_path s.current_file_id)
          (lines ++ [encode (.Rm key)])) := by
  constructor
  · intro s d key value u s₂ d₂ h
    refine ⟨?_, ?_, ?_, ?_⟩
    · intro hgt
      by_cases h10 : s.current_file_id % LOG_COMPACTION_COUNT = 0
      · rw [set_run_rotate_compact s d key value hgt h10] at h
        split at h
        · rename_i x s₃ d₃ heq
          injection h with _ h₂
          injection h₂ with h₂ _
          subst h₂
          unfold KvStore.compact at heq
          dsimp only at heq
          have hstate := compactGo_state
            ((idsInsert s.current_file_id s.file_ids).filter (fun i =>
              decide (i ∉ (cacheInsert key
                ⟨s.current_file_id, fileSize (activeLines s d)⟩
                s.cache).map (fun p => p.2.file_id))))
            ⟨s.current_file_id, idsInsert s.current_file_id s.file_ids,
              cacheInsert key ⟨s.current_file_id, fileSize (activeLines s d)⟩ s.cache⟩
            (diskInsert d (file_path s.current_file_id)
              (activeLines s d ++ [encode (.Set key value)]))
          have hmem := compactGo_mem_file_ids
            ((idsInsert s.current_file_id s.file_ids).filter (fun i =>
              decide (i ∉ (cacheInsert key
                ⟨s.current_file_id, fileSize (activeLines s d)⟩
                s.cache).map (fun p => p.2.file_id))))
            ⟨s.current_file_id, idsInsert s.current_file_id s.file_ids,
              cacheInsert key ⟨s.current_file_id, fileSize (activeLines s d)⟩ s.cache⟩
            (diskInsert d (file_path s.current_file_id)
              (activeLines s d ++ [encode (.Set key value)]))
            s.current_file_id
            (mem_idsInsert_self _ _)
            (by
              intro hin
              have hmem₂ := (List.mem_filter.mp hin).2
              simp only [decide_eq_true_eq] at hmem₂
              apply hmem₂
              refine List.mem_map.mpr ⟨(key, ⟨s.current_file_id,
                fileSize (activeLines s d)⟩), ?_, rfl⟩
              exact cacheInsert_mem_self _ _ _)
          rw [heq] at hstate hmem
          dsimp only at hstate hmem
          exact ⟨hmem, by rw [hstate.2]⟩
        · exact absurd h (by simp)
      · rw [set_run_rotate s d key value hgt h10] at h
        injection h with _ h₂
        injection h₂ with h₂ _
        subst h₂
        exact ⟨mem_idsInsert_self _ _, rfl⟩
    · intro hle
      rw [set_run_small s d key value hle] at h
      injection h with _ h₂
      injection h₂ with h₂ h₃
      exact ⟨h₂.symm, h₃.symm⟩
    · rintro ⟨hgt, h10⟩
      rw [set_run_rotate s d key value hgt h10] at h
      injection h with _ h₂
      injection h₂ with h₂ h₃
      exact ⟨h₂.symm, h₃.symm⟩
    · rintro ⟨hgt, h10⟩
      rw [set_run_rotate_compact s d key value hgt h10] at h
      split at h
      · rename_i x s₃ d₃ heq
        injection h with _ h₂
        injection h₂ with h₂ h₃
        exact ⟨x, s₃, d₃, heq, h₂.symm, h₃.symm⟩
      · exact absurd h (by simp)
  · intro s d key r s₂ d₂ h
    unfold KvStore.remove at h
    rcases hc : cacheLookup key s.cache with _ | loc <;> rw [hc] at h
    · injection h with _ h₂
      injection h₂ with _ h₃
      exact Or.inl h₃.symm
    · dsimp only at h
      rcases hd : diskLookup d (file_path s.current_file_id) with _ | lines <;> rw [hd] at h
      · injection h with _ h₂
        injection h₂ with _ h₃
        exact Or.inl h₃.symm
      · injection h with _ h₂
        injection h₂ with _ h₃
        exact Or.inr ⟨lines, rfl, h₃.symm⟩

/-! ## Byte sizes of encoded records -/

theorem utf8Len_cons (c : Char) (l : List Char) :
    utf8Len (c :: l) = c.utf8Size + utf8Len l := rfl

theorem utf8Len_append (l₁ l₂ : List Char) :
    utf8Len (l₁ ++ l₂) = utf8Len l₁ + utf8Len l₂ := by
  induction l₁ with
  | nil => simp [utf8Len]
  | cons c rest ih => simp [utf8Len_cons, ih]; omega

theorem encode_Set_data (k v : String) :
    (encode (.Set k v)).data =
      ['{', '"', 'S', 'e', 't', '"', ':', '[', '"'] ++ escapeList k.data ++
        ['"', ',', '"'] ++ escapeList v.data ++ ['"', ']', '}'] := by
  simp [encode]

theorem encode_Rm_data (k : String) :
    (encode (.Rm k)).data =
      ['{', '"', 'R', 'm', '"', ':', '"'] ++ escapeList k.data ++ ['"', '}'] := by
  simp [encode]

theorem utf8Len_encode_Set (k v : String) :
    utf8Len (encode (.Set k v)).data =
      15 + utf8Len (escapeList k.data) + utf8Len (escapeList v.data) := by
  rw [encode_Set_data]
  simp only [utf8Len_append]
  rw [show utf8Len ['{', '"', 'S', 'e', 't', '"', ':', '[', '"'] = 9 from by decide,
    show utf8Len ['"', ',', '"'] = 3 from by decide,
    show utf8Len ['"', ']', '}'] = 3 from by decide]
  omega

theorem utf8Len_encode_Rm (k : String) :
    utf8Len (encode (.Rm k)).data = 9 + utf8Len (escapeList k.data) := by
  rw [encode_Rm_data]
  simp only [utf8Len_append]
  rw [show utf8Len ['{', '"', 'R', 'm', '"', ':', '"'] = 7 from by decide,
    show utf8Len ['"', '}'] = 2 from by decide]
  omega

theorem escapeList_replicate_a (n : Nat) :
    escapeList (List.replicate n 'a') = List.replicate n 'a' := by
  induction n with
  | zero => rfl
  | succ n ih =>
    rw [List.replicate_succ, escapeList_cons, ih,
      show escapeChar 'a' = ['a'] from by decide]
    rfl

theorem utf8Len_replicate_a (n : Nat) : utf8Len (List.replicate n 'a') = n := by
  induction n with
  | zero => rfl
  | succ n ih =>
    rw [List.replicate_succ, utf8Len_cons, ih, show ('a').utf8Size = 1 from by decide]
    omega

/-- A value one byte longer than the rotation threshold. -/
def bigA : String := ⟨List.replicate 1048577 'a'⟩

theorem fileSize_single_bigA (k : String) (hk : utf8Len (escapeList k.data) = 1) :
    fileSize [encode (.Set k bigA)] = 1048594 := by
  rw [fileSize_cons, fileSize_nil, utf8Len_encode_Set, hk,
    show bigA.data = List.replicate 1048577 'a' from rfl,
    escapeList_replicate_a, utf8Len_replicate_a]

/-- Rotating `set` on a fresh store: the write of `bigA` under key "k"
crosses the threshold at id 0, compaction runs and finds only the
live segment 0, and the id increments. -/
theorem set_bigA_run :
    KvStore.set ⟨0, [], []⟩ [] "k" bigA =
      (.ok (), ⟨1, [0], [("k", ⟨0, 0⟩)]⟩,
        [(file_path 0, [encode (.Set "k" bigA)])]) := by
  rw [set_run_rotate_compact ⟨0, [], []⟩ [] "k" bigA
    (by
      show LOG_FILE_SIZE <
        fileSize ([] ++ [encode (.Set "k" bigA)])
      rw [List.nil_append, fileSize_single_bigA "k" (by decide)]
      decide)
    rfl]
  rfl

theorem set_a1_run :
    KvStore.set ⟨0, [], []⟩ [] "a" "1" =
      (.ok (), ⟨0, [], [("a", ⟨0, 0⟩)]⟩,
        [(file_path 0, [encode (.Set "a" "1")])]) := rfl

/-- Witness for C4: the 1 MiB-crossing `set` at id 0 records id 0 and
increments to 1 (having compacted), while a small `set` leaves the
state exactly appended-to. -/
theorem C4_rotation_and_compaction_trigger_witness :
    ((0 : Nat) ∈ ([0] : List Nat) ∧ (1 : Nat) = 0 + 1) ∧
    ((⟨0, [], [("a", ⟨0, 0⟩)]⟩ : KvStore) =
        ⟨0, [], cacheInsert "a" ⟨0, fileSize (activeLines ⟨0, [], []⟩ [])⟩ []⟩ ∧
      [(file_path 0, [encode (.Set "a" "1")])] =
        diskInsert [] (file_path 0)
          (activeLines ⟨0, [], []⟩ [] ++ [encode (.Set "a" "1")])) :=
  ⟨(C4_rotation_and_compaction_trigger.1 ⟨0, [], []⟩ [] "k" bigA ()
      ⟨1, [0], [("k", ⟨0, 0⟩)]⟩ [(file_path 0, [encode (.Set "k" bigA)])]
      set_bigA_run).1
    (by
      show LOG_FILE_SIZE < fileSize ([] ++ [encode (.Set "k" bigA)])
      rw [List.nil_append, fileSize_single_bigA "k" (by decide)]
      decide),
   (C4_rotation_and_compaction_trigger.1 ⟨0, [], []⟩ [] "a" "1" ()
      ⟨0, [], [("a", ⟨0, 0⟩)]⟩ [(file_path 0, [encode (.Set "a" "1")])]
      set_a1_run).2.1
    (by decide)⟩

/-! ## A stray .log file fails the whole open -/

/-- If any path in the loop's remaining work has extension `log` and a
stem that does not parse, the loop returns the parse error. -/
theorem loadIdsGo_error :
    ∀ (l : List String) (acc : List Nat),
      (∃ name ∈ l, (extStem name).2 = some "log" ∧ parseU32 (extStem name).1 = none) →
      loadIdsGo l acc = .error (.KvError "Error parsing Int") := by
  intro l
  induction l with
  | nil =>
    intro acc h
    simp at h
  | cons n rest ih =>
    intro acc h
    obtain ⟨nm, hmem, hext, hparse⟩ := h
    rcases List.mem_cons.mp hmem with hn | hn
    · subst hn
      rw [loadIdsGo, hext]
      dsimp only
      rw [if_pos rfl, hparse]
    · rw [loadIdsGo]
      rcases hext₂ : (extStem n).2 with _ | e
      · exact ih acc ⟨nm, hn, hext, hparse⟩
      · dsimp only
        by_cases he : e = "log"
        · rw [if_pos he]
          rcases hp : parseU32 (extStem n).1 with _ | logId
          · rfl
          · exact ih _ ⟨nm, hn, hext, hparse⟩
        · rw [if_neg he]
          exact ih acc ⟨nm, hn, hext, hparse⟩

/-- C10.  Stray .log files break open: any file in the directory whose
extension is `log` but whose stem does not parse as a `u32` (for example
`notes.log`) makes `open` fail with the parse error, so no store is
constructed. -/
theorem C10_stray_log_file_breaks_open (d : Disk) (name : String)
    (hmem : name ∈ diskNames d)
    (hext : (extStem name).2 = some "log")
    (hparse : parseU32 (extStem name).1 = none) :
    KvStore.open d = .error (.KvError "Error parsing Int") := by
  have hload : load_file_ids (diskNames d) = .error (.KvError "Error parsing Int") := by
    unfold load_file_ids
    apply loadIdsGo_error
    refine ⟨name, ?_, hext, hparse⟩
    exact ((List.perm_insertionSort strLe (diskNames d)).mem_iff).mpr hmem
  unfold KvStore.open
  rw [hload]

/-- Witness for C10: a directory holding only `notes.log`. -/
theorem C10_stray_log_file_breaks_open_witness :
    KvStore.open [("notes.log", [])] = .error (.KvError "Error parsing Int") :=
  C10_stray_log_file_breaks_open [("notes.log", [])] "notes.log"
    (by decide) (by decide) (by decide)

/-! ## Lexicographic order of the padded file names -/

theorem charListLt_irrefl : ∀ l, charListLt l l = false := by
  intro l
  induction l with
  | nil => rfl
  | cons c rest ih => simp [charListLt, ih]

theorem charToNatInj (a b : Char) (h : a.toNat = b.toNat) : a = b :=
  Char.ofNat_toNat a ▸ Char.ofNat_toNat b ▸ congrArg Char.ofNat h

theorem charListLt_append_eqlen :
    ∀ (xs ys zs₁ zs₂ : List Char), xs.length = ys.length →
      charListLt (xs ++ zs₁) (ys ++ zs₂) =
        if xs = ys then charListLt zs₁ zs₂ else charListLt xs ys := by
  intro xs
  induction xs with
  | nil =>
    intro ys zs₁ zs₂ hlen
    match ys with
    | [] => simp
    | _ :: _ => simp at hlen
  | cons a as ih =>
    intro ys zs₁ zs₂ hlen
    match ys with
    | [] => simp at hlen
    | b :: bs =>
      simp only [List.length_cons, Nat.add_right_cancel_iff] at hlen
      simp only [List.cons_append, charListLt]
      by_cases hab : a < b
      · have hne : ¬ (a :: as = b :: bs) := by
          intro hcontra
          injection hcontra with h₁ _
          exact absurd (h₁ ▸ hab) (lt_irrefl b)
        simp [hab, hne, charListLt]
      · by_cases hba : b < a
        · have hne : ¬ (a :: as = b :: bs) := by
            intro hcontra
            injection hcontra with h₁ _
            exact absurd (h₁ ▸ hba) (lt_irrefl a)
          simp [hab, hba, hne, charListLt]
        · have hasb : a = b := le_antisymm (le_of_not_lt hba) (le_of_not_lt hab)
          subst hasb
          simp only [List.append_eq]
          rw [ih bs zs₁ zs₂ hlen]
          by_cases habs : as = bs
          · subst habs
            simp [hab, charListLt]
          · have hne : ¬ (a :: as = a :: bs) := by
              intro hcontra
              injection hcontra with _ h₂
              exact habs h₂
            simp [hab, hba, habs, hne, charListLt]

/-- Fixed-width decimal rendering, most significant digit first; the
`k` low decimal digits of `n`. -/
def digitsPadFst : Nat → Nat → List Char
  | 0, _ => []
  | k + 1, n => hexDigitChar (n / 10 ^ k % 10) :: digitsPadFst k n

theorem digitsPadFst_foldl_val :
    ∀ k n acc, (digitsPadFst k n).foldl (fun a c => a * 10 + (c.toNat - 48)) acc =
      acc * 10 ^ k + n % 10 ^ k := by
  intro k
  induction k with
  | zero => intro n acc; simp [digitsPadFst, Nat.mod_one]
  | succ k ih =>
    intro n acc
    rw [digitsPadFst]
    simp only [List.foldl_cons]
    rw [hexDigitChar_toNat _ (Nat.mod_lt _ (by omega)), ih]
    have hmod : n % 10 ^ (k + 1) = n % 10 ^ k + 10 ^ k * (n / 10 ^ k % 10) := by
      rw [pow_succ]
      exact Nat.mod_mul
    rw [hmod]
    ring

theorem digitsPadFst_length (k n : Nat) : (digitsPadFst k n).length = k := by
  induction k with
  | zero => rfl
  | succ k ih => simp [digitsPadFst, ih]

theorem digitsPadFst_digit_chars (k n : Nat) (c : Char) (hc : c ∈ digitsPadFst k n) :
    '0' ≤ c ∧ c ≤ '9' := by
  induction k with
  | zero => simp [digitsPadFst] at hc
  | succ k ih =>
    rcases List.mem_cons.mp hc with h | h
    · subst h
      exact hexDigitChar_digit _ (Nat.mod_lt _ (by omega))
    · exact ih h

/-- Two digit-character lists of the same length with the same decimal
value are equal. -/
theorem digit_list_inj :
    ∀ (l₁ l₂ : List Char),
      (∀ c ∈ l₁, '0' ≤ c ∧ c ≤ '9') → (∀ c ∈ l₂, '0' ≤ c ∧ c ≤ '9') →
      l₁.length = l₂.length →
      l₁.foldl (fun a c => a * 10 + (c.toNat - 48)) 0 =
        l₂.foldl (fun a c => a * 10 + (c.toNat - 48)) 0 →
      l₁ = l₂ := by
  have hgen : ∀ (l₁ : List Char) (acc₁ : Nat), ∀ (l₂ : List Char) (acc₂ : Nat),
      (∀ c ∈ l₁, '0' ≤ c ∧ c ≤ '9') → (∀ c ∈ l₂, '0' ≤ c ∧ c ≤ '9') →
      l₁.length = l₂.length →
      l₁.foldl (fun a c => a * 10 + (c.toNat - 48)) acc₁ =
        l₂.foldl (fun a c => a * 10 + (c.toNat - 48)) acc₂ →
      acc₁ = acc₂ ∧ l₁ = l₂ := by
    intro l₁
    induction l₁ with
    | nil =>
      intro acc₁ l₂ acc₂ _ _ hlen hval
      match l₂ with
      | [] => exact ⟨hval, rfl⟩
      | _ :: _ => simp at hlen
    | cons c₁ r₁ ih =>
      intro acc₁ l₂ acc₂ h₁ h₂ hlen hval
      match l₂ with
      | [] => simp at hlen
      | c₂ :: r₂ =>
        simp only [List.length_cons, Nat.add_right_cancel_iff] at hlen
        simp only [List.foldl_cons] at hval
        obtain ⟨hacc, hrest⟩ := ih _ _ _
          (fun c hc => h₁ c (List.mem_cons_of_mem _ hc))
          (fun c hc => h₂ c (List.mem_cons_of_mem _ hc)) hlen hval
        have hd₁ := h₁ c₁ (List.mem_cons_self _ _)
        have hd₂ := h₂ c₂ (List.mem_cons_self _ _)
        have hb₁ : 48 ≤ c₁.toNat ∧ c₁.toNat ≤ 57 := by
          constructor
          · exact hd₁.1
          · exact hd₁.2
        have hb₂ : 48 ≤ c₂.toNat ∧ c₂.toNat ≤ 57 := by
          constructor
          · exact hd₂.1
          · exact hd₂.2
        have heqn : acc₁ = acc₂ ∧ c₁.toNat = c₂.toNat := by omega
        refine ⟨heqn.1, ?_⟩
        rw [hrest]
        rw [charToNatInj c₁ c₂ heqn.2]
  intro l₁ l₂ h₁ h₂ hlen hval
  exact (hgen l₁ 0 l₂ 0 h₁ h₂ hlen hval).2

theorem natDigits_length_le :
    ∀ k n, n < 10 ^ (k + 1) → (natDigits n).length ≤ k + 1 := by
  intro k
  induction k with
  | zero =>
    intro n hn
    rw [natDigits_eq, if_pos (by simpa using hn)]
    simp
  | succ k ih =>
    intro n hn
    rw [natDigits_eq]
    by_cases h10 : n < 10
    · simp [h10]
    · rw [if_neg h10]
      have hdiv : n / 10 < 10 ^ (k + 1) := by
        rw [Nat.div_lt_iff_lt_mul (by omega)]
        calc n < 10 ^ (k + 2) := hn
          _ = 10 ^ (k + 1) * 10 := by ring
      have := ih (n / 10) hdiv
      simp only [List.length_append, List.length_cons, List.length_nil]
      omega

theorem pad9_length (n : Nat) (h : n < 1000000000) : (pad9 n).length = 9 := by
  have hle : (natDigits n).length ≤ 9 := natDigits_length_le 8 n (by norm_num; omega)
  unfold pad9
  simp only [List.length_append, List.length_replicate]
  omega

theorem pad9_eq_digitsPadFst (n : Nat) (h : n < 1000000000) :
    pad9 n = digitsPadFst 9 n := by
  apply digit_list_inj
  · exact pad9_digit_chars n
  · exact digitsPadFst_digit_chars 9 n
  · rw [pad9_length n h, digitsPadFst_length]
  · rw [pad9_val, digitsPadFst_foldl_val]
    have : n % 10 ^ 9 = n := Nat.mod_eq_of_lt (by norm_num; omega)
    omega

theorem hexDigitChar_lt_iff :
    ∀ a, a < 10 → ∀ b, b < 10 → ((hexDigitChar a < hexDigitChar b) ↔ a < b) := by
  decide

theorem digitsPadFst_lt_iff :
    ∀ k i j, (charListLt (digitsPadFst k i) (digitsPadFst k j) = true ↔
      i % 10 ^ k < j % 10 ^ k) := by
  intro k
  induction k with
  | zero =>
    intro i j
    simp [digitsPadFst, charListLt, Nat.mod_one]
  | succ k ih =>
    intro i j
    have hpos : 0 < 10 ^ k := Nat.pos_pow_of_pos k (by omega)
    have hmi : i % 10 ^ (k + 1) = i % 10 ^ k + 10 ^ k * (i / 10 ^ k % 10) := by
      rw [pow_succ]
      exact Nat.mod_mul
    have hmj : j % 10 ^ (k + 1) = j % 10 ^ k + 10 ^ k * (j / 10 ^ k % 10) := by
      rw [pow_succ]
      exact Nat.mod_mul
    have hia : i / 10 ^ k % 10 < 10 := Nat.mod_lt _ (by omega)
    have hjb : j / 10 ^ k % 10 < 10 := Nat.mod_lt _ (by omega)
    have hilt : i % 10 ^ k < 10 ^ k := Nat.mod_lt _ hpos
    have hjlt : j % 10 ^ k < 10 ^ k := Nat.mod_lt _ hpos
    rw [digitsPadFst, digitsPadFst, hmi, hmj]
    simp only [charListLt]
    by_cases hab : i / 10 ^ k % 10 < j / 10 ^ k % 10
    · rw [if_pos ((hexDigitChar_lt_iff _ hia _ hjb).mpr hab)]
      have : i % 10 ^ k + 10 ^ k * (i / 10 ^ k % 10) <
          j % 10 ^ k + 10 ^ k * (j / 10 ^ k % 10) := by
        calc i % 10 ^ k + 10 ^ k * (i / 10 ^ k % 10)
            < 10 ^ k + 10 ^ k * (i / 10 ^ k % 10) := by omega
          _ = 10 ^ k * (i / 10 ^ k % 10 + 1) := by ring
          _ ≤ 10 ^ k * (j / 10 ^ k % 10) := Nat.mul_le_mul_left _ (by omega)
          _ ≤ j % 10 ^ k + 10 ^ k * (j / 10 ^ k % 10) := by omega
      simp [this]
    · by_cases hba : j / 10 ^ k % 10 < i / 10 ^ k % 10
      · rw [if_neg ((hexDigitChar_lt_iff _ hia _ hjb).not.mpr hab),
          if_pos ((hexDigitChar_lt_iff _ hjb _ hia).mpr hba)]
        have : ¬ (i % 10 ^ k + 10 ^ k * (i / 10 ^ k % 10) <
            j % 10 ^ k + 10 ^ k * (j / 10 ^ k % 10)) := by
          intro hcontra
          have : j % 10 ^ k + 10 ^ k * (j / 10 ^ k % 10) <
              i % 10 ^ k + 10 ^ k * (i / 10 ^ k % 10) := by
            calc j % 10 ^ k + 10 ^ k * (j / 10 ^ k % 10)
                < 10 ^ k + 10 ^ k * (j / 10 ^ k % 10) := by omega
              _ = 10 ^ k * (j / 10 ^ k % 10 + 1) := by ring
              _ ≤ 10 ^ k * (i / 10 ^ k % 10) := Nat.mul_le_mul_left _ (by omega)
              _ ≤ i % 10 ^ k + 10 ^ k * (i / 10 ^ k % 10) := by omega
          omega
        simp [this]
      · have heq : i / 10 ^ k % 10 = j / 10 ^ k % 10 := by omega
        rw [if_neg ((hexDigitChar_lt_iff _ hia _ hjb).not.mpr hab),
          if_neg ((hexDigitChar_lt_iff _ hjb _ hia).not.mpr hba), heq]
        rw [ih i j]
        constructor
        · intro hlt
          omega
        · intro hlt
          omega

theorem pad9_lt_iff (i j : Nat) (hi : i < 1000000000) (hj : j < 1000000000) :
    (charListLt (pad9 i) (pad9 j) = true ↔ i < j) := by
  rw [pad9_eq_digitsPadFst i hi, pad9_eq_digitsPadFst j hj, digitsPadFst_lt_iff]
  rw [Nat.mod_eq_of_lt (by norm_num; omega), Nat.mod_eq_of_lt (by norm_num; omega)]

/-- For ids below 10^9 (nine-digit names) the path order agrees with the
numeric order of the ids. -/
theorem strLe_file_path_iff (i j : Nat) (hi : i < 1000000000) (hj : j < 1000000000) :
    (strLe (file_path i) (file_path j) ↔ i ≤ j) := by
  unfold strLe file_path
  show (charListLt (pad9 j ++ ['.', 'l', 'o', 'g']) (pad9 i ++ ['.', 'l', 'o', 'g']) =
    false ↔ i ≤ j)
  rw [charListLt_append_eqlen _ _ _ _ (by rw [pad9_length j hj, pad9_length i hi])]
  by_cases hpe : pad9 j = pad9 i
  · have : j = i := pad9_injective j i hpe
    subst this
    simp [charListLt_irrefl]
  · rw [if_neg hpe]
    constructor
    · intro hfalse
      have : ¬ j < i := by
        intro hji
        rw [(pad9_lt_iff j i hj hi).mpr hji] at hfalse
        exact absurd hfalse (by simp)
      omega
    · intro hij
      rcases Bool.eq_false_or_eq_true (charListLt (pad9 j) (pad9 i)) with h | h
      · have := (pad9_lt_iff j i hj hi).mp h
        omega
      · exact h

/-! ## Sorting canonical names -/

theorem orderedInsert_map_file_path (i : Nat) (l : List Nat)
    (hi : i < 1000000000) (hl : ∀ j ∈ l, j < 1000000000) :
    List.orderedInsert strLe (file_path i) (l.map file_path) =
      (List.orderedInsert (· ≤ ·) i l).map file_path := by
  induction l with
  | nil => rfl
  | cons j rest ih =>
    simp only [List.map_cons, List.orderedInsert]
    by_cases hij : i ≤ j
    · rw [if_pos ((strLe_file_path_iff i j hi (hl j (List.mem_cons_self _ _))).mpr hij),
        if_pos hij]
      simp
    · rw [if_neg (fun hc =>
          hij ((strLe_file_path_iff i j hi (hl j (List.mem_cons_self _ _))).mp hc)),
        if_neg hij]
      simp only [List.map_cons, List.cons.injEq, true_and]
      exact ih (fun j₂ hj₂ => hl j₂ (List.mem_cons_of_mem _ hj₂))

theorem insertionSort_map_file_path (l : List Nat) (hl : ∀ j ∈ l, j < 1000000000) :
    List.insertionSort strLe (l.map file_path) =
      (List.insertionSort (· ≤ ·) l).map file_path := by
  induction l with
  | nil => rfl
  | cons i rest ih =>
    simp only [List.map_cons, List.insertionSort]
    rw [ih (fun j hj => hl j (List.mem_cons_of_mem _ hj))]
    exact orderedInsert_map_file_path i _ (hl i (List.mem_cons_self _ _))
      (fun j hj => hl j (List.mem_cons_of_mem _
        (((List.perm_insertionSort _ rest).mem_iff).mp hj)))

/-- Splitting a canonical segment name gives back the padded stem and
the `log` extension. -/
theorem extStem_file_path (i : Nat) :
    extStem (file_path i) = (⟨pad9 i⟩, some "log") := by
  unfold extStem file_path
  rw [show (⟨pad9 i ++ ['.', 'l', 'o', 'g']⟩ : String).data =
    pad9 i ++ ['.', 'l', 'o', 'g'] from rfl]
  rw [List.reverse_append,
    show (['.', 'l', 'o', 'g'] : List Char).reverse = ['g', 'o', 'l', '.'] from rfl]
  have hsplit : ∀ rest, revSplitDot ('g' :: 'o' :: 'l' :: '.' :: rest) =
      some (['g', 'o', 'l'], rest) := by
    intro rest
    simp [revSplitDot]
  simp only [List.cons_append, List.nil_append]
  rw [hsplit]
  have hne : ¬ ((pad9 i).reverse = []) := by
    simp [pad9_ne_nil i]
  dsimp only
  rw [if_neg hne]
  simp [List.reverse_reverse]

theorem loadIdsGo_canonical :
    ∀ (l acc : List Nat), (∀ i ∈ l, i < 4294967296) →
      loadIdsGo (l.map file_path) acc = .ok (acc ++ l) := by
  intro l
  induction l with
  | nil =>
    intro acc _
    simp [loadIdsGo]
  | cons i rest ih =>
    intro acc hb
    rw [List.map_cons, loadIdsGo, extStem_file_path]
    dsimp only
    rw [if_pos rfl, parseU32_pad9 i (hb i (List.mem_cons_self _ _))]
    dsimp only
    rw [ih (acc ++ [i]) (fun j hj => hb j (List.mem_cons_of_mem _ hj))]
    simp

/-- On a directory of canonical segment names with nine-digit ids,
`load_file_ids` returns exactly the ids sorted ascending. -/
theorem load_file_ids_canonical (ids : List Nat) (hb : ∀ i ∈ ids, i < 1000000000) :
    load_file_ids (ids.map file_path) = .ok (List.insertionSort (· ≤ ·) ids) := by
  unfold load_file_ids
  rw [insertionSort_map_file_path ids hb,
    loadIdsGo_canonical _ _ (fun j hj =>
      lt_trans (hb j (((List.perm_insertionSort _ ids).mem_iff).mp hj)) (by norm_num))]
  simp

theorem getLastD_mem (l : List Nat) (h : l ≠ []) : (l.getLast?).getD 0 ∈ l := by
  match l with
  | [a] => simp
  | a :: b :: t =>
    rw [List.getLast?_cons_cons]
    exact List.mem_cons_of_mem _ (getLastD_mem (b :: t) (by simp))

theorem sorted_getLastD_max (l : List Nat) (hs : List.Pairwise (· ≤ ·) l) :
    ∀ i ∈ l, i ≤ (l.getLast?).getD 0 := by
  match l with
  | [] => intro i hi; simp at hi
  | [a] => intro i hi; simp at hi; simp [hi]
  | a :: b :: t =>
    intro i hi
    rw [List.getLast?_cons_cons]
    rcases List.mem_cons.mp hi with hia | hitl
    · subst hia
      have hle : i ≤ b := (List.pairwise_cons.mp hs).1 b (List.mem_cons_self _ _)
      exact le_trans hle (sorted_getLastD_max (b :: t) (List.pairwise_cons.mp hs).2 b
        (List.mem_cons_self _ _))
    · exact sorted_getLastD_max (b :: t) (List.pairwise_cons.mp hs).2 i hitl

/-! ## Open's initial state -/

theorem file_path_billion : file_path 1000000000 = "1000000000.log" := by
  have hnd : natDigits 1000000000 = ['1', '0', '0', '0', '0', '0', '0', '0', '0', '0'] := by
    simp [natDigits_eq]
    decide
  unfold file_path pad9
  rw [hnd]
  decide

theorem file_path_billion_minus : file_path 999999999 = "999999999.log" := by
  have hnd : natDigits 999999999 = ['9', '9', '9', '9', '9', '9', '9', '9', '9'] := by
    simp [natDigits_eq]
    decide
  unfold file_path pad9
  rw [hnd]
  decide

/-- C6 counterexample.  With the two segment files `999999999.log` and
`1000000000.log`—both ids representable as `u32`—the lexicographic path
sort puts the ten-digit name first, so `load_file_ids` returns the ids
out of ascending order, and `open` sets `current_file_id` to 999999999,
not the numeric maximum 1000000000. -/
theorem C6_counterexample_ten_digit_id :
    load_file_ids ["999999999.log", "1000000000.log"] =
      .ok [1000000000, 999999999] ∧
    ¬ ([1000000000, 999999999] : List Nat).Pairwise (· < ·) ∧
    KvStore.open [("999999999.log", []), ("1000000000.log", [])] =
      .ok ⟨999999999, [1000000000, 999999999], []⟩ ∧
    (999999999 : Nat) ≠ max 1000000000 999999999 := by
  have hload : load_file_ids ["999999999.log", "1000000000.log"] =
      .ok [1000000000, 999999999] := by decide
  refine ⟨hload, by decide, ?_, by decide⟩
  unfold KvStore.open
  rw [show diskNames [("999999999.log", []), ("1000000000.log", [])] =
    ["999999999.log", "1000000000.log"] from rfl, hload]
  dsimp only
  have hu1 : update_cache [] 1000000000
      [("999999999.log", []), ("1000000000.log", [])] = .ok [] := by
    unfold update_cache
    rw [file_path_billion]
    rfl
  have hu2 : update_cache [] 999999999
      [("999999999.log", []), ("1000000000.log", [])] = .ok [] := by
    unfold update_cache
    rw [file_path_billion_minus]
    rfl
  rw [show ([1000000000, 999999999] : List Nat).foldlM
      (fun c i => update_cache c i [("999999999.log", []), ("1000000000.log", [])])
      ([] : Cache) =
    (update_cache [] 1000000000 [("999999999.log", []), ("1000000000.log", [])]).bind
      (fun c => (update_cache c 999999999
        [("999999999.log", []), ("1000000000.log", [])]).bind
        (fun c₂ => pure c₂)) from rfl]
  rw [hu1]
  rw [show (Except.ok ([] : Cache)).bind
      (fun c => (update_cache c 999999999
        [("999999999.log", []), ("1000000000.log", [])]).bind fun c₂ => pure c₂) =
    (update_cache [] 999999999
      [("999999999.log", []), ("1000000000.log", [])]).bind (fun c₂ => pure c₂) from rfl]
  rw [hu2]
  rfl

/-- C6 (amended).  Open initial state for nine-digit ids: on a directory
of canonical segment files whose ids are pairwise distinct and below
10^9 (so every name is exactly nine padded digits and lexicographic
order equals numeric order), `load_file_ids` returns the ids sorted
strictly ascending, and a successful `open` sets `current_file_id` to
the last listed id, which is 0 when no segment exists and the numeric
maximum of the ids otherwise. -/
theorem C6_open_initial_state_amended (ids : List Nat) (hnd : ids.Nodup)
    (hb : ∀ i ∈ ids, i < 1000000000) :
    load_file_ids (ids.map file_path) = .ok (List.insertionSort (· ≤ ·) ids) ∧
    (List.insertionSort (· ≤ ·) ids).Pairwise (· < ·) ∧
    (List.insertionSort (· ≤ ·) ids).Perm ids ∧
    (∀ (d : Disk) (s : KvStore), diskNames d = ids.map file_path →
      KvStore.open d = .ok s →
      s.current_file_id = ((List.insertionSort (· ≤ ·) ids).getLast?).getD 0 ∧
      (∀ i ∈ ids, i ≤ s.current_file_id) ∧
      (ids = [] → s.current_file_id = 0) ∧
      (ids ≠ [] → s.current_file_id ∈ ids)) := by
  have hperm : (List.insertionSort (· ≤ ·) ids).Perm ids :=
    List.perm_insertionSort _ ids
  have hsorted : (List.insertionSort (· ≤ ·) ids).Pairwise (· ≤ ·) :=
    List.sorted_insertionSort _ ids
  have hnd₂ : (List.insertionSort (· ≤ ·) ids).Nodup := hperm.nodup_iff.mpr hnd
  refine ⟨load_file_ids_canonical ids hb, ?_, hperm, ?_⟩
  · exact (hsorted.and hnd₂).imp (fun h => lt_of_le_of_ne h.1 h.2)
  · intro d s hnames hopen
    unfold KvStore.open at hopen
    rw [hnames, load_file_ids_canonical ids hb] at hopen
    dsimp only at hopen
    rcases hrep : (List.insertionSort (· ≤ ·) ids).foldlM
        (fun c i => update_cache c i d) ([] : Cache) with e | cache <;>
      rw [hrep] at hopen
    · exact absurd hopen (by simp)
    · injection hopen with hopen
      subst hopen
      refine ⟨rfl, ?_, ?_, ?_⟩
      · intro i hi
        exact sorted_getLastD_max _ hsorted i (hperm.mem_iff.mpr hi)
      · intro hnil
        subst hnil
        rfl
      · intro hnonnil
        have hsne : List.insertionSort (· ≤ ·) ids ≠ [] := by
          intro hc
          rw [hc] at hperm
          exact hnonnil (List.Perm.nil_eq hperm).symm
        exact hperm.mem_iff.mp (getLastD_mem _ hsne)

/-- Witness for C6 (amended) on the id set \x7b2, 0, 1\x7d. -/
theorem C6_open_initial_state_amended_witness :
    load_file_ids ([2, 0, 1].map file_path) =
      .ok (List.insertionSort (· ≤ ·) [2, 0, 1]) ∧
    (⟨2, [0, 1, 2], []⟩ : KvStore).current_file_id =
      ((List.insertionSort (· ≤ ·) ([2, 0, 1] : List Nat)).getLast?).getD 0 :=
  ⟨(C6_open_initial_state_amended [2, 0, 1] (by decide) (by decide)).1,
   ((C6_open_initial_state_amended [2, 0, 1] (by decide) (by decide)).2.2.2
     [(file_path 2, []), (file_path 0, []), (file_path 1, [])]
     ⟨2, [0, 1, 2], []⟩ rfl (by rfl)).1⟩

/-! ## The swallowed read error in recovery -/

/-- C5.  Error propagation fails in recovery: the `while let Ok(read) =
read_line` loop of `update_cache` treats a failing read as end of input.
With one good `Set` line followed by a read that fails with an I/O
error, the replay returns `Ok` with the partially built index instead of
propagating the error; in general a failing read at the front of the
remaining input always yields `Ok` with whatever cache was built so
far. -/
theorem C5_read_error_swallowed_in_replay :
    replayReads 0 [] 0 [.ok (encode (.Set "a" "1")), .error ()] =
      .ok [("a", ⟨0, 0⟩)] ∧
    (∀ (log_id : Nat) (cache : Cache) (off : Nat) (rest : List (Except Unit String)),
      replayReads log_id cache off (.error () :: rest) = .ok cache) := by
  constructor
  · rw [replayReads, decode_rustTrim_encode]
    rfl
  · intro log_id cache off rest
    rfl

/-! ## The index consistency invariant -/

/-- A cache binding points at the start of a line that decodes to a
`Set` record for the bound key: the segment file exists, the recorded
offset is a line start, and the line decodes (after trimming, as the
readers do) to `Set k v` for some `v`. -/
def pointsToSet (d : Disk) (loc : KvLocation) (k : String) : Prop :=
  ∃ (pre : List String) (line : String) (post : List String) (v : String),
    diskLookup d (file_path loc.file_id) = some (pre ++ line :: post) ∧
    loc.offset = fileSize pre ∧
    decode (rustTrim line) = .ok (.Set k v)

/-- The index consistency invariant of the store against its root
directory. -/
def IndexInv (s : KvStore) (d : Disk) : Prop :=
  ∀ k loc, cacheLookup k s.cache = some loc → pointsToSet d loc k

/-- Appending lines to any file preserves every binding's witness. -/
theorem pointsToSet_append (d : Disk) (name : String) (more : List String)
    (loc : KvLocation) (k : String) (h : pointsToSet d loc k) :
    pointsToSet (diskInsert d name ((diskLookup d name).getD [] ++ more)) loc k := by
  obtain ⟨pre, line, post, v, hlook, hoff, hdec⟩ := h
  by_cases hn : file_path loc.file_id = name
  · rw [hn] at hlook
    refine ⟨pre, line, post ++ more, v, ?_, hoff, hdec⟩
    rw [hn, diskLookup_diskInsert_self, hlook]
    simp
  · exact ⟨pre, line, post, v, by
      rw [diskLookup_diskInsert_ne d name _ _ (fun hc => hn hc.symm)]
      exact hlook, hoff, hdec⟩

theorem cacheLookup_cacheRemove_some (k k₂ : String) (c : Cache) (loc : KvLocation)
    (h : cacheLookup k (cacheRemove k₂ c) = some loc) : cacheLookup k c = some loc := by
  by_cases hk : k₂ = k
  · subst hk
    rw [cacheLookup_cacheRemove_self] at h
    exact absurd h (by simp)
  · rwa [cacheLookup_cacheRemove_ne k₂ k c hk] at h

/-- Compaction, which deletes only fully dead segments, preserves every
binding's witness (the loop state and its possible early error included). -/
theorem pointsToSet_compactGo (s : KvStore) (d : Disk) (ids : List Nat)
    (hids : ∀ i ∈ ids, ∀ k loc, cacheLookup k s.cache = some loc → i ≠ loc.file_id)
    (loc : KvLocation) (k : String)
    (hk : cacheLookup k s.cache = some loc)
    (h : pointsToSet d loc k) :
    pointsToSet (compactGo ids s d).2.2 loc k := by
  obtain ⟨pre, line, post, v, hlook, hoff, hdec⟩ := h
  refine ⟨pre, line, post, v, ?_, hoff, hdec⟩
  rw [compactGo_lookup_ne ids s d _ (fun i hi hc =>
    (hids i hi k loc hk) (file_path_inj _ _ hc))]
  exact hlook

theorem cacheLookup_mem (k : String) (c : Cache) (loc : KvLocation)
    (h : cacheLookup k c = some loc) : (k, loc) ∈ c := by
  induction c with
  | nil => simp [cacheLookup] at h
  | cons p rest ih =>
    obtain ⟨p1, p2⟩ := p
    rw [cacheLookup] at h
    by_cases hp : p1 = k
    · rw [if_pos hp] at h
      injection h with h
      subst hp
      subst h
      exact List.mem_cons_self _ _
    · rw [if_neg hp] at h
      exact List.mem_cons_of_mem _ (ih h)

/-- The appended-to state after the write part of `set` satisfies the
invariant. -/
theorem indexInv_appended (s : KvStore) (d : Disk) (key value : String)
    (hI : IndexInv s d) :
    ∀ k loc, cacheLookup k
        (cacheInsert key
          ⟨s.current_file_id, fileSize ((diskLookup d (file_path s.current_file_id)).getD [])⟩
          s.cache) = some loc →
      pointsToSet (diskInsert d (file_path s.current_file_id)
        ((diskLookup d (file_path s.current_file_id)).getD [] ++
          [encode (.Set key value)])) loc k := by
  intro k loc hk
  by_cases hkk : key = k
  · subst hkk
    rw [cacheLookup_cacheInsert_self] at hk
    injection hk with hk
    subst hk
    refine ⟨(diskLookup d (file_path s.current_file_id)).getD [],
      encode (.Set key value), [], value, ?_, rfl, decode_rustTrim_encode _⟩
    rw [diskLookup_diskInsert_self]
  · rw [cacheLookup_cacheInsert_ne key k _ _ hkk] at hk
    exact pointsToSet_append d _ _ loc k (hI k loc hk)

/-- The invariant is preserved by `set`, whether or not it rotates, runs
compaction, or fails inside compaction. -/
theorem indexInv_set (s : KvStore) (d : Disk) (key value : String)
    (r : Except KvError Unit) (s₂ : KvStore) (d₂ : Disk) (hI : IndexInv s d)
    (h : KvStore.set s d key value = (r, s₂, d₂)) : IndexInv s₂ d₂ := by
  by_cases hth : fileSize ((diskLookup d (file_path s.current_file_id)).getD [] ++
      [encode (.Set key value)]) > LOG_FILE_SIZE
  · by_cases h10 : s.current_file_id % LOG_COMPACTION_COUNT = 0
    · rw [set_run_rotate_compact s d key value hth h10] at h
      -- both arms of the match end in a compacted state
      have hcore : ∀ (r₃ : Except KvError Unit) (s₃ : KvStore) (d₃ : Disk),
          KvStore.compact
            ⟨s.current_file_id, idsInsert s.current_file_id s.file_ids,
              cacheInsert key
                ⟨s.current_file_id,
                  fileSize ((diskLookup d (file_path s.current_file_id)).getD [])⟩
                s.cache⟩
            (diskInsert d (file_path s.current_file_id)
              ((diskLookup d (file_path s.current_file_id)).getD [] ++
                [encode (.Set key value)])) = (r₃, s₃, d₃) →
          ∀ k loc, cacheLookup k s₃.cache = some loc → pointsToSet d₃ loc k := by
        intro r₃ s₃ d₃ heq k loc hk
        unfold KvStore.compact at heq
        dsimp only at heq
        have hstate := compactGo_state
          ((idsInsert s.current_file_id s.file_ids).filter (fun i =>
            decide (i ∉ (cacheInsert key
              ⟨s.current_file_id,
                fileSize ((diskLookup d (file_path s.current_file_id)).getD [])⟩
              s.cache).map (fun p => p.2.file_id))))
          ⟨s.current_file_id, idsInsert s.current_file_id s.file_ids,
            cacheInsert key
              ⟨s.current_file_id,
                fileSize ((diskLookup d (file_path s.current_file_id)).getD [])⟩
              s.cache⟩
          (diskInsert d (file_path s.current_file_id)
            ((diskLookup d (file_path s.current_file_id)).getD [] ++
              [encode (.Set key value)]))
        have hgo := pointsToSet_compactGo
          ⟨s.current_file_id, idsInsert s.current_file_id s.file_ids,
            cacheInsert key
              ⟨s.current_file_id,
                fileSize ((diskLookup d (file_path s.current_file_id)).getD [])⟩
              s.cache⟩
          (diskInsert d (file_path s.current_file_id)
            ((diskLookup d (file_path s.current_file_id)).getD [] ++
              [encode (.Set key value)]))
          ((idsInsert s.current_file_id s.file_ids).filter (fun i =>
            decide (i ∉ (cacheInsert key
              ⟨s.current_file_id,
                fileSize ((diskLookup d (file_path s.current_file_id)).getD [])⟩
              s.cache).map (fun p => p.2.file_id))))
          (by
            intro i hi k₂ loc₂ hk₂ hcontra
            have hmem := (List.mem_filter.mp hi).2
            simp only [decide_eq_true_eq] at hmem
            apply hmem
            refine List.mem_map.mpr ⟨(k₂, loc₂), cacheLookup_mem _ _ _ hk₂, ?_⟩
            rw [hcontra])
          loc k
        rw [heq] at hstate
        dsimp only at hstate
        rw [hstate.1] at hk
        have := hgo hk (indexInv_appended s d key value hI k loc hk)
        rw [heq] at this
        exact this
      split at h
      · rename_i x s₃ d₃ heq
        injection h with _ h₂
        injection h₂ with h₂ h₃
        subst h₂
        subst h₃
        intro k loc hk
        exact hcore (.ok x) s₃ d₃ heq k loc hk
      · rename_i e s₃ d₃ heq
        injection h with _ h₂
        injection h₂ with h₂ h₃
        subst h₂
        subst h₃
        exact hcore (.error e) _ _ heq
    · rw [set_run_rotate s d key value hth h10] at h
      injection h with _ h₂
      injection h₂ with h₂ h₃
      subst h₂
      subst h₃
      intro k loc hk
      exact indexInv_appended s d key value hI k loc hk
  · rw [set_run_small s d key value (Nat.not_lt.mp hth)] at h
    injection h with _ h₂
    injection h₂ with h₂ h₃
    subst h₂
    subst h₃
    intro k loc hk
    exact indexInv_appended s d key value hI k loc hk

/-- The invariant is preserved by `remove` on every path, including the
failing ones. -/
theorem indexInv_remove (s : KvStore) (d : Disk) (key : String)
    (r : Except KvError Unit) (s₂ : KvStore) (d₂ : Disk) (hI : IndexInv s d)
    (h : KvStore.remove s d key = (r, s₂, d₂)) : IndexInv s₂ d₂ := by
  unfold KvStore.remove at h
  rcases hc : cacheLookup key s.cache with _ | loc₀ <;> rw [hc] at h
  · injection h with _ h₂
    injection h₂ with h₂ h₃
    subst h₂
    subst h₃
    exact hI
  · dsimp only at h
    rcases hd : diskLookup d (file_path s.current_file_id) with _ | lines <;> rw [hd] at h
    · injection h with _ h₂
      injection h₂ with h₂ h₃
      subst h₂
      subst h₃
      intro k loc hk
      exact hI k loc (cacheLookup_cacheRemove_some k key s.cache loc hk)
    · injection h with _ h₂
      injection h₂ with h₂ h₃
      subst h₂
      subst h₃
      intro k loc hk
      have hold := hI k loc (cacheLookup_cacheRemove_some k key s.cache loc hk)
      have hgd : (diskLookup d (file_path s.current_file_id)).getD [] = lines := by
        rw [hd]
        rfl
      have := pointsToSet_append d (file_path s.current_file_id)
        [encode (.Rm key)] loc k hold
      rwa [hgd] at this

/-- Under the invariant, `get` never fails—in particular it never
returns the "Inconsistent backing storage" error. -/
theorem get_ok_under_inv (s : KvStore) (d : Disk) (k : String) (hI : IndexInv s d) :
    KvStore.get s d k = .ok none ∨ ∃ v, KvStore.get s d k = .ok (some v) := by
  unfold KvStore.get
  rcases hc : cacheLookup k s.cache with _ | loc
  · exact Or.inl rfl
  · right
    obtain ⟨pre, line, post, v, hlook, hoff, hdec⟩ := hI k loc hc
    refine ⟨v, ?_⟩
    dsimp only
    rw [hlook]
    dsimp only
    rw [hoff, readLineAt_start]
    dsimp only
    rw [hdec]

/-- Replaying reads establishes the invariant for every binding the
replay creates. -/
theorem replayReads_pointsToSet (d : Disk) (log_id : Nat) :
    ∀ (rest done : List String) (cache res : Cache),
      diskLookup d (file_path log_id) = some (done ++ rest) →
      (∀ k loc, cacheLookup k cache = some loc → pointsToSet d loc k) →
      replayReads log_id cache (fileSize done) (rest.map .ok) = .ok res →
      ∀ k loc, cacheLookup k res = some loc → pointsToSet d loc k := by
  intro rest
  induction rest with
  | nil =>
    intro done cache res _ hcache hrep
    rw [List.map_nil, replayReads] at hrep
    injection hrep with hrep
    subst hrep
    exact hcache
  | cons line tl ih =>
    intro done cache res hd hcache hrep
    rw [List.map_cons, replayReads] at hrep
    rcases hdec : decode (rustTrim line) with e | cmd <;> rw [hdec] at hrep
    · exact absurd hrep (by simp)
    · dsimp only at hrep
      have hsz : fileSize done + utf8Len line.data + 1 = fileSize (done ++ [line]) := by
        rw [fileSize_append, fileSize_cons, fileSize_nil]
        omega
      rw [hsz] at hrep
      refine ih (done ++ [line]) _ res (by simpa using hd) ?_ hrep
      intro k loc hk
      match cmd with
      | .Set k₂ v =>
        dsimp only [applyCmd] at hk
        by_cases hkk : k₂ = k
        · subst hkk
          rw [cacheLookup_cacheInsert_self] at hk
          injection hk with hk
          subst hk
          exact ⟨done, line, tl, v, hd, rfl, hdec⟩
        · rw [cacheLookup_cacheInsert_ne k₂ k _ _ hkk] at hk
          exact hcache k loc hk
      | .Rm k₂ =>
        dsimp only [applyCmd] at hk
        exact hcache k loc (cacheLookup_cacheRemove_some k k₂ cache loc hk)
      | .Get k₂ =>
        exact hcache k loc hk

theorem update_cache_pointsToSet (d : Disk) (cache : Cache) (log_id : Nat)
    (res : Cache)
    (hcache : ∀ k loc, cacheLookup k cache = some loc → pointsToSet d loc k)
    (h : update_cache cache log_id d = .ok res) :
    ∀ k loc, cacheLookup k res = some loc → pointsToSet d loc k := by
  unfold update_cache at h
  rcases hd : diskLookup d (file_path log_id) with _ | lines <;> rw [hd] at h
  · exact absurd h (by simp)
  · exact replayReads_pointsToSet d log_id lines [] cache res (by simpa using hd)
      hcache h

theorem foldl_update_cache_pointsToSet (d : Disk) :
    ∀ (ids : List Nat) (cache res : Cache),
      (∀ k loc, cacheLookup k cache = some loc → pointsToSet d loc k) →
      ids.foldlM (fun c i => update_cache c i d) cache = .ok res →
      ∀ k loc, cacheLookup k res = some loc → pointsToSet d loc k := by
  intro ids
  induction ids with
  | nil =>
    intro cache res hcache h
    rw [List.foldlM_nil] at h
    injection h with h
    subst h
    exact hcache
  | cons i rest ih =>
    intro cache res hcache h
    rw [List.foldlM_cons] at h
    rcases hu : update_cache cache i d with e | c₂ <;> rw [hu] at h
    · exact absurd h (by simp [Bind.bind, Except.bind])
    · have hbind : (Except.ok c₂ >>= fun b => rest.foldlM (fun c j => update_cache c j d) b) =
          rest.foldlM (fun c j => update_cache c j d) c₂ := rfl
      rw [hbind] at h
      exact ih c₂ res (update_cache_pointsToSet d cache i c₂ hcache hu) h

/-- Recovery establishes the invariant. -/
theorem indexInv_open (d : Disk) (s : KvStore) (h : KvStore.open d = .ok s) :
    IndexInv s d := by
  unfold KvStore.open at h
  rcases hl : load_file_ids (diskNames d) with e | ids <;> rw [hl] at h
  · exact absurd h (by simp)
  · dsimp only at h
    rcases hf : ids.foldlM (fun c i => update_cache c i d) ([] : Cache) with e | cache <;>
      rw [hf] at h
    · exact absurd h (by simp)
    · injection h with h
      subst h
      intro k loc hk
      exact foldl_update_cache_pointsToSet d ids [] cache
        (fun k₂ loc₂ hk₂ => absurd hk₂ (by simp [cacheLookup])) hf k loc hk

/-- Compaction never deletes a segment referenced by the index. -/
theorem compact_keeps_referenced (s : KvStore) (d : Disk)
    (r : Except KvError Unit) (s₂ : KvStore) (d₂ : Disk)
    (h : KvStore.compact s d = (r, s₂, d₂)) (k : String) (loc : KvLocation)
    (hk : cacheLookup k s.cache = some loc) :
    diskLookup d₂ (file_path loc.file_id) = diskLookup d (file_path loc.file_id) := by
  unfold KvStore.compact at h
  dsimp only at h
  have := compactGo_lookup_ne
    (s.file_ids.filter (fun i => decide (i ∉ s.cache.map (fun p => p.2.file_id))))
    s d (file_path loc.file_id)
    (by
      intro i hi hcontra
      have hmem := (List.mem_filter.mp hi).2
      simp only [decide_eq_true_eq] at hmem
      apply hmem
      refine List.mem_map.mpr ⟨(k, loc), cacheLookup_mem _ _ _ hk, ?_⟩
      rw [file_path_inj _ _ hcontra]
    )
  rw [h] at this
  exact this

/-- C2.  Index consistency invariant: recovery at `open` establishes
`IndexInv`—every indexed key points at an existing segment file, at a
line start whose line decodes to a `Set` record for that key—and every
public mutation (`set`, with its rotation and compaction, and `remove`)
preserves it; under the invariant `get` never returns the
"Inconsistent backing storage" error (it returns `Ok`); and compaction
never deletes a segment referenced by the index. -/
theorem C2_index_consistency_invariant :
    (∀ (d : Disk) (s : KvStore), KvStore.open d = .ok s → IndexInv s d) ∧
    (∀ (s : KvStore) (d : Disk) (key value : String) (r : Except KvError Unit)
       (s₂ : KvStore) (d₂ : Disk), IndexInv s d →
       KvStore.set s d key value = (r, s₂, d₂) → IndexInv s₂ d₂) ∧
    (∀ (s : KvStore) (d : Disk) (key : String) (r : Except KvError Unit)
       (s₂ : KvStore) (d₂ : Disk), IndexInv s d →
       KvStore.remove s d key = (r, s₂, d₂) → IndexInv s₂ d₂) ∧
    (∀ (s : KvStore) (d : Disk) (k : String), IndexInv s d →
       KvStore.get s d k = .ok none ∨ ∃ v, KvStore.get s d k = .ok (some v)) ∧
    (∀ (s : KvStore) (d : Disk) (r : Except KvError Unit) (s₂ : KvStore) (d₂ : Disk),
       KvStore.compact s d = (r, s₂, d₂) →
       ∀ (k : String) (loc : KvLocation), cacheLookup k s.cache = some loc →
         diskLookup d₂ (file_path loc.file_id) = diskLookup d (file_path loc.file_id)) :=
  ⟨indexInv_open,
   fun s d key value r s₂ d₂ hI h => indexInv_set s d key value r s₂ d₂ hI h,
   fun s d key r s₂ d₂ hI h => indexInv_remove s d key r s₂ d₂ hI h,
   fun s d k hI => get_ok_under_inv s d k hI,
   fun s d r s₂ d₂ h k loc hk => compact_keeps_referenced s d r s₂ d₂ h k loc hk⟩

/-- Witness for C2: the invariant holds after one `set` on a fresh
store, via the preservation part applied to the (vacuous) invariant of
the empty store. -/
theorem C2_index_consistency_invariant_witness :
    IndexInv ⟨0, [], [("a", ⟨0, 0⟩)]⟩ [(file_path 0, [encode (.Set "a" "1")])] :=
  C2_index_consistency_invariant.2.1 ⟨0, [], []⟩ [] "a" "1" (.ok ())
    ⟨0, [], [("a", ⟨0, 0⟩)]⟩ [(file_path 0, [encode (.Set "a" "1")])]
    (fun k loc h => absurd h (by simp [cacheLookup])) rfl

/-! ## Client operation traces -/

/-- A mutating operation of the public API. -/
inductive Op where
  | set (key value : String)
  | remove (key : String)

/-- Runs one operation against the live store and disk. -/
def stepOp (s : KvStore) (d : Disk) : Op → Except KvError Unit × KvStore × Disk
  | .set k v => KvStore.set s d k v
  | .remove k => KvStore.remove s d k

/-- A trace of operations in which every operation succeeds. -/
inductive RunOk : KvStore → Disk → List Op → KvStore → Disk → Prop where
  | nil (s : KvStore) (d : Disk) : RunOk s d [] s d
  | cons {s : KvStore} {d : Disk} {op : Op} {s₁ : KvStore} {d₁ : Disk}
      {ops : List Op} {s₂ : KvStore} {d₂ : Disk}
      (h : stepOp s d op = (.ok (), s₁, d₁))
      (rest : RunOk s₁ d₁ ops s₂ d₂) : RunOk s d (op :: ops) s₂ d₂

/-- A trace of operations in which every operation succeeds and deletes
no file: every file present before a step is still present after it.
This rules out exactly the runs in which a compaction deletes a
segment. -/
inductive RunPres : KvStore → Disk → List Op → KvStore → Disk → Prop where
  | nil (s : KvStore) (d : Disk) : RunPres s d [] s d
  | cons {s : KvStore} {d : Disk} {op : Op} {s₁ : KvStore} {d₁ : Disk}
      {ops : List Op} {s₂ : KvStore} {d₂ : Disk}
      (h : stepOp s d op = (.ok (), s₁, d₁))
      (hkeep : ∀ n, (diskLookup d n).isSome = true → (diskLookup d₁ n).isSome = true)
      (rest : RunPres s₁ d₁ ops s₂ d₂) : RunPres s d (op :: ops) s₂ d₂

/-! ## The path order is total, transitive and antisymmetric -/

theorem charListLt_asymm :
    ∀ x y, charListLt x y = true → charListLt y x = false := by
  intro x
  induction x with
  | nil =>
    intro y h
    match y with
    | [] => exact absurd h (by simp [charListLt])
    | b :: bs => simp [charListLt]
  | cons a as ih =>
    intro y h
    match y with
    | [] => exact absurd h (by simp [charListLt])
    | b :: bs =>
      simp only [charListLt] at h ⊢
      by_cases hab : a < b
      · rw [if_neg (lt_asymm hab), if_pos hab]
      · rw [if_neg hab] at h
        by_cases hba : b < a
        · rw [if_pos hba] at h
          exact absurd h (by simp)
        · rw [if_neg hba] at h
          rw [if_neg hba, if_neg hab]
          exact ih bs h

theorem charListLt_conn :
    ∀ x y, charListLt x y = false → charListLt y x = false → x = y := by
  intro x
  induction x with
  | nil =>
    intro y h1 h2
    match y with
    | [] => rfl
    | b :: bs => exact absurd h1 (by simp [charListLt])
  | cons a as ih =>
    intro y h1 h2
    match y with
    | [] => exact absurd h2 (by simp [charListLt])
    | b :: bs =>
      simp only [charListLt] at h1 h2
      by_cases hab : a < b
      · rw [if_pos hab] at h1
        exact absurd h1 (by simp)
      · by_cases hba : b < a
        · rw [if_pos hba] at h2
          exact absurd h2 (by simp)
        · rw [if_neg hab, if_neg hba] at h1
          rw [if_neg hba, if_neg hab] at h2
          rw [le_antisymm (le_of_not_lt hba) (le_of_not_lt hab), ih bs h1 h2]

theorem charListLt_trans :
    ∀ x y z, charListLt x y = true → charListLt y z = true →
      charListLt x z = true := by
  intro x
  induction x with
  | nil =>
    intro y z h1 h2
    match y with
    | [] => exact absurd h1 (by simp [charListLt])
    | b :: bs =>
      match z with
      | [] => exact absurd h2 (by simp [charListLt])
      | c :: cs => simp [charListLt]
  | cons a as ih =>
    intro y z h1 h2
    match y with
    | [] => exact absurd h1 (by simp [charListLt])
    | b :: bs =>
      match z with
      | [] => exact absurd h2 (by simp [charListLt])
      | c :: cs =>
        simp only [charListLt] at h1 h2 ⊢
        by_cases hab : a < b
        · by_cases hbc : b < c
          · rw [if_pos (lt_trans hab hbc)]
          · rw [if_neg hbc] at h2
            by_cases hcb : c < b
            · rw [if_pos hcb] at h2
              exact absurd h2 (by simp)
            · have hbc₂ : b = c := le_antisymm (le_of_not_lt hcb) (le_of_not_lt hbc)
              rw [if_pos (hbc₂ ▸ hab)]
        · rw [if_neg hab] at h1
          by_cases hba : b < a
          · rw [if_pos hba] at h1
            exact absurd h1 (by simp)
          · rw [if_neg hba] at h1
            have hab₂ : a = b := le_antisymm (le_of_not_lt hba) (le_of_not_lt hab)
            by_cases hbc : b < c
            · rw [if_pos (hab₂.symm ▸ hbc)]
            · rw [if_neg hbc] at h2
              by_cases hcb : c < b
              · rw [if_pos hcb] at h2
                exact absurd h2 (by simp)
              · rw [if_neg hcb] at h2
                have hac : a = c :=
                  (le_antisymm (le_of_not_lt hba) (le_of_not_lt hab)).trans
                    (le_antisymm (le_of_not_lt hcb) (le_of_not_lt hbc))
                rw [if_neg (show ¬ a < c by rw [hac]; exact lt_irrefl c),
                  if_neg (show ¬ c < a by rw [hac]; exact lt_irrefl c)]
                exact ih bs cs h1 h2

instance strLe_isTotal : IsTotal String strLe := by
  refine ⟨fun a b => ?_⟩
  unfold strLe
  rcases Bool.eq_false_or_eq_true (charListLt b.data a.data) with h | h
  · exact Or.inr (charListLt_asymm _ _ h)
  · exact Or.inl h

instance strLe_isTrans : IsTrans String strLe := by
  refine ⟨fun a b c hab hbc => ?_⟩
  unfold strLe at hab hbc ⊢
  rcases Bool.eq_false_or_eq_true (charListLt c.data a.data) with h | h
  · exfalso
    rcases Bool.eq_false_or_eq_true (charListLt a.data b.data) with hab₂ | hab₂
    · have hcb := charListLt_trans _ _ _ h hab₂
      rw [hbc] at hcb
      exact absurd hcb (by simp)
    · have he : a.data = b.data := charListLt_conn _ _ hab₂ hab
      rw [he] at h
      rw [hbc] at h
      exact absurd h (by simp)
  · exact h

instance strLe_isAntisymm : IsAntisymm String strLe := by
  refine ⟨fun a b h1 h2 => ?_⟩
  unfold strLe at h1 h2
  have he : a.data = b.data := charListLt_conn _ _ h2 h1
  cases a
  cases b
  cases he
  rfl

/-- Sorting by the path order depends only on the multiset of names. -/
theorem insertionSort_strLe_eq_of_perm (l₁ l₂ : List String) (h : l₁.Perm l₂) :
    List.insertionSort strLe l₁ = List.insertionSort strLe l₂ :=
  List.eq_of_perm_of_sorted
    ((List.perm_insertionSort _ l₁).trans (h.trans (List.perm_insertionSort _ l₂).symm))
    (List.sorted_insertionSort _ l₁) (List.sorted_insertionSort _ l₂)

/-- On a directory whose names are, in any order, the canonical segment
names of a list of ids below 10^9, the listing returns the ids sorted
ascending. -/
theorem load_file_ids_perm (ids : List Nat) (names : List String)
    (hb : ∀ i ∈ ids, i < 1000000000)
    (hp : names.Perm (ids.map file_path)) :
    load_file_ids names = .ok (List.insertionSort (· ≤ ·) ids) := by
  unfold load_file_ids
  rw [insertionSort_strLe_eq_of_perm names (ids.map file_path) hp,
    insertionSort_map_file_path ids hb,
    loadIdsGo_canonical _ _ (fun j hj =>
      lt_trans (hb j (((List.perm_insertionSort _ ids).mem_iff).mp hj)) (by norm_num))]
  simp

/-! ## Sorted id lists with a maximal element -/

theorem insertionSort_natLe_append_max (W : List Nat) (cur : Nat)
    (hmax : ∀ i ∈ W, i ≤ cur) :
    List.insertionSort (· ≤ ·) (W ++ [cur]) =
      List.insertionSort (· ≤ ·) W ++ [cur] := by
  refine List.eq_of_perm_of_sorted
    ((List.perm_insertionSort _ _).trans
      (List.Perm.append (List.perm_insertionSort (· ≤ ·) W).symm (List.Perm.refl [cur])))
    (List.sorted_insertionSort _ _) ?_
  show List.Pairwise _ _
  refine List.pairwise_append.mpr
    ⟨List.sorted_insertionSort _ W, List.pairwise_singleton _ _, ?_⟩
  intro a ha b hb
  rw [List.mem_singleton] at hb
  subst hb
  exact hmax a ((List.perm_insertionSort _ W).mem_iff.mp ha)

theorem sorted_split_last (l : List Nat) (cur : Nat)
    (hs : List.Pairwise (· ≤ ·) l) (hnd : l.Nodup)
    (hmem : cur ∈ l) (hmax : ∀ i ∈ l, i ≤ cur) :
    ∃ init, l = init ++ [cur] ∧ cur ∉ init := by
  have hne : l ≠ [] := by
    intro hc
    rw [hc] at hmem
    exact absurd hmem (List.not_mem_nil cur)
  have hlast : l.getLast hne = cur := by
    have h1 : (l.getLast?).getD 0 ∈ l := getLastD_mem l hne
    have h3 : (l.getLast?).getD 0 = cur :=
      le_antisymm (hmax _ h1) (sorted_getLastD_max l hs cur hmem)
    rw [List.getLast?_eq_getLast l hne] at h3
    exact h3
  have hl2 : l = l.dropLast ++ [cur] := by
    conv_lhs => rw [← List.dropLast_append_getLast hne]
    rw [hlast]
  refine ⟨l.dropLast, hl2, ?_⟩
  intro hc
  rw [hl2] at hnd
  rcases List.nodup_append.mp hnd with ⟨_, _, hdisj⟩
  exact hdisj hc (List.mem_singleton.mpr rfl)

/-! ## Directory names under writes -/

theorem diskNames_cons (p : String × List String) (rest : Disk) :
    diskNames (p :: rest) = p.1 :: diskNames rest := rfl

theorem diskLookup_isSome_iff (d : Disk) (n : String) :
    (diskLookup d n).isSome = true ↔ n ∈ diskNames d := by
  induction d with
  | nil => simp [diskLookup, diskNames]
  | cons p rest ih =>
    rw [diskNames_cons]
    unfold diskLookup
    by_cases hp : p.1 = n
    · rw [if_pos hp, hp]
      simp
    · rw [if_neg hp, ih]
      constructor
      · exact fun h => List.mem_cons_of_mem _ h
      · intro h
        rcases List.mem_cons.mp h with he | hm
        · exact absurd he.symm hp
        · exact hm

theorem diskNames_diskInsert_mem (d : Disk) (name : String) (L : List String)
    (h : name ∈ diskNames d) :
    diskNames (diskInsert d name L) = diskNames d := by
  induction d with
  | nil => exact absurd h (List.not_mem_nil name)
  | cons p rest ih =>
    unfold diskInsert
    by_cases hp : p.1 = name
    · rw [if_pos hp, diskNames_cons, diskNames_cons, hp]
    · rw [if_neg hp, diskNames_cons, diskNames_cons]
      rw [diskNames_cons] at h
      rcases List.mem_cons.mp h with he | hm
      · exact absurd he.symm hp
      · rw [ih hm]

theorem diskNames_diskInsert_not_mem (d : Disk) (name : String) (L : List String)
    (h : name ∉ diskNames d) :
    diskNames (diskInsert d name L) = diskNames d ++ [name] := by
  induction d with
  | nil => rfl
  | cons p rest ih =>
    rw [diskNames_cons] at h
    have hp : ¬ p.1 = name := fun hc => h (by rw [hc]; exact List.mem_cons_self _ _)
    unfold diskInsert
    rw [if_neg hp, diskNames_cons, diskNames_cons,
      ih (fun hm => h (List.mem_cons_of_mem _ hm)), List.cons_append]

theorem diskLookup_diskErase_self (d : Disk) (n : String) :
    diskLookup (diskErase d n) n = none := by
  induction d with
  | nil => rfl
  | cons p rest ih =>
    unfold diskErase
    by_cases hp : p.1 = n
    · rw [if_pos hp]
      exact ih
    · rw [if_neg hp]
      unfold diskLookup
      rw [if_neg hp]
      exact ih

/-! ## Replay over a disk that differs only in other files -/

theorem except_bind_ok {α β : Type} (a : α) (f : α → Except KvError β) :
    (Except.ok a >>= f) = f a := rfl

theorem except_bind_error {α β : Type} (e : KvError) (f : α → Except KvError β) :
    ((Except.error e : Except KvError α) >>= f) = Except.error e := rfl

theorem foldlM_update_cache_congr (d₂ d : Disk) :
    ∀ (ids : List Nat) (c : Cache),
      (∀ i ∈ ids, diskLookup d₂ (file_path i) = diskLookup d (file_path i)) →
      ids.foldlM (fun c i => update_cache c i d₂) c =
        ids.foldlM (fun c i => update_cache c i d) c := by
  intro ids
  induction ids with
  | nil =>
    intro c _
    rfl
  | cons i rest ih =>
    intro c hsame
    rw [List.foldlM_cons, List.foldlM_cons]
    have hu : update_cache c i d₂ = update_cache c i d := by
      unfold update_cache
      rw [hsame i (List.mem_cons_self _ _)]
    rw [hu]
    rcases hr : update_cache c i d with e | c₂
    · rw [except_bind_error, except_bind_error]
    · rw [except_bind_ok, except_bind_ok]
      exact ih c₂ (fun j hj => hsame j (List.mem_cons_of_mem _ hj))

theorem replayReads_append (log_id : Nat) :
    ∀ (l₁ l₂ : List String) (c : Cache) (off : Nat),
      replayReads log_id c off ((l₁ ++ l₂).map .ok) =
        (replayReads log_id c off (l₁.map .ok) >>=
          fun c₂ => replayReads log_id c₂ (off + fileSize l₁) (l₂.map .ok)) := by
  intro l₁
  induction l₁ with
  | nil =>
    intro l₂ c off
    rfl
  | cons l ls ih =>
    intro l₂ c off
    rw [List.cons_append, List.map_cons, List.map_cons]
    rw [replayReads, replayReads]
    rcases hd : decode (rustTrim l) with e | cmd
    · rfl
    · dsimp only
      rw [ih l₂ (applyCmd log_id off c cmd) (off + utf8Len l.data + 1)]
      have harith : off + utf8Len l.data + 1 + fileSize ls = off + fileSize (l :: ls) := by
        rw [fileSize_cons]
        omega
      simp only [harith]

/-- Replaying a file to which one record was appended: replay the old
content, then apply the record at the old end-of-file offset. -/
theorem update_cache_snoc (c c₂ : Cache) (i : Nat) (d d₂ : Disk)
    (lines : List String) (cmd : KvCommand)
    (hd₂ : diskLookup d₂ (file_path i) = some (lines ++ [encode cmd]))
    (hd : diskLookup d (file_path i) = some lines)
    (hu : update_cache c i d = .ok c₂) :
    update_cache c i d₂ = .ok (applyCmd i (fileSize lines) c₂ cmd) := by
  unfold update_cache at hu ⊢
  rw [hd] at hu
  dsimp only at hu
  rw [hd₂]
  dsimp only
  rw [replayReads_append i lines [encode cmd] c 0, hu, except_bind_ok]
  show replayReads i c₂ (0 + fileSize lines) [.ok (encode cmd)] = _
  rw [replayReads, decode_rustTrim_encode]
  dsimp only
  rw [replayReads, Nat.zero_add]

/-- Replaying a freshly created file holding one record. -/
theorem update_cache_new (c : Cache) (i : Nat) (d₂ : Disk) (cmd : KvCommand)
    (hd₂ : diskLookup d₂ (file_path i) = some [encode cmd]) :
    update_cache c i d₂ = .ok (applyCmd i 0 c cmd) := by
  unfold update_cache
  rw [hd₂]
  dsimp only
  show replayReads i c 0 [.ok (encode cmd)] = _
  rw [replayReads, decode_rustTrim_encode]
  dsimp only
  rw [replayReads]

/-! ## The compaction loop deletes its whole work list -/

theorem compactGo_deletes :
    ∀ (ids : List Nat) (s : KvStore) (d : Disk), ids.Nodup →
      (∀ i ∈ ids, (diskLookup d (file_path i)).isSome = true) →
      ∀ i ∈ ids, diskLookup (compactGo ids s d).2.2 (file_path i) = none := by
  intro ids
  induction ids with
  | nil =>
    intro s d _ _ i hi
    exact absurd hi (List.not_mem_nil i)
  | cons j rest ih =>
    intro s d hnd hex i hi
    rw [compactGo]
    have hrf : removeFile d (file_path j) = some (diskErase d (file_path j)) := by
      unfold removeFile
      rcases hlk : diskLookup d (file_path j) with _ | lines
      · have hj := hex j (List.mem_cons_self _ _)
        rw [hlk] at hj
        exact absurd hj (by simp)
      · rfl
    rw [hrf]
    dsimp only
    rcases List.mem_cons.mp hi with hij | hir
    · subst hij
      have hne : ∀ i₂ ∈ rest, file_path i₂ ≠ file_path i := fun i₂ hi₂ hc =>
        (List.nodup_cons.mp hnd).1 (file_path_inj _ _ hc ▸ hi₂)
      rw [compactGo_lookup_ne rest _ _ (file_path i) hne]
      exact diskLookup_diskErase_self d (file_path i)
    · refine ih { s with file_ids := idsErase j s.file_ids } (diskErase d (file_path j))
        (List.nodup_cons.mp hnd).2 ?_ i hir
      intro i₂ hi₂
      rw [diskLookup_diskErase_ne d (file_path j) (file_path i₂)
        (fun hc => (List.nodup_cons.mp hnd).1 ((file_path_inj _ _ hc).symm ▸ hi₂))]
      exact hex i₂ (List.mem_cons_of_mem _ hi₂)

/-! ## Membership in the known-id set -/

theorem mem_idsInsert_iff (i j : Nat) (l : List Nat) :
    i ∈ idsInsert j l ↔ i ∈ l ∨ i = j := by
  unfold idsInsert
  by_cases hj : j ∈ l
  · rw [if_pos hj]
    constructor
    · exact fun h => Or.inl h
    · intro h
      rcases h with h | h
      · exact h
      · rw [h]
        exact hj
  · rw [if_neg hj]
    rw [List.mem_append, List.mem_singleton]

theorem mem_idsInsert_of_mem (i j : Nat) (l : List Nat) (h : i ∈ l) :
    i ∈ idsInsert j l := (mem_idsInsert_iff i j l).mpr (Or.inl h)

theorem idsInsert_nodup (j : Nat) (l : List Nat) (h : l.Nodup) :
    (idsInsert j l).Nodup := by
  unfold idsInsert
  by_cases hj : j ∈ l
  · rw [if_pos hj]
    exact h
  · rw [if_neg hj]
    rw [List.nodup_append]
    exact ⟨h, List.nodup_singleton j, fun a ha hb => hj (List.mem_singleton.mp hb ▸ ha)⟩

/-! ## The recovery invariant -/

/-- Invariant tying the live store to its disk, indexed by the
duplicate-free list `W` of ids whose segment files exist: the disk holds
exactly the canonical files of `W`, every such id is at most the current
id, the known ids all have files, and replaying the files in ascending
id order rebuilds exactly the live cache. -/
def RInv (W : List Nat) (s : KvStore) (d : Disk) : Prop :=
  (diskNames d).Perm (W.map file_path) ∧
  W.Nodup ∧
  s.file_ids.Nodup ∧
  (∀ i ∈ W, i ≤ s.current_file_id) ∧
  (∀ i ∈ s.file_ids, i ∈ W) ∧
  (List.insertionSort (· ≤ ·) W).foldlM (fun c i => update_cache c i d) ([] : Cache) =
    .ok s.cache

theorem rinv_file_mem (W : List Nat) (d : Disk)
    (hperm : (diskNames d).Perm (W.map file_path)) (i : Nat) :
    (diskLookup d (file_path i)).isSome = true ↔ i ∈ W := by
  rw [diskLookup_isSome_iff, hperm.mem_iff]
  constructor
  · intro h
    rcases List.mem_map.mp h with ⟨j, hj, he⟩
    exact file_path_inj j i he ▸ hj
  · intro h
    exact List.mem_map.mpr ⟨i, h, rfl⟩

/-! ## Replay rebuilds the cache after one append -/

theorem rinv_fold_snoc_mem (W : List Nat) (d : Disk) (cur : Nat) (cache : Cache)
    (lines : List String) (cmd : KvCommand)
    (hperm : (diskNames d).Perm (W.map file_path))
    (hnd : W.Nodup)
    (hmax : ∀ i ∈ W, i ≤ cur)
    (hmem : cur ∈ W)
    (hlines : diskLookup d (file_path cur) = some lines)
    (hfold : (List.insertionSort (· ≤ ·) W).foldlM
        (fun c i => update_cache c i d) ([] : Cache) = .ok cache) :
    (List.insertionSort (· ≤ ·) W).foldlM
        (fun c i => update_cache c i
          (diskInsert d (file_path cur) (lines ++ [encode cmd]))) ([] : Cache) =
      .ok (applyCmd cur (fileSize lines) cache cmd) := by
  obtain ⟨init, hsplit, hcurnot⟩ := sorted_split_last (List.insertionSort (· ≤ ·) W) cur
    (List.sorted_insertionSort _ W)
    ((List.perm_insertionSort _ W).nodup_iff.mpr hnd)
    ((List.perm_insertionSort _ W).mem_iff.mpr hmem)
    (fun i hi => hmax i ((List.perm_insertionSort _ W).mem_iff.mp hi))
  rw [hsplit] at hfold ⊢
  rw [List.foldlM_append] at hfold ⊢
  have hinit : init.foldlM (fun c i => update_cache c i
      (diskInsert d (file_path cur) (lines ++ [encode cmd]))) ([] : Cache) =
      init.foldlM (fun c i => update_cache c i d) ([] : Cache) :=
    foldlM_update_cache_congr _ d init [] (fun i hi =>
      diskLookup_diskInsert_ne d (file_path cur) (file_path i) _
        (fun hc => hcurnot ((file_path_inj _ _ hc).symm ▸ hi)))
  rw [hinit]
  rcases hfi : init.foldlM (fun c i => update_cache c i d) ([] : Cache) with e | c₁
  · rw [hfi, except_bind_error] at hfold
    exact absurd hfold (by simp)
  · rw [hfi, except_bind_ok] at hfold
    rw [except_bind_ok]
    rw [List.foldlM_cons] at hfold ⊢
    rcases hu : update_cache c₁ cur d with e | c₂
    · rw [hu, except_bind_error] at hfold
      exact absurd hfold (by simp)
    · rw [hu, except_bind_ok, List.foldlM_nil] at hfold
      have hc₂ : c₂ = cache := by
        rw [show (pure c₂ : Except KvError Cache) = .ok c₂ from rfl] at hfold
        injection hfold
      subst hc₂
      rw [update_cache_snoc c₁ c₂ cur d _ lines cmd
        (diskLookup_diskInsert_self d (file_path cur) (lines ++ [encode cmd]))
        hlines hu]
      rw [except_bind_ok, List.foldlM_nil]
      rfl

theorem rinv_fold_snoc_new (W : List Nat) (d : Disk) (cur : Nat) (cache : Cache)
    (cmd : KvCommand)
    (hmax : ∀ i ∈ W, i ≤ cur) (hnot : cur ∉ W)
    (hfold : (List.insertionSort (· ≤ ·) W).foldlM
        (fun c i => update_cache c i d) ([] : Cache) = .ok cache) :
    (List.insertionSort (· ≤ ·) (W ++ [cur])).foldlM
        (fun c i => update_cache c i (diskInsert d (file_path cur) [encode cmd]))
        ([] : Cache) =
      .ok (applyCmd cur 0 cache cmd) := by
  rw [insertionSort_natLe_append_max W cur hmax, List.foldlM_append]
  have hinit : (List.insertionSort (· ≤ ·) W).foldlM
      (fun c i => update_cache c i (diskInsert d (file_path cur) [encode cmd]))
      ([] : Cache) = .ok cache := by
    rw [foldlM_update_cache_congr _ d _ [] (fun i hi =>
      diskLookup_diskInsert_ne d (file_path cur) (file_path i) _
        (fun hc => hnot ((file_path_inj _ _ hc).symm ▸
          ((List.perm_insertionSort _ W).mem_iff.mp hi))))]
    exact hfold
  rw [hinit, except_bind_ok, List.foldlM_cons,
    update_cache_new cache cur _ cmd
      (diskLookup_diskInsert_self d (file_path cur) [encode cmd]),
    except_bind_ok, List.foldlM_nil]
  rfl

/-- Core of the `set` step: appending the `Set` record to the active
segment preserves the disk-shape and replay components of the
invariant, whether the segment file already existed or is created by
this write. -/
theorem rinv_append_core (W : List Nat) (d : Disk) (cur : Nat) (cache : Cache)
    (k v : String)
    (hperm : (diskNames d).Perm (W.map file_path))
    (hndW : W.Nodup)
    (hmax : ∀ i ∈ W, i ≤ cur)
    (hfold : (List.insertionSort (· ≤ ·) W).foldlM
        (fun c i => update_cache c i d) ([] : Cache) = .ok cache) :
    (diskNames (diskInsert d (file_path cur)
        ((diskLookup d (file_path cur)).getD [] ++ [encode (.Set k v)]))).Perm
      ((idsInsert cur W).map file_path) ∧
    (idsInsert cur W).Nodup ∧
    (∀ i ∈ idsInsert cur W, i ≤ cur) ∧
    (List.insertionSort (· ≤ ·) (idsInsert cur W)).foldlM
        (fun c i => update_cache c i (diskInsert d (file_path cur)
          ((diskLookup d (file_path cur)).getD [] ++ [encode (.Set k v)])))
        ([] : Cache) =
      .ok (cacheInsert k ⟨cur, fileSize ((diskLookup d (file_path cur)).getD [])⟩
        cache) := by
  by_cases hmem : cur ∈ W
  · have hex : (diskLookup d (file_path cur)).isSome = true :=
      (rinv_file_mem W d hperm cur).mpr hmem
    rcases hdl : diskLookup d (file_path cur) with _ | lines
    · rw [hdl] at hex
      exact absurd hex (by simp)
    · simp only [Option.getD_some]
      have hW : idsInsert cur W = W := by
        unfold idsInsert
        rw [if_pos hmem]
      rw [hW]
      refine ⟨?_, hndW, hmax, ?_⟩
      · rw [diskNames_diskInsert_mem d _ _
          ((diskLookup_isSome_iff d _).mp (by rw [hdl]; rfl))]
        exact hperm
      · exact rinv_fold_snoc_mem W d cur cache lines (.Set k v)
          hperm hndW hmax hmem hdl hfold
  · have hnone : diskLookup d (file_path cur) = none := by
      rcases hdl : diskLookup d (file_path cur) with _ | lines
      · rfl
      · exact absurd ((rinv_file_mem W d hperm cur).mp (by rw [hdl]; rfl)) hmem
    rw [hnone]
    simp only [Option.getD_none, List.nil_append]
    have hW : idsInsert cur W = W ++ [cur] := by
      unfold idsInsert
      rw [if_neg hmem]
    rw [hW]
    refine ⟨?_, ?_, ?_, ?_⟩
    · rw [diskNames_diskInsert_not_mem d _ _
        (fun hc => hmem ((rinv_file_mem W d hperm cur).mp
          ((diskLookup_isSome_iff d _).mpr hc))),
        List.map_append]
      exact hperm.append (List.Perm.refl _)
    · rw [List.nodup_append]
      exact ⟨hndW, List.nodup_singleton _,
        fun a ha hb => hmem (List.mem_singleton.mp hb ▸ ha)⟩
    · intro i hi
      rcases List.mem_append.mp hi with h1 | h2
      · exact hmax i h1
      · rw [List.mem_singleton.mp h2]
    · exact rinv_fold_snoc_new W d cur cache (.Set k v) hmax hmem hfold

/-! ## Compaction under the invariant -/

/-- Whatever compaction returns, the file of every dead id (known but
unreferenced by the cache) is gone from the resulting disk, provided
the known ids are duplicate-free and their files exist. -/
theorem compact_deletes_dead (s : KvStore) (d : Disk) (r : Except KvError Unit)
    (s₃ : KvStore) (d₃ : Disk)
    (hnd : s.file_ids.Nodup)
    (hex : ∀ i ∈ s.file_ids, (diskLookup d (file_path i)).isSome = true)
    (h : KvStore.compact s d = (r, s₃, d₃)) :
    ∀ i ∈ s.file_ids, i ∉ s.cache.map (fun p => p.2.file_id) →
      diskLookup d₃ (file_path i) = none := by
  unfold KvStore.compact at h
  dsimp only at h
  intro i hi hdead
  have hdel := compactGo_deletes
    (s.file_ids.filter (fun i => decide (i ∉ s.cache.map (fun p => p.2.file_id))))
    s d (List.Nodup.filter _ hnd)
    (fun j hj => hex j (List.mem_filter.mp hj).1)
    i (List.mem_filter.mpr ⟨hi, decide_eq_true hdead⟩)
  rw [h] at hdel
  exact hdel

/-- When every known id is referenced by the cache, compaction has
nothing to delete and leaves state and disk untouched. -/
theorem compact_all_active (s : KvStore) (d : Disk) (r : Except KvError Unit)
    (s₃ : KvStore) (d₃ : Disk)
    (h : KvStore.compact s d = (r, s₃, d₃))
    (hact : ∀ i ∈ s.file_ids, i ∈ s.cache.map (fun p => p.2.file_id)) :
    r = .ok () ∧ s₃ = s ∧ d₃ = d := by
  unfold KvStore.compact at h
  dsimp only at h
  have hfe : s.file_ids.filter
      (fun i => decide (i ∉ s.cache.map (fun p => p.2.file_id))) = [] :=
    List.filter_eq_nil_iff.mpr
      (fun i hi hdec => (of_decide_eq_true hdec) (hact i hi))
  rw [hfe, compactGo] at h
  injection h with h1 h2
  injection h2 with h2 h3
  exact ⟨h1.symm, h2.symm, h3.symm⟩

/-! ## The invariant is preserved by every preserving step -/

theorem rinv_step (W : List Nat) (s : KvStore) (d : Disk) (op : Op)
    (s₂ : KvStore) (d₂ : Disk)
    (hR : RInv W s d)
    (h : stepOp s d op = (.ok (), s₂, d₂))
    (hkeep : ∀ n, (diskLookup d n).isSome = true → (diskLookup d₂ n).isSome = true) :
    ∃ W₂, RInv W₂ s₂ d₂ := by
  obtain ⟨hperm, hndW, hndF, hmax, hsub, hfold⟩ := hR
  cases op with
  | remove k =>
    rw [show stepOp s d (.remove k) = KvStore.remove s d k from rfl] at h
    obtain ⟨hs₂, lines, hdl, hd₂⟩ := remove_ok_inversion s d k () s₂ d₂ h
    subst hs₂
    subst hd₂
    have hcur : s.current_file_id ∈ W :=
      (rinv_file_mem W d hperm s.current_file_id).mp (by rw [hdl]; rfl)
    refine ⟨W, ?_, hndW, hndF, hmax, hsub, ?_⟩
    · rw [diskNames_diskInsert_mem d _ _
        ((diskLookup_isSome_iff d _).mp (by rw [hdl]; rfl))]
      exact hperm
    · exact rinv_fold_snoc_mem W d s.current_file_id s.cache lines (.Rm k)
        hperm hndW hmax hcur hdl hfold
  | set k v =>
    rw [show stepOp s d (.set k v) = KvStore.set s d k v from rfl] at h
    by_cases hth : fileSize ((diskLookup d (file_path s.current_file_id)).getD [] ++
        [encode (.Set k v)]) > LOG_FILE_SIZE
    · by_cases h10 : s.current_file_id % LOG_COMPACTION_COUNT = 0
      · rw [set_run_rotate_compact s d k v hth h10] at h
        split at h
        · rename_i u s₃ d₃ heq
          injection h with h1 h2
          injection h2 with h2 h3
          have hcuract : s.current_file_id ∈
              (cacheInsert k ⟨s.current_file_id,
                fileSize ((diskLookup d (file_path s.current_file_id)).getD [])⟩
                s.cache).map (fun p => p.2.file_id) :=
            List.mem_map_of_mem (fun p => p.2.file_id)
              (cacheInsert_mem_self k
                ⟨s.current_file_id,
                  fileSize ((diskLookup d (file_path s.current_file_id)).getD [])⟩
                s.cache)
          have hact : ∀ i ∈ idsInsert s.current_file_id s.file_ids,
              i ∈ (cacheInsert k ⟨s.current_file_id,
                fileSize ((diskLookup d (file_path s.current_file_id)).getD [])⟩
                s.cache).map (fun p => p.2.file_id) := by
            intro i hi
            by_contra hdead
            have hic : ¬ i = s.current_file_id := by
              intro hic
              rw [hic] at hdead
              exact hdead hcuract
            have hiw : i ∈ s.file_ids := by
              rcases (mem_idsInsert_iff i s.current_file_id s.file_ids).mp hi with
                h1w | h1w
              · exact h1w
              · exact absurd h1w hic
            have hpre : (diskLookup d (file_path i)).isSome = true :=
              (rinv_file_mem W d hperm i).mpr (hsub i hiw)
            have hnone := compact_deletes_dead _ _ _ _ _
              (idsInsert_nodup _ _ hndF)
              (fun j hj => by
                by_cases hjc : j = s.current_file_id
                · rw [hjc, diskLookup_diskInsert_self]
                  rfl
                · rw [diskLookup_diskInsert_ne d _ _ _
                    (fun hc => hjc (file_path_inj _ _ hc).symm)]
                  rcases (mem_idsInsert_iff j s.current_file_id s.file_ids).mp hj with
                    h1w | h1w
                  · exact (rinv_file_mem W d hperm j).mpr (hsub j h1w)
                  · exact absurd h1w hjc)
              heq i hi hdead
            have hsome := hkeep (file_path i) hpre
            rw [← h3, hnone] at hsome
            exact absurd hsome (by simp)
          obtain ⟨hr, hs₃, hd₃⟩ := compact_all_active _ _ _ _ _ heq hact
          subst hs₃
          subst hd₃
          dsimp only at h2
          obtain ⟨hp2, hnd2, hmax2, hfold2⟩ :=
            rinv_append_core W d s.current_file_id s.cache k v hperm hndW hmax hfold
          refine ⟨idsInsert s.current_file_id W, ?_⟩
          rw [← h2, ← h3]
          refine ⟨hp2, hnd2, idsInsert_nodup _ _ hndF, ?_, ?_, hfold2⟩
          · intro i hi
            exact le_trans (hmax2 i hi) (Nat.le_succ _)
          · intro i hi
            rcases (mem_idsInsert_iff i s.current_file_id s.file_ids).mp hi with
              h1w | h1w
            · exact mem_idsInsert_of_mem _ _ _ (hsub i h1w)
            · rw [h1w]
              exact mem_idsInsert_self _ _
        · rename_i e s₃ d₃ heq
          exact absurd h (by simp)
      · rw [set_run_rotate s d k v hth h10] at h
        injection h with h1 h2
        injection h2 with h2 h3
        obtain ⟨hp2, hnd2, hmax2, hfold2⟩ :=
          rinv_append_core W d s.current_file_id s.cache k v hperm hndW hmax hfold
        refine ⟨idsInsert s.current_file_id W, ?_⟩
        rw [← h2, ← h3]
        refine ⟨hp2, hnd2, idsInsert_nodup _ _ hndF, ?_, ?_, hfold2⟩
        · intro i hi
          exact le_trans (hmax2 i hi) (Nat.le_succ _)
        · intro i hi
          rcases (mem_idsInsert_iff i s.current_file_id s.file_ids).mp hi with
            h1w | h1w
          · exact mem_idsInsert_of_mem _ _ _ (hsub i h1w)
          · rw [h1w]
            exact mem_idsInsert_self _ _
    · rw [set_run_small s d k v (Nat.not_lt.mp hth)] at h
      injection h with h1 h2
      injection h2 with h2 h3
      obtain ⟨hp2, hnd2, hmax2, hfold2⟩ :=
        rinv_append_core W d s.current_file_id s.cache k v hperm hndW hmax hfold
      refine ⟨idsInsert s.current_file_id W, ?_⟩
      rw [← h2, ← h3]
      exact ⟨hp2, hnd2, hndF,
        hmax2,
        fun i hi => mem_idsInsert_of_mem _ _ _ (hsub i hi),
        hfold2⟩

theorem rinv_init : RInv [] ⟨0, [], []⟩ [] := by
  refine ⟨List.Perm.refl _, List.nodup_nil, List.nodup_nil, ?_, ?_, rfl⟩
  · intro i hi
    exact absurd hi (List.not_mem_nil i)
  · intro i hi
    exact absurd hi (List.not_mem_nil i)

theorem rinv_run :
    ∀ (ops : List Op) (s : KvStore) (d : Disk) (s₂ : KvStore) (d₂ : Disk),
      RunPres s d ops s₂ d₂ →
      ∀ W, RInv W s d → ∃ W₂, RInv W₂ s₂ d₂ := by
  intro ops
  induction ops with
  | nil =>
    intro s d s₂ d₂ hr W hR
    cases hr
    exact ⟨W, hR⟩
  | cons op rest ih =>
    intro s d s₂ d₂ hr W hR
    cases hr with
    | cons h hkeep hrest =>
      obtain ⟨W₁, hR₁⟩ := rinv_step W _ _ op _ _ hR h hkeep
      exact ih _ _ _ _ hrest W₁ hR₁

/-- C1 (amended).  Recovery equivalence for deletion-free runs: for
every trace of successful set/remove operations started on a fresh
store over an empty directory, during which no step deletes a segment
file (in particular no compaction removes anything), and whose final
current id is below 10^9, reopening the resulting directory succeeds,
rebuilds exactly the live in-memory index by replaying the segments in
ascending id order, and `get` afterwards returns the same result as the
live store for every key.  Without the no-deletion condition the claim
is false: compaction can delete the only segment holding the `Rm`
record of a key whose older `Set` record survives in a live segment,
and replay then resurrects the key. -/
theorem C1_recovery_equivalence_amended (ops : List Op) (s : KvStore) (d : Disk)
    (hrun : RunPres ⟨0, [], []⟩ [] ops s d)
    (hbound : s.current_file_id < 1000000000) :
    (∃ s₂, KvStore.open d = .ok s₂) ∧
    (∀ s₂, KvStore.open d = .ok s₂ → s₂.cache = s.cache ∧
      ∀ k, KvStore.get s₂ d k = KvStore.get s d k) := by
  obtain ⟨W, hperm, hndW, hndF, hmax, hsub, hfold⟩ :=
    rinv_run ops ⟨0, [], []⟩ [] s d hrun [] rinv_init
  have hbW : ∀ i ∈ W, i < 1000000000 := fun i hi =>
    lt_of_le_of_lt (hmax i hi) hbound
  have hload : load_file_ids (diskNames d) = .ok (List.insertionSort (· ≤ ·) W) :=
    load_file_ids_perm W (diskNames d) hbW hperm
  have hopen : KvStore.open d =
      .ok ⟨((List.insertionSort (· ≤ ·) W).getLast?).getD 0,
        List.insertionSort (· ≤ ·) W, s.cache⟩ := by
    unfold KvStore.open
    rw [hload]
    dsimp only
    rw [hfold]
  refine ⟨⟨_, hopen⟩, ?_⟩
  intro s₂ hs₂
  rw [hopen] at hs₂
  injection hs₂ with hs₂
  subst hs₂
  exact ⟨rfl, fun k => rfl⟩

/-- Witness for C1 (amended): the three-operation run set "a" "1";
set "b" "2"; remove "a" on a fresh store deletes no file, and the
reopened store (whose cache replay computes to the live cache) answers
`get "b"` identically to the live store. -/
theorem C1_recovery_equivalence_amended_witness :
    (⟨0, [0], [("b", ⟨0, 18⟩)]⟩ : KvStore).cache =
      (⟨0, [], [("b", ⟨0, 18⟩)]⟩ : KvStore).cache ∧
    KvStore.get ⟨0, [0], [("b", ⟨0, 18⟩)]⟩
        [(file_path 0, [encode (.Set "a" "1"), encode (.Set "b" "2"),
          encode (.Rm "a")])] "b" =
      KvStore.get ⟨0, [], [("b", ⟨0, 18⟩)]⟩
        [(file_path 0, [encode (.Set "a" "1"), encode (.Set "b" "2"),
          encode (.Rm "a")])] "b" := by
  have h1 : stepOp ⟨0, [], []⟩ [] (.set "a" "1") =
      (.ok (), ⟨0, [], [("a", ⟨0, 0⟩)]⟩,
        [(file_path 0, [encode (.Set "a" "1")])]) := rfl
  have h2 : stepOp ⟨0, [], [("a", ⟨0, 0⟩)]⟩
      [(file_path 0, [encode (.Set "a" "1")])] (.set "b" "2") =
      (.ok (), ⟨0, [], [("a", ⟨0, 0⟩), ("b", ⟨0, 18⟩)]⟩,
        [(file_path 0, [encode (.Set "a" "1"), encode (.Set "b" "2")])]) := rfl
  have h3 : stepOp ⟨0, [], [("a", ⟨0, 0⟩), ("b", ⟨0, 18⟩)]⟩
      [(file_path 0, [encode (.Set "a" "1"), encode (.Set "b" "2")])]
      (.remove "a") =
      (.ok (), ⟨0, [], [("b", ⟨0, 18⟩)]⟩,
        [(file_path 0, [encode (.Set "a" "1"), encode (.Set "b" "2"),
          encode (.Rm "a")])]) := rfl
  have hrun : RunPres ⟨0, [], []⟩ [] [.set "a" "1", .set "b" "2", .remove "a"]
      ⟨0, [], [("b", ⟨0, 18⟩)]⟩
      [(file_path 0, [encode (.Set "a" "1"), encode (.Set "b" "2"),
        encode (.Rm "a")])] :=
    RunPres.cons h1 (fun n h => absurd h (by simp [diskLookup]))
      (RunPres.cons h2 (fun n h => by
        unfold diskLookup at h ⊢
        dsimp only at h ⊢
        by_cases hn : file_path 0 = n
        · rw [if_pos hn]
          rfl
        · rw [if_neg hn] at h
          exact absurd h (by simp [diskLookup]))
        (RunPres.cons h3 (fun n h => by
          unfold diskLookup at h ⊢
          dsimp only at h ⊢
          by_cases hn : file_path 0 = n
          · rw [if_pos hn]
            rfl
          · rw [if_neg hn] at h
            exact absurd h (by simp [diskLookup]))
          (RunPres.nil _ _)))
  have hload : load_file_ids [file_path 0] = .ok [0] := by decide
  have hu0 : update_cache [] 0
      [(file_path 0, [encode (.Set "a" "1"), encode (.Set "b" "2"),
        encode (.Rm "a")])] = .ok [("b", ⟨0, 18⟩)] := by
    unfold update_cache
    rw [show diskLookup
        [(file_path 0, [encode (.Set "a" "1"), encode (.Set "b" "2"),
          encode (.Rm "a")])] (file_path 0) =
      some [encode (.Set "a" "1"), encode (.Set "b" "2"), encode (.Rm "a")]
      from rfl]
    dsimp only
    show replayReads 0 [] 0 [.ok (encode (.Set "a" "1")),
      .ok (encode (.Set "b" "2")), .ok (encode (.Rm "a"))] = _
    rw [replayReads, decode_rustTrim_encode]
    dsimp only
    rw [replayReads, decode_rustTrim_encode]
    dsimp only
    rw [replayReads, decode_rustTrim_encode]
    dsimp only
    rw [replayReads]
    rfl
  have hopen : KvStore.open
      [(file_path 0, [encode (.Set "a" "1"), encode (.Set "b" "2"),
        encode (.Rm "a")])] = .ok ⟨0, [0], [("b", ⟨0, 18⟩)]⟩ := by
    unfold KvStore.open
    rw [show diskNames
        [(file_path 0, [encode (.Set "a" "1"), encode (.Set "b" "2"),
          encode (.Rm "a")])] = [file_path 0] from rfl, hload]
    dsimp only
    rw [List.foldlM_cons, hu0, except_bind_ok, List.foldlM_nil]
    rw [show (pure [("b", (⟨0, 18⟩ : KvLocation))] : Except KvError Cache) =
      .ok [("b", ⟨0, 18⟩)] from rfl]
    rfl
  have happ := C1_recovery_equivalence_amended
    [.set "a" "1", .set "b" "2", .remove "a"]
    ⟨0, [], [("b", ⟨0, 18⟩)]⟩
    [(file_path 0, [encode (.Set "a" "1"), encode (.Set "b" "2"),
      encode (.Rm "a")])]
    hrun (by decide)
  obtain ⟨hcache, hget⟩ := happ.2 ⟨0, [0], [("b", ⟨0, 18⟩)]⟩ hopen
  exact ⟨hcache, hget "b"⟩

/-! ## The compaction-resurrection counterexample to recovery equivalence -/

/-- Record written by the first set of key "a". -/
def recA : String := encode (.Set "a" "1")

/-- Oversized record for key "b" (crosses the rotation threshold). -/
def recB : String := encode (.Set "b" bigA)

/-- Record of set "c" "1". -/
def recC1 : String := encode (.Set "c" "1")

/-- The remove record for key "a"; the only tombstone of the trace. -/
def recRmA : String := encode (.Rm "a")

/-- Oversized record for key "d". -/
def recD : String := encode (.Set "d" bigA)

/-- Oversized filler record for key "f". -/
def recF : String := encode (.Set "f" bigA)

/-- Record of set "c" "2". -/
def recC2 : String := encode (.Set "c" "2")

/-- Record of set "d" "2". -/
def recD2 : String := encode (.Set "d" "2")

/-- Oversized record for key "g" (triggers the compacting rotation). -/
def recG : String := encode (.Set "g" bigA)

/-- The sixteen-operation trace whose compaction deletes the segment
holding the tombstone of "a" while the segment with its older `Set`
record stays referenced. -/
def resurrectOps : List Op :=
  [.set "a" "1", .set "b" bigA, .set "c" "1", .remove "a", .set "d" bigA,
   .set "f" bigA, .set "f" bigA, .set "f" bigA, .set "f" bigA,
   .set "f" bigA, .set "f" bigA, .set "f" bigA, .set "f" bigA,
   .set "c" "2", .set "d" "2", .set "g" bigA]

/-- The directory left by the trace: segments 1 through 8 (among them
segment 1 with the tombstone of "a") were deleted by the compaction at
id 10; segment 0 still holds the old set of "a". -/
def resurrectDisk : Disk :=
  [(file_path 0, [recA, recB]),
   (file_path 9, [recF]),
   (file_path 10, [recC2, recD2, recG])]

/-- The live store after the trace: "a" is absent. -/
def resurrectLive : KvStore :=
  ⟨11, [0, 9, 10],
   [("b", ⟨0, 18⟩), ("c", ⟨10, 0⟩), ("d", ⟨10, 18⟩), ("f", ⟨9, 0⟩),
    ("g", ⟨10, 36⟩)]⟩

/-- The store rebuilt by reopening the directory: replay of segment 0
finds the set of "a" and no tombstone survives, so "a" reappears. -/
def resurrectReopened : KvStore :=
  ⟨10, [0, 9, 10],
   [("a", ⟨0, 0⟩), ("b", ⟨0, 18⟩), ("f", ⟨9, 0⟩), ("c", ⟨10, 0⟩),
    ("d", ⟨10, 18⟩), ("g", ⟨10, 36⟩)]⟩


/-- Evaluation rule for open, given the listing and the replay result. -/
theorem open_eval (d : Disk) (ids : List Nat) (cache : Cache)
    (hload : load_file_ids (diskNames d) = .ok ids)
    (hfold : ids.foldlM (fun c i => update_cache c i d) ([] : Cache) = .ok cache) :
    KvStore.open d = .ok ⟨(ids.getLast?).getD 0, ids, cache⟩ := by
  unfold KvStore.open
  rw [hload]
  dsimp only
  rw [hfold]

/-- C1 counterexample.  Recovery equivalence fails: after this trace of
sixteen successful set/remove operations from a fresh store, the
compaction triggered by the rotation at id 10 deletes segments 1-8,
among them segment 1 holding the only `Rm` record for key "a", while
segment 0 with the older `Set "a" "1"` record stays referenced (through
key "b").  The live store answers `get "a"` with `Ok None`, but the
store rebuilt by `open` over the very same directory replays the
surviving `Set` and answers `Ok (Some "1")`: the key is resurrected, so
`get` does not return the same result as before closing. -/
theorem C1_counterexample_compaction_resurrects :
    KvStore.open [] = .ok ⟨0, [], []⟩ ∧
    RunOk ⟨0, [], []⟩ [] resurrectOps resurrectLive resurrectDisk ∧
    KvStore.open resurrectDisk = .ok resurrectReopened ∧
    KvStore.get resurrectLive resurrectDisk "a" = .ok none ∧
    KvStore.get resurrectReopened resurrectDisk "a" = .ok (some "1") := by
  have hst1 : stepOp ⟨0, [], []⟩
      [] (.set "a" "1") =
      (.ok (), ⟨0, [], [("a", ⟨0, 0⟩)]⟩,
       [(file_path 0, [recA])]) := rfl
  have hst2 : stepOp ⟨0, [], [("a", ⟨0, 0⟩)]⟩
      [(file_path 0, [recA])] (.set "b" bigA) =
      (.ok (), ⟨1, [0], [("a", ⟨0, 0⟩), ("b", ⟨0, 18⟩)]⟩,
       [(file_path 0, [recA, recB])]) := by
    show KvStore.set ⟨0, [], [("a", ⟨0, 0⟩)]⟩
      [(file_path 0, [recA])] "b" bigA = _
    rw [set_run_rotate_compact ⟨0, [], [("a", ⟨0, 0⟩)]⟩
      [(file_path 0, [recA])] "b" bigA
      (by
      show LOG_FILE_SIZE <
        fileSize ([encode (.Set "a" "1")] ++ [encode (.Set "b" bigA)])
      rw [fileSize_append, fileSize_single_bigA "b" (by decide)]
      decide)
      rfl]
    rfl
  have hst3 : stepOp ⟨1, [0], [("a", ⟨0, 0⟩), ("b", ⟨0, 18⟩)]⟩
      [(file_path 0, [recA, recB])] (.set "c" "1") =
      (.ok (), ⟨1, [0], [("a", ⟨0, 0⟩), ("b", ⟨0, 18⟩), ("c", ⟨1, 0⟩)]⟩,
       [(file_path 0, [recA, recB]),
      (file_path 1, [recC1])]) := rfl
  have hst4 : stepOp ⟨1, [0], [("a", ⟨0, 0⟩), ("b", ⟨0, 18⟩), ("c", ⟨1, 0⟩)]⟩
      [(file_path 0, [recA, recB]),
      (file_path 1, [recC1])] (.remove "a") =
      (.ok (), ⟨1, [0], [("b", ⟨0, 18⟩), ("c", ⟨1, 0⟩)]⟩,
       [(file_path 0, [recA, recB]),
      (file_path 1, [recC1, recRmA])]) := rfl
  have hst5 : stepOp ⟨1, [0], [("b", ⟨0, 18⟩), ("c", ⟨1, 0⟩)]⟩
      [(file_path 0, [recA, recB]),
      (file_path 1, [recC1, recRmA])] (.set "d" bigA) =
      (.ok (), ⟨2, [0, 1], [("b", ⟨0, 18⟩), ("c", ⟨1, 0⟩), ("d", ⟨1, 29⟩)]⟩,
       [(file_path 0, [recA, recB]),
      (file_path 1, [recC1, recRmA, recD])]) := by
    show KvStore.set ⟨1, [0], [("b", ⟨0, 18⟩), ("c", ⟨1, 0⟩)]⟩
      [(file_path 0, [recA, recB]),
      (file_path 1, [recC1, recRmA])] "d" bigA = _
    rw [set_run_rotate ⟨1, [0], [("b", ⟨0, 18⟩), ("c", ⟨1, 0⟩)]⟩
      [(file_path 0, [recA, recB]),
      (file_path 1, [recC1, recRmA])] "d" bigA
      (by
      show LOG_FILE_SIZE <
        fileSize ([encode (.Set "c" "1"), encode (.Rm "a")] ++ [encode (.Set "d" bigA)])
      rw [fileSize_append, fileSize_single_bigA "d" (by decide)]
      decide)
      (by decide)]
    rfl
  have hst6 : stepOp ⟨2, [0, 1], [("b", ⟨0, 18⟩), ("c", ⟨1, 0⟩), ("d", ⟨1, 29⟩)]⟩
      [(file_path 0, [recA, recB]),
      (file_path 1, [recC1, recRmA, recD])] (.set "f" bigA) =
      (.ok (), ⟨3, [0, 1, 2], [("b", ⟨0, 18⟩), ("c", ⟨1, 0⟩), ("d", ⟨1, 29⟩), ("f", ⟨2, 0⟩)]⟩,
       [(file_path 0, [recA, recB]),
      (file_path 1, [recC1, recRmA, recD]),
      (file_path 2, [recF])]) := by
    show KvStore.set ⟨2, [0, 1], [("b", ⟨0, 18⟩), ("c", ⟨1, 0⟩), ("d", ⟨1, 29⟩)]⟩
      [(file_path 0, [recA, recB]),
      (file_path 1, [recC1, recRmA, recD])] "f" bigA = _
    rw [set_run_rotate ⟨2, [0, 1], [("b", ⟨0, 18⟩), ("c", ⟨1, 0⟩), ("d", ⟨1, 29⟩)]⟩
      [(file_path 0, [recA, recB]),
      (file_path 1, [recC1, recRmA, recD])] "f" bigA
      (by
      show LOG_FILE_SIZE < fileSize ([] ++ [encode (.Set "f" bigA)])
      rw [List.nil_append, fileSize_single_bigA "f" (by decide)]
      decide)
      (by decide)]
    rfl
  have hst7 : stepOp ⟨3, [0, 1, 2], [("b", ⟨0, 18⟩), ("c", ⟨1, 0⟩), ("d", ⟨1, 29⟩), ("f", ⟨2, 0⟩)]⟩
      [(file_path 0, [recA, recB]),
      (file_path 1, [recC1, recRmA, recD]),
      (file_path 2, [recF])] (.set "f" bigA) =
      (.ok (), ⟨4, [0, 1, 2, 3], [("b", ⟨0, 18⟩), ("c", ⟨1, 0⟩), ("d", ⟨1, 29⟩), ("f", ⟨3, 0⟩)]⟩,
       [(file_path 0, [recA, recB]),
      (file_path 1, [recC1, recRmA, recD]),
      (file_path 2, [recF]),
      (file_path 3, [recF])]) := by
    show KvStore.set ⟨3, [0, 1, 2], [("b", ⟨0, 18⟩), ("c", ⟨1, 0⟩), ("d", ⟨1, 29⟩), ("f", ⟨2, 0⟩)]⟩
      [(file_path 0, [recA, recB]),
      (file_path 1, [recC1, recRmA, recD]),
      (file_path 2, [recF])] "f" bigA = _
    rw [set_run_rotate ⟨3, [0, 1, 2], [("b", ⟨0, 18⟩), ("c", ⟨1, 0⟩), ("d", ⟨1, 29⟩), ("f", ⟨2, 0⟩)]⟩
      [(file_path 0, [recA, recB]),
      (file_path 1, [recC1, recRmA, recD]),
      (file_path 2, [recF])] "f" bigA
      (by
      show LOG_FILE_SIZE < fileSize ([] ++ [encode (.Set "f" bigA)])
      rw [List.nil_append, fileSize_single_bigA "f" (by decide)]
      decide)
      (by decide)]
    rfl
  have hst8 : stepOp ⟨4, [0, 1, 2, 3], [("b", ⟨0, 18⟩), ("c", ⟨1, 0⟩), ("d", ⟨1, 29⟩), ("f", ⟨3, 0⟩)]⟩
      [(file_path 0, [recA, recB]),
      (file_path 1, [recC1, recRmA, recD]),
      (file_path 2, [recF]),
      (file_path 3, [recF])] (.set "f" bigA) =
      (.ok (), ⟨5, [0, 1, 2, 3, 4], [("b", ⟨0, 18⟩), ("c", ⟨1, 0⟩), ("d", ⟨1, 29⟩), ("f", ⟨4, 0⟩)]⟩,
       [(file_path 0, [recA, recB]),
      (file_path 1, [recC1, recRmA, recD]),
      (file_path 2, [recF]),
      (file_path 3, [recF]),
      (file_path 4, [recF])]) := by
    show KvStore.set ⟨4, [0, 1, 2, 3], [("b", ⟨0, 18⟩), ("c", ⟨1, 0⟩), ("d", ⟨1, 29⟩), ("f", ⟨3, 0⟩)]⟩
      [(file_path 0, [recA, recB]),
      (file_path 1, [recC1, recRmA, recD]),
      (file_path 2, [recF]),
      (file_path 3, [recF])] "f" bigA = _
    rw [set_run_rotate ⟨4, [0, 1, 2, 3], [("b", ⟨0, 18⟩), ("c", ⟨1, 0⟩), ("d", ⟨1, 29⟩), ("f", ⟨3, 0⟩)]⟩
      [(file_path 0, [recA, recB]),
      (file_path 1, [recC1, recRmA, recD]),
      (file_path 2, [recF]),
      (file_path 3, [recF])] "f" bigA
      (by
      show LOG_FILE_SIZE < fileSize ([] ++ [encode (.Set "f" bigA)])
      rw [List.nil_append, fileSize_single_bigA "f" (by decide)]
      decide)
      (by decide)]
    rfl
  have hst9 : stepOp ⟨5, [0, 1, 2, 3, 4], [("b", ⟨0, 18⟩), ("c", ⟨1, 0⟩), ("d", ⟨1, 29⟩), ("f", ⟨4, 0⟩)]⟩
      [(file_path 0, [recA, recB]),
      (file_path 1, [recC1, recRmA, recD]),
      (file_path 2, [recF]),
      (file_path 3, [recF]),
      (file_path 4, [recF])] (.set "f" bigA) =
      (.ok (), ⟨6, [0, 1, 2, 3, 4, 5], [("b", ⟨0, 18⟩), ("c", ⟨1, 0⟩), ("d", ⟨1, 29⟩), ("f", ⟨5, 0⟩)]⟩,
       [(file_path 0, [recA, recB]),
      (file_path 1, [recC1, recRmA, recD]),
      (file_path 2, [recF]),
      (file_path 3, [recF]),
      (file_path 4, [recF]),
      (file_path 5, [recF])]) := by
    show KvStore.set ⟨5, [0, 1, 2, 3, 4], [("b", ⟨0, 18⟩), ("c", ⟨1, 0⟩), ("d", ⟨1, 29⟩), ("f", ⟨4, 0⟩)]⟩
      [(file_path 0, [recA, recB]),
      (file_path 1, [recC1, recRmA, recD]),
      (file_path 2, [recF]),
      (file_path 3, [recF]),
      (file_path 4, [recF])] "f" bigA = _
    rw [set_run_rotate ⟨5, [0, 1, 2, 3, 4], [("b", ⟨0, 18⟩), ("c", ⟨1, 0⟩), ("d", ⟨1, 29⟩), ("f", ⟨4, 0⟩)]⟩
      [(file_path 0, [recA, recB]),
      (file_path 1, [recC1, recRmA, recD]),
      (file_path 2, [recF]),
      (file_path 3, [recF]),
      (file_path 4, [recF])] "f" bigA
      (by
      show LOG_FILE_SIZE < fileSize ([] ++ [encode (.Set "f" bigA)])
      rw [List.nil_append, fileSize_single_bigA "f" (by decide)]
      decide)
      (by decide)]
    rfl
  have hst10 : stepOp ⟨6, [0, 1, 2, 3, 4, 5], [("b", ⟨0, 18⟩), ("c", ⟨1, 0⟩), ("d", ⟨1, 29⟩), ("f", ⟨5, 0⟩)]⟩
      [(file_path 0, [recA, recB]),
      (file_path 1, [recC1, recRmA, recD]),
      (file_path 2, [recF]),
      (file_path 3, [recF]),
      (file_path 4, [recF]),
      (file_path 5, [recF])] (.set "f" bigA) =
      (.ok (), ⟨7, [0, 1, 2, 3, 4, 5, 6], [("b", ⟨0, 18⟩), ("c", ⟨1, 0⟩), ("d", ⟨1, 29⟩), ("f", ⟨6, 0⟩)]⟩,
       [(file_path 0, [recA, recB]),
      (file_path 1, [recC1, recRmA, recD]),
      (file_path 2, [recF]),
      (file_path 3, [recF]),
      (file_path 4, [recF]),
      (file_path 5, [recF]),
      (file_path 6, [recF])]) := by
    show KvStore.set ⟨6, [0, 1, 2, 3, 4, 5], [("b", ⟨0, 18⟩), ("c", ⟨1, 0⟩), ("d", ⟨1, 29⟩), ("f", ⟨5, 0⟩)]⟩
      [(file_path 0, [recA, recB]),
      (file_path 1, [recC1, recRmA, recD]),
      (file_path 2, [recF]),
      (file_path 3, [recF]),
      (file_path 4, [recF]),
      (file_path 5, [recF])] "f" bigA = _
    rw [set_run_rotate ⟨6, [0, 1, 2, 3, 4, 5], [("b", ⟨0, 18⟩), ("c", ⟨1, 0⟩), ("d", ⟨1, 29⟩), ("f", ⟨5, 0⟩)]⟩
      [(file_path 0, [recA, recB]),
      (file_path 1, [recC1, recRmA, recD]),
      (file_path 2, [recF]),
      (file_path 3, [recF]),
      (file_path 4, [recF]),
      (file_path 5, [recF])] "f" bigA
      (by
      show LOG_FILE_SIZE < fileSize ([] ++ [encode (.Set "f" bigA)])
      rw [List.nil_append, fileSize_single_bigA "f" (by decide)]
      decide)
      (by decide)]
    rfl
  have hst11 : stepOp ⟨7, [0, 1, 2, 3, 4, 5, 6], [("b", ⟨0, 18⟩), ("c", ⟨1, 0⟩), ("d", ⟨1, 29⟩), ("f", ⟨6, 0⟩)]⟩
      [(file_path 0, [recA, recB]),
      (file_path 1, [recC1, recRmA, recD]),
      (file_path 2, [recF]),
      (file_path 3, [recF]),
      (file_path 4, [recF]),
      (file_path 5, [recF]),
      (file_path 6, [recF])] (.set "f" bigA) =
      (.ok (), ⟨8, [0, 1, 2, 3, 4, 5, 6, 7], [("b", ⟨0, 18⟩), ("c", ⟨1, 0⟩), ("d", ⟨1, 29⟩), ("f", ⟨7, 0⟩)]⟩,
       [(file_path 0, [recA, recB]),
      (file_path 1, [recC1, recRmA, recD]),
      (file_path 2, [recF]),
      (file_path 3, [recF]),
      (file_path 4, [recF]),
      (file_path 5, [recF]),
      (file_path 6, [recF]),
      (file_path 7, [recF])]) := by
    show KvStore.set ⟨7, [0, 1, 2, 3, 4, 5, 6], [("b", ⟨0, 18⟩), ("c", ⟨1, 0⟩), ("d", ⟨1, 29⟩), ("f", ⟨6, 0⟩)]⟩
      [(file_path 0, [recA, recB]),
      (file_path 1, [recC1, recRmA, recD]),
      (file_path 2, [recF]),
      (file_path 3, [recF]),
      (file_path 4, [recF]),
      (file_path 5, [recF]),
      (file_path 6, [recF])] "f" bigA = _
    rw [set_run_rotate ⟨7, [0, 1, 2, 3, 4, 5, 6], [("b", ⟨0, 18⟩), ("c", ⟨1, 0⟩), ("d", ⟨1, 29⟩), ("f", ⟨6, 0⟩)]⟩
      [(file_path 0, [recA, recB]),
      (file_path 1, [recC1, recRmA, recD]),
      (file_path 2, [recF]),
      (file_path 3, [recF]),
      (file_path 4, [recF]),
      (file_path 5, [recF]),
      (file_path 6, [recF])] "f" bigA
      (by
      show LOG_FILE_SIZE < fileSize ([] ++ [encode (.Set "f" bigA)])
      rw [List.nil_append, fileSize_single_bigA "f" (by decide)]
      decide)
      (by decide)]
    rfl
  have hst12 : stepOp ⟨8, [0, 1, 2, 3, 4, 5, 6, 7], [("b", ⟨0, 18⟩), ("c", ⟨1, 0⟩), ("d", ⟨1, 29⟩), ("f", ⟨7, 0⟩)]⟩
      [(file_path 0, [recA, recB]),
      (file_path 1, [recC1, recRmA, recD]),
      (file_path 2, [recF]),
      (file_path 3, [recF]),
      (file_path 4, [recF]),
      (file_path 5, [recF]),
      (file_path 6, [recF]),
      (file_path 7, [recF])] (.set "f" bigA) =
      (.ok (), ⟨9, [0, 1, 2, 3, 4, 5, 6, 7, 8], [("b", ⟨0, 18⟩), ("c", ⟨1, 0⟩), ("d", ⟨1, 29⟩), ("f", ⟨8, 0⟩)]⟩,
       [(file_path 0, [recA, recB]),
      (file_path 1, [recC1, recRmA, recD]),
      (file_path 2, [recF]),
      (file_path 3, [recF]),
      (file_path 4, [recF]),
      (file_path 5, [recF]),
      (file_path 6, [recF]),
      (file_path 7, [recF]),
      (file_path 8, [recF])]) := by
    show KvStore.set ⟨8, [0, 1, 2, 3, 4, 5, 6, 7], [("b", ⟨0, 18⟩), ("c", ⟨1, 0⟩), ("d", ⟨1, 29⟩), ("f", ⟨7, 0⟩)]⟩
      [(file_path 0, [recA, recB]),
      (file_path 1, [recC1, recRmA, recD]),
      (file_path 2, [recF]),
      (file_path 3, [recF]),
      (file_path 4, [recF]),
      (file_path 5, [recF]),
      (file_path 6, [recF]),
      (file_path 7, [recF])] "f" bigA = _
    rw [set_run_rotate ⟨8, [0, 1, 2, 3, 4, 5, 6, 7], [("b", ⟨0, 18⟩), ("c", ⟨1, 0⟩), ("d", ⟨1, 29⟩), ("f", ⟨7, 0⟩)]⟩
      [(file_path 0, [recA, recB]),
      (file_path 1, [recC1, recRmA, recD]),
      (file_path 2, [recF]),
      (file_path 3, [recF]),
      (file_path 4, [recF]),
      (file_path 5, [recF]),
      (file_path 6, [recF]),
      (file_path 7, [recF])] "f" bigA
      (by
      show LOG_FILE_SIZE < fileSize ([] ++ [encode (.Set "f" bigA)])
      rw [List.nil_append, fileSize_single_bigA "f" (by decide)]
      decide)
      (by decide)]
    rfl
  have hst13 : stepOp ⟨9, [0, 1, 2, 3, 4, 5, 6, 7, 8], [("b", ⟨0, 18⟩), ("c", ⟨1, 0⟩), ("d", ⟨1, 29⟩), ("f", ⟨8, 0⟩)]⟩
      [(file_path 0, [recA, recB]),
      (file_path 1, [recC1, recRmA, recD]),
      (file_path 2, [recF]),
      (file_path 3, [recF]),
      (file_path 4, [recF]),
      (file_path 5, [recF]),
      (file_path 6, [recF]),
      (file_path 7, [recF]),
      (file_path 8, [recF])] (.set "f" bigA) =
      (.ok (), ⟨10, [0, 1, 2, 3, 4, 5, 6, 7, 8, 9], [("b", ⟨0, 18⟩), ("c", ⟨1, 0⟩), ("d", ⟨1, 29⟩), ("f", ⟨9, 0⟩)]⟩,
       [(file_path 0, [recA, recB]),
      (file_path 1, [recC1, recRmA, recD]),
      (file_path 2, [recF]),
      (file_path 3, [recF]),
      (file_path 4, [recF]),
      (file_path 5, [recF]),
      (file_path 6, [recF]),
      (file_path 7, [recF]),
      (file_path 8, [recF]),
      (file_path 9, [recF])]) := by
    show KvStore.set ⟨9, [0, 1, 2, 3, 4, 5, 6, 7, 8], [("b", ⟨0, 18⟩), ("c", ⟨1, 0⟩), ("d", ⟨1, 29⟩), ("f", ⟨8, 0⟩)]⟩
      [(file_path 0, [recA, recB]),
      (file_path 1, [recC1, recRmA, recD]),
      (file_path 2, [recF]),
      (file_path 3, [recF]),
      (file_path 4, [recF]),
      (file_path 5, [recF]),
      (file_path 6, [recF]),
      (file_path 7, [recF]),
      (file_path 8, [recF])] "f" bigA = _
    rw [set_run_rotate ⟨9, [0, 1, 2, 3, 4, 5, 6, 7, 8], [("b", ⟨0, 18⟩), ("c", ⟨1, 0⟩), ("d", ⟨1, 29⟩), ("f", ⟨8, 0⟩)]⟩
      [(file_path 0, [recA, recB]),
      (file_path 1, [recC1, recRmA, recD]),
      (file_path 2, [recF]),
      (file_path 3, [recF]),
      (file_path 4, [recF]),
      (file_path 5, [recF]),
      (file_path 6, [recF]),
      (file_path 7, [recF]),
      (file_path 8, [recF])] "f" bigA
      (by
      show LOG_FILE_SIZE < fileSize ([] ++ [encode (.Set "f" bigA)])
      rw [List.nil_append, fileSize_single_bigA "f" (by decide)]
      decide)
      (by decide)]
    rfl
  have hst14 : stepOp ⟨10, [0, 1, 2, 3, 4, 5, 6, 7, 8, 9], [("b", ⟨0, 18⟩), ("c", ⟨1, 0⟩), ("d", ⟨1, 29⟩), ("f", ⟨9, 0⟩)]⟩
      [(file_path 0, [recA, recB]),
      (file_path 1, [recC1, recRmA, recD]),
      (file_path 2, [recF]),
      (file_path 3, [recF]),
      (file_path 4, [recF]),
      (file_path 5, [recF]),
      (file_path 6, [recF]),
      (file_path 7, [recF]),
      (file_path 8, [recF]),
      (file_path 9, [recF])] (.set "c" "2") =
      (.ok (), ⟨10, [0, 1, 2, 3, 4, 5, 6, 7, 8, 9], [("b", ⟨0, 18⟩), ("c", ⟨10, 0⟩), ("d", ⟨1, 29⟩), ("f", ⟨9, 0⟩)]⟩,
       [(file_path 0, [recA, recB]),
      (file_path 1, [recC1, recRmA, recD]),
      (file_path 2, [recF]),
      (file_path 3, [recF]),
      (file_path 4, [recF]),
      (file_path 5, [recF]),
      (file_path 6, [recF]),
      (file_path 7, [recF]),
      (file_path 8, [recF]),
      (file_path 9, [recF]),
      (file_path 10, [recC2])]) := rfl
  have hst15 : stepOp ⟨10, [0, 1, 2, 3, 4, 5, 6, 7, 8, 9], [("b", ⟨0, 18⟩), ("c", ⟨10, 0⟩), ("d", ⟨1, 29⟩), ("f", ⟨9, 0⟩)]⟩
      [(file_path 0, [recA, recB]),
      (file_path 1, [recC1, recRmA, recD]),
      (file_path 2, [recF]),
      (file_path 3, [recF]),
      (file_path 4, [recF]),
      (file_path 5, [recF]),
      (file_path 6, [recF]),
      (file_path 7, [recF]),
      (file_path 8, [recF]),
      (file_path 9, [recF]),
      (file_path 10, [recC2])] (.set "d" "2") =
      (.ok (), ⟨10, [0, 1, 2, 3, 4, 5, 6, 7, 8, 9], [("b", ⟨0, 18⟩), ("c", ⟨10, 0⟩), ("d", ⟨10, 18⟩), ("f", ⟨9, 0⟩)]⟩,
       [(file_path 0, [recA, recB]),
      (file_path 1, [recC1, recRmA, recD]),
      (file_path 2, [recF]),
      (file_path 3, [recF]),
      (file_path 4, [recF]),
      (file_path 5, [recF]),
      (file_path 6, [recF]),
      (file_path 7, [recF]),
      (file_path 8, [recF]),
      (file_path 9, [recF]),
      (file_path 10, [recC2, recD2])]) := rfl
  have hst16 : stepOp ⟨10, [0, 1, 2, 3, 4, 5, 6, 7, 8, 9], [("b", ⟨0, 18⟩), ("c", ⟨10, 0⟩), ("d", ⟨10, 18⟩), ("f", ⟨9, 0⟩)]⟩
      [(file_path 0, [recA, recB]),
      (file_path 1, [recC1, recRmA, recD]),
      (file_path 2, [recF]),
      (file_path 3, [recF]),
      (file_path 4, [recF]),
      (file_path 5, [recF]),
      (file_path 6, [recF]),
      (file_path 7, [recF]),
      (file_path 8, [recF]),
      (file_path 9, [recF]),
      (file_path 10, [recC2, recD2])] (.set "g" bigA) =
      (.ok (), resurrectLive,
       resurrectDisk) := by
    show KvStore.set ⟨10, [0, 1, 2, 3, 4, 5, 6, 7, 8, 9], [("b", ⟨0, 18⟩), ("c", ⟨10, 0⟩), ("d", ⟨10, 18⟩), ("f", ⟨9, 0⟩)]⟩
      [(file_path 0, [recA, recB]),
      (file_path 1, [recC1, recRmA, recD]),
      (file_path 2, [recF]),
      (file_path 3, [recF]),
      (file_path 4, [recF]),
      (file_path 5, [recF]),
      (file_path 6, [recF]),
      (file_path 7, [recF]),
      (file_path 8, [recF]),
      (file_path 9, [recF]),
      (file_path 10, [recC2, recD2])] "g" bigA = _
    rw [set_run_rotate_compact ⟨10, [0, 1, 2, 3, 4, 5, 6, 7, 8, 9], [("b", ⟨0, 18⟩), ("c", ⟨10, 0⟩), ("d", ⟨10, 18⟩), ("f", ⟨9, 0⟩)]⟩
      [(file_path 0, [recA, recB]),
      (file_path 1, [recC1, recRmA, recD]),
      (file_path 2, [recF]),
      (file_path 3, [recF]),
      (file_path 4, [recF]),
      (file_path 5, [recF]),
      (file_path 6, [recF]),
      (file_path 7, [recF]),
      (file_path 8, [recF]),
      (file_path 9, [recF]),
      (file_path 10, [recC2, recD2])] "g" bigA
      (by
      show LOG_FILE_SIZE <
        fileSize ([encode (.Set "c" "2"), encode (.Set "d" "2")] ++ [encode (.Set "g" bigA)])
      rw [fileSize_append, fileSize_single_bigA "g" (by decide)]
      decide)
      rfl]
    rfl
  have hload : load_file_ids [file_path 0, file_path 9, file_path 10] =
      .ok [0, 9, 10] := by decide
  have hu0 : update_cache [] 0 resurrectDisk =
      .ok [("a", ⟨0, 0⟩), ("b", ⟨0, 18⟩)] := by
    unfold update_cache
    rw [show diskLookup resurrectDisk (file_path 0) = some [recA, recB] from rfl]
    dsimp only
    show replayReads 0 [] 0
      [.ok (encode (.Set "a" "1")), .ok (encode (.Set "b" bigA))] = _
    rw [replayReads, decode_rustTrim_encode]
    dsimp only
    rw [replayReads, decode_rustTrim_encode]
    dsimp only
    rw [replayReads]
    rfl
  have hu9 : update_cache [("a", ⟨0, 0⟩), ("b", ⟨0, 18⟩)] 9 resurrectDisk =
      .ok [("a", ⟨0, 0⟩), ("b", ⟨0, 18⟩), ("f", ⟨9, 0⟩)] := by
    unfold update_cache
    rw [show diskLookup resurrectDisk (file_path 9) = some [recF] from rfl]
    dsimp only
    show replayReads 9 [("a", ⟨0, 0⟩), ("b", ⟨0, 18⟩)] 0
      [.ok (encode (.Set "f" bigA))] = _
    rw [replayReads, decode_rustTrim_encode]
    dsimp only
    rw [replayReads]
    rfl
  have hu10 : update_cache [("a", ⟨0, 0⟩), ("b", ⟨0, 18⟩), ("f", ⟨9, 0⟩)] 10
      resurrectDisk =
      .ok [("a", ⟨0, 0⟩), ("b", ⟨0, 18⟩), ("f", ⟨9, 0⟩), ("c", ⟨10, 0⟩),
        ("d", ⟨10, 18⟩), ("g", ⟨10, 36⟩)] := by
    unfold update_cache
    rw [show diskLookup resurrectDisk (file_path 10) =
      some [recC2, recD2, recG] from rfl]
    dsimp only
    show replayReads 10 [("a", ⟨0, 0⟩), ("b", ⟨0, 18⟩), ("f", ⟨9, 0⟩)] 0
      [.ok (encode (.Set "c" "2")), .ok (encode (.Set "d" "2")),
       .ok (encode (.Set "g" bigA))] = _
    rw [replayReads, decode_rustTrim_encode]
    dsimp only
    rw [replayReads, decode_rustTrim_encode]
    dsimp only
    rw [replayReads, decode_rustTrim_encode]
    dsimp only
    rw [replayReads]
    rfl
  have hnames : diskNames resurrectDisk =
      [file_path 0, file_path 9, file_path 10] := rfl
  have hfold : ([0, 9, 10] : List Nat).foldlM
      (fun c i => update_cache c i resurrectDisk) ([] : Cache) =
      .ok [("a", ⟨0, 0⟩), ("b", ⟨0, 18⟩), ("f", ⟨9, 0⟩), ("c", ⟨10, 0⟩),
        ("d", ⟨10, 18⟩), ("g", ⟨10, 36⟩)] := by
    rw [List.foldlM_cons, hu0, except_bind_ok]
    rw [List.foldlM_cons, hu9, except_bind_ok]
    rw [List.foldlM_cons, hu10, except_bind_ok]
    exact rfl
  have hopen : KvStore.open resurrectDisk = .ok resurrectReopened :=
    open_eval resurrectDisk [0, 9, 10]
      [("a", ⟨0, 0⟩), ("b", ⟨0, 18⟩), ("f", ⟨9, 0⟩), ("c", ⟨10, 0⟩),
        ("d", ⟨10, 18⟩), ("g", ⟨10, 36⟩)]
      (by rw [hnames]; exact hload) hfold
  exact ⟨rfl,
    RunOk.cons hst1
      (RunOk.cons hst2
      (RunOk.cons hst3
      (RunOk.cons hst4
      (RunOk.cons hst5
      (RunOk.cons hst6
      (RunOk.cons hst7
      (RunOk.cons hst8
      (RunOk.cons hst9
      (RunOk.cons hst10
      (RunOk.cons hst11
      (RunOk.cons hst12
      (RunOk.cons hst13
      (RunOk.cons hst14
      (RunOk.cons hst15
      (RunOk.cons hst16
      (RunOk.nil _ _)))))))))))))))),
    hopen, rfl,
    get_found resurrectReopened resurrectDisk "a" "a" "1" 0 [] [recB] rfl rfl⟩
